import Mathlib

/-! # Parallel Canny edge detector: embedding and verification

Shallow embedding of `src/canny_parallel.cpp`.

* `double` values are modelled by the rational numbers they denote; every
  arithmetic operation rounds its exact result to binary64 (`rnd`, round to
  nearest, ties to even, gradual underflow).  No operation of the program
  overflows on `int` samples, so infinities arise only from `255.0 / largestG`
  with `largestG = 0`; that case is handled explicitly in `toPixel`.
* `sqrt` and `atan2` come from the C library and are parameters (`Libm`).
* `std::vector<int>` is `List Int`, `double*` is `List ℚ`; entries of the
  Canny output buffer are `Option Int`, `none` standing for the result of a
  `double → int` conversion that C++ leaves undefined.
* A parallel stage is modelled by its sequential executions: the workers run to
  completion one after the other.  `runWorkers` takes them in thread-index order
  (the order of `pthread_create`), `runWorkersIn` in any given order.  The blur,
  grayscale and gradient workers write disjoint cells and read none that another
  worker writes; the suppression workers do not, so for that stage the order is
  part of the input (`cannySuppressedIn`).
* Index expressions and allocation sizes in the access traces are computed in
  32-bit two's-complement `int` arithmetic (`int32`, `iadd`, `isub`, `imul`).
-/

namespace Canny

/-! ## binary64 arithmetic -/

/-- Number of binary digits of `n`, by halving at most `fuel` times. -/
def bitLenAux : Nat → Nat → Nat
  | 0, _ => 0
  | f + 1, n => if n = 0 then 0 else bitLenAux f (n / 2) + 1

/-- Number of binary digits of `n` (`0` for `n = 0`). -/
def bitLen (n : Nat) : Nat := bitLenAux n n

/-- Binary exponent `⌊log₂ |q|⌋` of a non-zero rational. -/
def ilog2 (q : ℚ) : ℤ :=
  if (2 : ℚ) ^ ((bitLen q.num.natAbs : ℤ) - (bitLen q.den : ℤ)) ≤ |q| then
    (bitLen q.num.natAbs : ℤ) - (bitLen q.den : ℤ)
  else (bitLen q.num.natAbs : ℤ) - (bitLen q.den : ℤ) - 1

/-- Round to the nearest integer, ties to the even one. -/
def roundNE (x : ℚ) : ℤ :=
  if x - ⌊x⌋ < 1 / 2 then ⌊x⌋
  else if 1 / 2 < x - ⌊x⌋ then ⌊x⌋ + 1
  else if ⌊x⌋ % 2 = 0 then ⌊x⌋ else ⌊x⌋ + 1

/-- Exponent of the unit in the last place of the binary64 format at `q`
(53 significant bits, minimum normal exponent -1022). -/
def ulpExp (q : ℚ) : ℤ := max (ilog2 q) (-1022) - 52

/-- Rounding of an exact result to binary64 (overflow does not occur in this program). -/
def rnd (q : ℚ) : ℚ :=
  if q = 0 then 0 else (roundNE (q / (2 : ℚ) ^ ulpExp q) : ℚ) * (2 : ℚ) ^ ulpExp q

/-- The `double` sum `a + b`. -/
def fadd (a b : ℚ) : ℚ := rnd (a + b)

/-- The `double` product `a * b`. -/
def fmul (a b : ℚ) : ℚ := rnd (a * b)

/-- The `double` quotient `a / b` for `b ≠ 0`. -/
def fdiv (a b : ℚ) : ℚ := rnd (a / b)

/-- Truncation toward zero, the value of `(int)x` when it is representable. -/
def dtrunc (q : ℚ) : ℤ := Int.tdiv q.num q.den

/-- The conversion `(int)x`: defined only when the truncated value fits in 32 bits. -/
def dtoi (q : ℚ) : Option Int :=
  if -2147483649 < q ∧ q < 2147483648 then some (dtrunc q) else none

/-- C library functions used by the gradient stage. -/
structure Libm where
  /-- The function `std::sqrt`. -/
  sqrt : ℚ → ℚ
  /-- The function `atan2`. -/
  atan2 : ℚ → ℚ → ℚ

/-! ## Thread configuration and worker partitioner -/

/-- The function `setNumThreads`: the new value of `g_numThreads`. -/
def setNumThreads (n : Int) : Int := max 1 (min n 16)

/-- The function `getNumThreads` on a given value of `g_numThreads`. -/
def getNumThreads (g_numThreads : Int) : Int := g_numThreads

/-- Scalar fields of the C++ `ThreadData` (the buffer pointers are passed separately). -/
structure ThreadData where
  threadId : Nat
  numThreads : Nat
  startRow : Nat
  endRow : Nat
  sizeRows : Nat
  sizeCols : Nat
  sizeDepth : Nat
  kernelConst : ℚ
  lowerThreshold : ℚ
  higherThreshold : ℚ

/-- The value `rowsPerThread = sizeRows / numThreads`. -/
def rowsPerThread (sizeRows numThreads : Nat) : Nat := sizeRows / numThreads

/-- The value `threadData[t].startRow`. -/
def startRowOf (sizeRows numThreads t : Nat) : Nat := t * rowsPerThread sizeRows numThreads

/-- The value `threadData[t].endRow`. -/
def endRowOf (sizeRows numThreads t : Nat) : Nat :=
  if t = numThreads - 1 then sizeRows else (t + 1) * rowsPerThread sizeRows numThreads

/-- Initialisation of `threadData[t]`, shared by the three stages. -/
def mkThreadData (numThreads sizeRows sizeCols sizeDepth : Nat) (kernelConst lowerThreshold
    higherThreshold : ℚ) (t : Nat) : ThreadData :=
  { threadId := t, numThreads := numThreads,
    startRow := startRowOf sizeRows numThreads t, endRow := endRowOf sizeRows numThreads t,
    sizeRows := sizeRows, sizeCols := sizeCols, sizeDepth := sizeDepth,
    kernelConst := kernelConst, lowerThreshold := lowerThreshold,
    higherThreshold := higherThreshold }

/-- The loop `for (int i = a; i < b; i++)` threading a state through its body. -/
def forRange {σ : Type} (a b : Nat) (body : Nat → σ → σ) (s : σ) : σ :=
  (List.range' a (b - a)).foldl (fun acc i => body i acc) s

/-- Fork/join of a stage in the execution in which worker `t` runs on `threadData[t]` and the
workers complete one after the other in index order (`runWorkersIn` takes the order as an
argument). -/
def runWorkers {σ : Type} (numThreads : Nat) (mk : Nat → ThreadData)
    (worker : ThreadData → σ → σ) (s : σ) : σ :=
  (List.range numThreads).foldl (fun acc t => worker (mk t) acc) s

/-! ## Gaussian blur -/

/-- The loop variable values `-2 .. 2`. -/
def offsets5 : List Int := [-2, -1, 0, 1, 2]

/-- The loop variable values `-1 .. 1`. -/
def offsets3 : List Int := [-1, 0, 1]

/-- The entry `kernel[a][b]`. -/
def kernelAt (kernel : List (List ℚ)) (a b : Nat) : ℚ := (kernel.getD a []).getD b 0

/-- Body of the two innermost loops of `gaussianBlurWorker` for offset `(x, y)`:
updates `(sum, sumKernel)`. -/
def blurAccum (d : ThreadData) (kernel : List (List ℚ)) (input : List Int) (i j k : Nat)
    (x y : Int) (acc : ℚ × ℚ) : ℚ × ℚ :=
  if 0 ≤ (i : Int) + x ∧ (i : Int) + x < d.sizeRows ∧ 0 ≤ (j : Int) + y ∧
      (j : Int) + y < d.sizeCols then
    (fadd acc.1 (fmul (fmul ((input.getD (((i : Int) + x).toNat * d.sizeCols * d.sizeDepth +
        ((j : Int) + y).toNat * d.sizeDepth + k) 0 : Int) : ℚ) d.kernelConst)
        (kernelAt kernel (x + 2).toNat (y + 2).toNat)),
     fadd acc.2 (fmul d.kernelConst (kernelAt kernel (x + 2).toNat (y + 2).toNat)))
  else acc

/-- The pair `(sum, sumKernel)` after the `y`/`x` loops of `gaussianBlurWorker`. -/
def blurSums (d : ThreadData) (kernel : List (List ℚ)) (input : List Int) (i j k : Nat) : ℚ × ℚ :=
  offsets5.foldl (fun acc y => offsets5.foldl (fun acc2 x =>
    blurAccum d kernel input i j k x y acc2) acc) (0, 0)

/-- The value `(int)(sum / sumKernel)` written for pixel `(i, j)`, channel `k`. -/
def blurCell (d : ThreadData) (kernel : List (List ℚ)) (input : List Int) (i j k : Nat) : Int :=
  dtrunc (fdiv (blurSums d kernel input i j k).1 (blurSums d kernel input i j k).2)

/-- The worker `gaussianBlurWorker`: fills rows `[startRow, endRow)` of the output buffer. -/
def gaussianBlurWorker (kernel : List (List ℚ)) (input : List Int) (d : ThreadData)
    (out : List Int) : List Int :=
  forRange d.startRow d.endRow (fun i out1 =>
    forRange 0 d.sizeCols (fun j out2 =>
      forRange 0 d.sizeDepth (fun k out3 =>
        out3.set (i * d.sizeCols * d.sizeDepth + j * d.sizeDepth + k)
          (blurCell d kernel input i j k)) out2) out1) out

/-- The function `gaussianBlur_parallel` run with `numThreads` workers. -/
def gaussianBlur_parallel (numThreads : Nat) (pixels : List Int) (kernel : List (List ℚ))
    (kernelConst : ℚ) (sizeRows sizeCols sizeDepth : Nat) : List Int :=
  runWorkers numThreads (mkThreadData numThreads sizeRows sizeCols sizeDepth kernelConst 0 0)
    (gaussianBlurWorker kernel pixels) (List.replicate (sizeRows * sizeCols * sizeDepth) 0)

/-! ## Grayscale reduction -/

/-- The worker `rgbToGrayscaleWorker`. -/
def rgbToGrayscaleWorker (input : List Int) (d : ThreadData) (out : List Int) : List Int :=
  forRange d.startRow d.endRow (fun i out1 =>
    forRange 0 d.sizeCols (fun j out2 =>
      out2.set (i * d.sizeCols + j)
        (Int.tdiv (forRange 0 d.sizeDepth (fun k sum =>
          sum + input.getD (i * d.sizeCols * d.sizeDepth + j * d.sizeDepth + k) 0) 0)
          d.sizeDepth)) out1) out

/-- The function `rgbToGrayscale_parallel` run with `numThreads` workers. -/
def rgbToGrayscale_parallel (numThreads : Nat) (pixels : List Int)
    (sizeRows sizeCols sizeDepth : Nat) : List Int :=
  runWorkers numThreads (mkThreadData numThreads sizeRows sizeCols sizeDepth 0 0 0)
    (rgbToGrayscaleWorker pixels) (List.replicate (sizeRows * sizeCols) 0)

/-! ## Canny filter -/

/-- Shared buffers of `cannyFilter_parallel`: `pixelsCanny`, `G`, `theta` and `largestG`. -/
@[ext]
structure CannyState where
  pixelsCanny : List (Option Int)
  G : List ℚ
  theta : List Int
  largestG : ℚ

/-- The table `gx` of `cannyPhase1Worker`. -/
def gxKernel : List (List Int) := [[-1, 0, 1], [-2, 0, 2], [-1, 0, 1]]

/-- The table `gy` of `cannyPhase1Worker`. -/
def gyKernel : List (List Int) := [[-1, -2, -1], [0, 0, 0], [1, 2, 1]]

/-- The entry `m[a][b]` of a 3x3 table. -/
def sobelAt (m : List (List Int)) (a b : Int) : Int := (m.getD a.toNat []).getD b.toNat 0

/-- The `double` literal `3.14159265`. -/
def piLit : ℚ := rnd (314159265 / 100000000)

/-- The sample `(double)inputPixels[(i + x) * sizeCols + j + y]`. -/
def grayAt (sizeCols : Nat) (input : List Int) (i j : Nat) (x y : Int) : ℚ :=
  ((input.getD (((i : Int) + x) * sizeCols + j + y).toNat 0 : Int) : ℚ)

/-- The pair `(gxValue, gyValue)` after the `x`/`y` loops of `cannyPhase1Worker`. -/
def gradSums (d : ThreadData) (input : List Int) (i j : Nat) : ℚ × ℚ :=
  offsets3.foldl (fun acc x => offsets3.foldl (fun acc2 y =>
    (fadd acc2.1 (fmul (sobelAt gxKernel (1 - x) (1 - y) : ℚ) (grayAt d.sizeCols input i j x y)),
     fadd acc2.2 (fmul (sobelAt gyKernel (1 - x) (1 - y) : ℚ) (grayAt d.sizeCols input i j x y))))
    acc) (0, 0)

/-- The magnitude `sqrt(gxValue * gxValue + gyValue * gyValue)` of pixel `(i, j)`. -/
def gradMag (m : Libm) (d : ThreadData) (input : List Int) (i j : Nat) : ℚ :=
  m.sqrt (fadd (fmul (gradSums d input i j).1 (gradSums d input i j).1)
    (fmul (gradSums d input i j).2 (gradSums d input i j).2))

/-- The quantized direction `((int)(180.0 + atanResult) / 45) * 45` of pixel `(i, j)`. -/
def gradTheta (m : Libm) (d : ThreadData) (input : List Int) (i j : Nat) : Int :=
  Int.tdiv (dtrunc (fadd 180 (fdiv (fmul (m.atan2 (gradSums d input i j).2
    (gradSums d input i j).1) 180) piLit))) 45 * 45

/-- Loop body of `cannyPhase1Worker` for pixel `(i, j)`; the second component is
`localLargestG`. -/
def cannyPhase1Pixel (m : Libm) (input : List Int) (d : ThreadData) (i j : Nat)
    (st : CannyState × ℚ) : CannyState × ℚ :=
  ({ st.1 with G := st.1.G.set (i * d.sizeCols + j) (gradMag m d input i j),
               theta := st.1.theta.set (i * d.sizeCols + j) (gradTheta m d input i j) },
   if (st.1.G.set (i * d.sizeCols + j) (gradMag m d input i j)).getD (i * d.sizeCols + j) 0 > st.2
   then (st.1.G.set (i * d.sizeCols + j) (gradMag m d input i j)).getD (i * d.sizeCols + j) 0
   else st.2)

/-- The inner `j` loop of `cannyPhase1Worker` for row `i`. -/
def cannyPhase1Row (m : Libm) (input : List Int) (d : ThreadData) (i : Nat)
    (st : CannyState × ℚ) : CannyState × ℚ :=
  forRange 1 (d.sizeCols - 1) (fun j acc => cannyPhase1Pixel m input d i j acc) st

/-- The two loops of `cannyPhase1Worker`, started with `localLargestG = 0`. -/
def cannyPhase1Loop (m : Libm) (input : List Int) (d : ThreadData) (s : CannyState) :
    CannyState × ℚ :=
  forRange (max 1 d.startRow) (min (d.sizeRows - 1) d.endRow) (cannyPhase1Row m input d) (s, 0)

/-- The worker `cannyPhase1Worker`: gradient loop, then merge of the local maximum into
`largestG` under the mutex. -/
def cannyPhase1Worker (m : Libm) (input : List Int) (d : ThreadData) (s : CannyState) :
    CannyState :=
  { (cannyPhase1Loop m input d s).1 with
    largestG := if (cannyPhase1Loop m input d s).2 > (cannyPhase1Loop m input d s).1.largestG
      then (cannyPhase1Loop m input d s).2 else (cannyPhase1Loop m input d s).1.largestG }

/-- The conversion `(int)(g * (255.0 / largestG))`.  For `largestG = 0` the quotient is
`+inf`, the product is `NaN` or infinite, and the conversion is undefined. -/
def toPixel (g largestG : ℚ) : Option Int :=
  if largestG = 0 then none else dtoi (fmul g (fdiv 255 largestG))

/-- The magnitude array after the suppression test of `cannyPhase2Worker` at pixel `(i, j)`. -/
def suppress (sizeCols : Nat) (G : List ℚ) (theta : Int) (i j : Nat) : List ℚ :=
  if theta = 0 ∨ theta = 180 then
    if G.getD (i * sizeCols + j) 0 < G.getD (i * sizeCols + j - 1) 0 ∨
        G.getD (i * sizeCols + j) 0 < G.getD (i * sizeCols + j + 1) 0 then
      G.set (i * sizeCols + j) 0 else G
  else if theta = 45 ∨ theta = 225 then
    if G.getD (i * sizeCols + j) 0 < G.getD ((i + 1) * sizeCols + j + 1) 0 ∨
        G.getD (i * sizeCols + j) 0 < G.getD ((i - 1) * sizeCols + j - 1) 0 then
      G.set (i * sizeCols + j) 0 else G
  else if theta = 90 ∨ theta = 270 then
    if G.getD (i * sizeCols + j) 0 < G.getD ((i + 1) * sizeCols + j) 0 ∨
        G.getD (i * sizeCols + j) 0 < G.getD ((i - 1) * sizeCols + j) 0 then
      G.set (i * sizeCols + j) 0 else G
  else
    if G.getD (i * sizeCols + j) 0 < G.getD ((i + 1) * sizeCols + j - 1) 0 ∨
        G.getD (i * sizeCols + j) 0 < G.getD ((i - 1) * sizeCols + j + 1) 0 then
      G.set (i * sizeCols + j) 0 else G

/-- Loop body of `cannyPhase2Worker` for pixel `(i, j)`; `largestG` is the value read at
worker start. -/
def cannyPhase2Pixel (d : ThreadData) (largestG : ℚ) (i j : Nat) (s : CannyState) :
    CannyState :=
  { s with
    G := suppress d.sizeCols s.G (s.theta.getD (i * d.sizeCols + j) 0) i j,
    pixelsCanny := s.pixelsCanny.set (i * d.sizeCols + j)
      (toPixel ((suppress d.sizeCols s.G (s.theta.getD (i * d.sizeCols + j) 0) i j).getD
        (i * d.sizeCols + j) 0) largestG) }

/-- The inner `j` loop of `cannyPhase2Worker` for row `i`. -/
def cannyPhase2Row (d : ThreadData) (largestG : ℚ) (i : Nat) (s : CannyState) : CannyState :=
  forRange 1 (d.sizeCols - 1) (fun j acc => cannyPhase2Pixel d largestG i j acc) s

/-- The worker `cannyPhase2Worker`. -/
def cannyPhase2Worker (d : ThreadData) (s : CannyState) : CannyState :=
  forRange (max 1 d.startRow) (min (d.sizeRows - 1) d.endRow) (cannyPhase2Row d s.largestG) s

/-- First loop of the border fixup: first and last row, columns `1 .. sizeCols - 2`. -/
def fixupRows (sizeRows sizeCols : Nat) (s : CannyState) : CannyState :=
  forRange 1 (sizeCols - 1) (fun j acc =>
    { acc with
      G := ((acc.G.set j (acc.G.getD (sizeCols + j) 0)).set ((sizeRows - 1) * sizeCols + j)
        ((acc.G.set j (acc.G.getD (sizeCols + j) 0)).getD ((sizeRows - 2) * sizeCols + j) 0)),
      theta := ((acc.theta.set j (acc.theta.getD (sizeCols + j) 0)).set
        ((sizeRows - 1) * sizeCols + j)
        ((acc.theta.set j (acc.theta.getD (sizeCols + j) 0)).getD
          ((sizeRows - 2) * sizeCols + j) 0)) }) s

/-- Second loop of the border fixup: first and last column, all rows. -/
def fixupCols (sizeRows sizeCols : Nat) (s : CannyState) : CannyState :=
  forRange 0 sizeRows (fun i acc =>
    { acc with
      G := ((acc.G.set (i * sizeCols) (acc.G.getD (i * sizeCols + 1) 0)).set
        (i * sizeCols + sizeCols - 1)
        ((acc.G.set (i * sizeCols) (acc.G.getD (i * sizeCols + 1) 0)).getD
          (i * sizeCols + sizeCols - 2) 0)),
      theta := ((acc.theta.set (i * sizeCols) (acc.theta.getD (i * sizeCols + 1) 0)).set
        (i * sizeCols + sizeCols - 1)
        ((acc.theta.set (i * sizeCols) (acc.theta.getD (i * sizeCols + 1) 0)).getD
          (i * sizeCols + sizeCols - 2) 0)) }) s

/-- The sequential border fixup of `cannyFilter_parallel`. -/
def borderFixup (sizeRows sizeCols : Nat) (s : CannyState) : CannyState :=
  fixupCols sizeRows sizeCols (fixupRows sizeRows sizeCols s)

/-- The offsets `(x, y)` visited by the neighbour scan of the hysteresis loop, in scan order. -/
def neighbours8 : List (Int × Int) :=
  [(-1, -1), (-1, 0), (-1, 1), (0, -1), (0, 1), (1, -1), (1, 0), (1, 1)]

/-- The index `(i + x) * sizeCols + (j + y)`. -/
def nbIdx (sizeCols i j : Nat) (o : Int × Int) : Nat :=
  (((i : Int) + o.1) * sizeCols + ((j : Int) + o.2)).toNat

/-- The neighbour scan: some neighbour of `(i, j)` has magnitude `>= hi`. -/
def strongNeighbour (sizeCols : Nat) (G : List ℚ) (hi : ℚ) (i j : Nat) : Bool :=
  neighbours8.any (fun o => decide (G.getD (nbIdx sizeCols i j o) 0 ≥ hi))

/-- Body of the hysteresis sweep for pixel `(i, j)`; the second component is `changes`. -/
def hystPixel (sizeCols : Nat) (lowerThreshold higherThreshold : ℚ) (i j : Nat)
    (st : CannyState × Bool) : CannyState × Bool :=
  if st.1.G.getD (i * sizeCols + j) 0 < fmul lowerThreshold st.1.largestG then
    ({ st.1 with
       G := st.1.G.set (i * sizeCols + j) 0,
       pixelsCanny := st.1.pixelsCanny.set (i * sizeCols + j)
         (toPixel ((st.1.G.set (i * sizeCols + j) 0).getD (i * sizeCols + j) 0) st.1.largestG) },
     st.2)
  else if st.1.G.getD (i * sizeCols + j) 0 ≥ fmul higherThreshold st.1.largestG then st
  else if strongNeighbour sizeCols (st.1.G.set (i * sizeCols + j) 0)
      (fmul higherThreshold st.1.largestG) i j then
    ({ st.1 with
       G := (st.1.G.set (i * sizeCols + j) 0).set (i * sizeCols + j)
         (fmul higherThreshold st.1.largestG),
       pixelsCanny := st.1.pixelsCanny.set (i * sizeCols + j)
         (toPixel (((st.1.G.set (i * sizeCols + j) 0).set (i * sizeCols + j)
           (fmul higherThreshold st.1.largestG)).getD (i * sizeCols + j) 0) st.1.largestG) },
     true)
  else
    ({ st.1 with
       G := st.1.G.set (i * sizeCols + j) 0,
       pixelsCanny := st.1.pixelsCanny.set (i * sizeCols + j)
         (toPixel ((st.1.G.set (i * sizeCols + j) 0).getD (i * sizeCols + j) 0) st.1.largestG) },
     st.2)

/-- The inner `j` loop of the hysteresis sweep for row `i`. -/
def hystRow (sizeCols : Nat) (lowerThreshold higherThreshold : ℚ) (i : Nat)
    (st : CannyState × Bool) : CannyState × Bool :=
  forRange 1 (sizeCols - 1) (fun j acc =>
    hystPixel sizeCols lowerThreshold higherThreshold i j acc) st

/-- One pass of the `do` body: `changes = false`, then all interior pixels in scan order. -/
def hystSweep (sizeRows sizeCols : Nat) (lowerThreshold higherThreshold : ℚ) (s : CannyState) :
    CannyState × Bool :=
  forRange 1 (sizeRows - 1) (hystRow sizeCols lowerThreshold higherThreshold) (s, false)

/-- The loop `do ... while (changes)` run for at most `fuel` sweeps; `none` when the fuel
runs out before a sweep leaves `changes` false. -/
def hystLoop (sizeRows sizeCols : Nat) (lowerThreshold higherThreshold : ℚ) :
    Nat → CannyState → Option CannyState
  | 0, _ => none
  | fuel + 1, s =>
    if (hystSweep sizeRows sizeCols lowerThreshold higherThreshold s).2 then
      hystLoop sizeRows sizeCols lowerThreshold higherThreshold fuel
        (hystSweep sizeRows sizeCols lowerThreshold higherThreshold s).1
    else some (hystSweep sizeRows sizeCols lowerThreshold higherThreshold s).1

/-- Number of sweeps after which the hysteresis loop has always exited. -/
def sweepBound (sizeRows sizeCols : Nat) : Nat := sizeRows * sizeCols + 1

/-- The buffers as allocated at the start of `cannyFilter_parallel`. -/
def cannyInit (sizeRows sizeCols : Nat) : CannyState :=
  { pixelsCanny := List.replicate (sizeRows * sizeCols) (some 0),
    G := List.replicate (sizeRows * sizeCols) 0,
    theta := List.replicate (sizeRows * sizeCols) 0,
    largestG := 0 }

/-- State of `cannyFilter_parallel` after phase 1 and the border fixup. -/
def cannyGradient (m : Libm) (numThreads : Nat) (pixels : List Int)
    (sizeRows sizeCols sizeDepth : Nat) (lowerThreshold higherThreshold : ℚ) : CannyState :=
  borderFixup sizeRows sizeCols
    (runWorkers numThreads
      (mkThreadData numThreads sizeRows sizeCols sizeDepth 0 lowerThreshold higherThreshold)
      (cannyPhase1Worker m pixels) (cannyInit sizeRows sizeCols))

/-- State of `cannyFilter_parallel` after phase 2, when the hysteresis loop is entered, in
the execution in which the suppression workers complete in thread-index order; with one
worker this is the only execution.  The workers read rows of `G` owned by the adjacent
worker, which zeroes them in place: other completion orders are given by
`cannySuppressedIn` and can lead to another state. -/
def cannySuppressed (m : Libm) (numThreads : Nat) (pixels : List Int)
    (sizeRows sizeCols sizeDepth : Nat) (lowerThreshold higherThreshold : ℚ) : CannyState :=
  runWorkers numThreads
    (mkThreadData numThreads sizeRows sizeCols sizeDepth 0 lowerThreshold higherThreshold)
    cannyPhase2Worker
    (cannyGradient m numThreads pixels sizeRows sizeCols sizeDepth lowerThreshold higherThreshold)

/-- State of `cannyFilter_parallel` when the hysteresis loop exits. -/
def cannyFinal (m : Libm) (numThreads : Nat) (pixels : List Int)
    (sizeRows sizeCols sizeDepth : Nat) (lowerThreshold higherThreshold : ℚ) :
    Option CannyState :=
  hystLoop sizeRows sizeCols lowerThreshold higherThreshold (sweepBound sizeRows sizeCols)
    (cannySuppressed m numThreads pixels sizeRows sizeCols sizeDepth lowerThreshold
      higherThreshold)

/-- The function `cannyFilter_parallel` run with `numThreads` workers, the suppression
workers completing in thread-index order (see `cannySuppressed`): the returned
`pixelsCanny`. -/
def cannyFilter_parallel (m : Libm) (numThreads : Nat) (pixels : List Int)
    (sizeRows sizeCols sizeDepth : Nat) (lowerThreshold higherThreshold : ℚ) :
    Option (List (Option Int)) :=
  (cannyFinal m numThreads pixels sizeRows sizeCols sizeDepth lowerThreshold
    higherThreshold).map (fun s => s.pixelsCanny)

/-! ## Pipeline -/

/-- The 5x5 kernel of `cannyEdgeDetection_parallel`. -/
def gaussKernel : List (List ℚ) :=
  [[2, 4, 5, 4, 2], [4, 9, 12, 9, 4], [5, 12, 15, 12, 5], [4, 9, 12, 9, 4], [2, 4, 5, 4, 2]]

/-- The constant `kernelConst = 1.0 / 159.0`. -/
def gaussKernelConst : ℚ := fdiv 1 159

/-- The computation of `cannyEdgeDetection_parallel` between `imgToArray` and `arrayToImg`:
blur, grayscale, Canny filter, all with the same `numThreads`. -/
def cannyEdgeDetection_parallel (m : Libm) (numThreads : Nat) (pixels : List Int)
    (sizeRows sizeCols sizeDepth : Nat) (lowerThreshold higherThreshold : ℚ) :
    Option (List (Option Int)) :=
  cannyFilter_parallel m numThreads
    (rgbToGrayscale_parallel numThreads
      (gaussianBlur_parallel numThreads pixels gaussKernel gaussKernelConst
        sizeRows sizeCols sizeDepth) sizeRows sizeCols sizeDepth)
    sizeRows sizeCols 1 lowerThreshold higherThreshold

/-- Two runs of the gradient loops that differ only in `largestG` and in the starting value
of `localLargestG`. -/
def Phase1Rel (M l0 : ℚ) (p q : CannyState × ℚ) : Prop :=
  q.1.G = p.1.G ∧ q.1.theta = p.1.theta ∧ q.1.pixelsCanny = p.1.pixelsCanny ∧
    q.1.largestG = M ∧ q.2 = max l0 p.2

/-! ## A C library instance for running examples -/

/-- Integer square root by bit scanning: adds the bits `2^(k-1), ..., 1` to `r` while the
square stays `≤ n`. -/
def isqrtBits (n : Nat) : Nat → Nat → Nat
  | 0, r => r
  | k + 1, r => isqrtBits n k (if (r + 2 ^ k) * (r + 2 ^ k) ≤ n then r + 2 ^ k else r)

/-- Integer square root `⌊√n⌋`. -/
def isqrt (n : Nat) : Nat := isqrtBits n (bitLen n) 0

/-- The binary64 value of `π` returned by `atan2(+0, x)` for `x < 0`. -/
def piD : ℚ := 884279719003555 / 281474976710656

/-- A C library instance used to run examples.  It agrees with a correctly rounded `sqrt`
on squares of rationals and with `atan2` when one argument is zero (`0`, `±π/2`, `π`);
all other arguments get placeholder values. -/
def libmAxis : Libm where
  sqrt := fun x => (isqrt x.num.natAbs : ℚ) / (isqrt x.den : ℚ)
  atan2 := fun y x =>
    if y = 0 then (if 0 ≤ x then 0 else piD)
    else if x = 0 then (if 0 < y then piD / 2 else -(piD / 2))
    else 0

/-! ## Vocabulary of the hysteresis claims -/

/-- Pixel `(i, j)` is visited by the loops `for i in [1, sizeRows - 1)`,
`for j in [1, sizeCols - 1)`. -/
def Interior (sizeRows sizeCols i j : Nat) : Prop :=
  1 ≤ i ∧ i < sizeRows - 1 ∧ 1 ≤ j ∧ j < sizeCols - 1

/-- Pixel `(a, b)` is one of the eight neighbours of `(i, j)`. -/
def Adj8 (i j a b : Nat) : Prop :=
  (a ≠ i ∨ b ≠ j) ∧ a ≤ i + 1 ∧ i ≤ a + 1 ∧ b ≤ j + 1 ∧ j ≤ b + 1

/-- The buffers have `sizeRows * sizeCols` entries and `largestG` has the value `L`. -/
def HystOK (sizeRows sizeCols : Nat) (L : ℚ) (s : CannyState) : Prop :=
  s.G.length = sizeRows * sizeCols ∧ s.pixelsCanny.length = sizeRows * sizeCols ∧
    s.largestG = L

/-- The state after `n` sweeps of the hysteresis loop body. -/
def hystSweeps (sizeRows sizeCols : Nat) (lowerThreshold higherThreshold : ℚ) :
    Nat → CannyState → CannyState
  | 0, s => s
  | n + 1, s => hystSweeps sizeRows sizeCols lowerThreshold higherThreshold n
      (hystSweep sizeRows sizeCols lowerThreshold higherThreshold s).1

/-- All three buffers have `sizeRows * sizeCols` entries. -/
def BufOK (sizeRows sizeCols : Nat) (s : CannyState) : Prop :=
  s.G.length = sizeRows * sizeCols ∧ s.theta.length = sizeRows * sizeCols ∧
    s.pixelsCanny.length = sizeRows * sizeCols

/-- Every magnitude is non-negative. -/
def NonnegG (s : CannyState) : Prop := ∀ k, 0 ≤ s.G.getD k 0

/-! ## Quantities named by the specification -/

/-- Following the specification of the smoothing stage: the offsets `(dx, dy)` in `[-2,2]²`
whose neighbour `(i + dx, j + dy)` lies inside the image. -/
def blurSpecOffsets (sizeRows sizeCols i j : Nat) : List (Int × Int) :=
  (offsets5.flatMap (fun dx => offsets5.map (fun dy => (dx, dy)))).filter (fun o =>
    decide (0 ≤ (i : Int) + o.1 ∧ (i : Int) + o.1 < sizeRows ∧
      0 ≤ (j : Int) + o.2 ∧ (j : Int) + o.2 < sizeCols))

/-- Following the specification of the smoothing stage: `floor(S / W)`, where `S` is the exact
sum of `weight(dx,dy) * input(i+dx, j+dy, k)` and `W` the exact sum of `weight(dx,dy)` over
the in-bounds offsets. -/
def blurSpecCell (kernel : List (List ℚ)) (input : List Int) (sizeRows sizeCols sizeDepth : Nat)
    (i j k : Nat) : Int :=
  ⌊((blurSpecOffsets sizeRows sizeCols i j).map (fun o =>
      kernelAt kernel (o.1 + 2).toNat (o.2 + 2).toNat *
        ((input.getD (((i : Int) + o.1).toNat * sizeCols * sizeDepth +
          ((j : Int) + o.2).toNat * sizeDepth + k) 0 : Int) : ℚ))).sum /
    ((blurSpecOffsets sizeRows sizeCols i j).map (fun o =>
      kernelAt kernel (o.1 + 2).toNat (o.2 + 2).toNat)).sum⌋

/-- Pixel `(i, j)` is an interior pixel that is weak in the magnitude array `G0`
(`lo ≤ G0(i,j) < hi`) and is linked through a chain of 8-adjacent weak interior pixels to a
pixel (interior or border) whose magnitude in `G0` is `≥ hi`. -/
inductive ChainToStrong (sizeRows sizeCols : Nat) (G0 : List ℚ) (lo hi : ℚ) : Nat → Nat → Prop
  | strong (i j a b : Nat) : Interior sizeRows sizeCols i j →
      lo ≤ G0.getD (i * sizeCols + j) 0 → G0.getD (i * sizeCols + j) 0 < hi →
      Adj8 i j a b → hi ≤ G0.getD (a * sizeCols + b) 0 →
      ChainToStrong sizeRows sizeCols G0 lo hi i j
  | step (i j a b : Nat) : Interior sizeRows sizeCols i j →
      lo ≤ G0.getD (i * sizeCols + j) 0 → G0.getD (i * sizeCols + j) 0 < hi →
      Adj8 i j a b → ChainToStrong sizeRows sizeCols G0 lo hi a b →
      ChainToStrong sizeRows sizeCols G0 lo hi i j

/-- Relation of a state of the hysteresis loop to the magnitude array `G0` at loop entry:
every magnitude is the original one, or 0 where the original was below `hi`, or `hi` at a
pixel linked to a strong pixel. -/
def HystSound (sizeRows sizeCols : Nat) (G0 : List ℚ) (lo hi : ℚ) (s : CannyState) : Prop :=
  ∀ a b, b < sizeCols →
    s.G.getD (a * sizeCols + b) 0 = G0.getD (a * sizeCols + b) 0 ∨
    (G0.getD (a * sizeCols + b) 0 < hi ∧ s.G.getD (a * sizeCols + b) 0 = 0) ∨
    (s.G.getD (a * sizeCols + b) 0 = hi ∧ ChainToStrong sizeRows sizeCols G0 lo hi a b)

/-- A 3x5 single-channel image whose gradients are vertical: after suppression the interior
magnitudes are 2, 2, 6. -/
def chainImage : List Int := [0, 1, 0, 1, 4, 2, 0, 2, 0, 0, 0, 0, 0, 0, 0]

/-- Fork/join of a stage whose workers complete in the order given by `order`. -/
def runWorkersIn {σ : Type} (order : List Nat) (mk : Nat → ThreadData)
    (worker : ThreadData → σ → σ) (s : σ) : σ :=
  order.foldl (fun acc t => worker (mk t) acc) s

/-- A 3x3 image brighter on the right: at the interior pixel `Gy = 0` and `Gx = -4`. -/
def rightEdgeImage : List Int := [0, 0, 1, 0, 0, 1, 0, 0, 1]

/-- A 3x6 image darkening to the right, all rows equal: `Gy = 0` and
`Gx = 28, 20, 12, 4` at the interior pixels. -/
def rampImage : List Int := [10, 6, 3, 1, 0, 0, 10, 6, 3, 1, 0, 0, 10, 6, 3, 1, 0, 0]

/-- A 6x3 image darkening downwards, all columns equal: `Gx = 0` and
`Gy = 28, 20, 12, 4` at the interior pixels. -/
def columnRampImage : List Int := [10, 10, 10, 6, 6, 6, 3, 3, 3, 1, 1, 1, 0, 0, 0, 0, 0, 0]

/-- A 4x4 image in which the interior pixel `(1, 2)` has `Gy = 0`, `Gx = -2` and its
lower-left neighbour `(2, 1)` has magnitude 4. -/
def diagImage : List Int := [0, 0, 0, 0, 0, 0, 0, 1, 0, 0, 0, 0, 0, 2, 0, 1]

/-- State of `cannyFilter_parallel` after the join of phase 1, before the border fixup. -/
def cannyPhase1 (m : Libm) (numThreads : Nat) (pixels : List Int)
    (sizeRows sizeCols sizeDepth : Nat) (lowerThreshold higherThreshold : ℚ) : CannyState :=
  runWorkers numThreads
    (mkThreadData numThreads sizeRows sizeCols sizeDepth 0 lowerThreshold higherThreshold)
    (cannyPhase1Worker m pixels) (cannyInit sizeRows sizeCols)

/-- The value `clamp(x, 1, n - 2)`. -/
def clampI (n x : Nat) : Nat := max 1 (min x (n - 2))

/-- The first loop of the border fixup as it acts on one buffer. -/
def fixRowsList {α : Type} (sizeRows sizeCols : Nat) (d : α) (l : List α) : List α :=
  forRange 1 (sizeCols - 1) (fun j acc =>
    (acc.set j (acc.getD (sizeCols + j) d)).set ((sizeRows - 1) * sizeCols + j)
      ((acc.set j (acc.getD (sizeCols + j) d)).getD ((sizeRows - 2) * sizeCols + j) d)) l

/-- The second loop of the border fixup as it acts on one buffer. -/
def fixColsList {α : Type} (sizeRows sizeCols : Nat) (d : α) (l : List α) : List α :=
  forRange 0 sizeRows (fun i acc =>
    (acc.set (i * sizeCols) (acc.getD (i * sizeCols + 1) d)).set (i * sizeCols + sizeCols - 1)
      ((acc.set (i * sizeCols) (acc.getD (i * sizeCols + 1) d)).getD
        (i * sizeCols + sizeCols - 2) d)) l

/-- The value of `localLargestG` at the end of the loops of `cannyPhase1Worker` run with
thread data `d` on freshly allocated buffers. -/
def localLargestG (m : Libm) (input : List Int) (d : ThreadData) : ℚ :=
  (cannyPhase1Loop m input d (cannyInit d.sizeRows d.sizeCols)).2

/-- Number of interior pixels whose magnitude in `G` is `≥ hi`. -/
def strongInteriorCount (sizeRows sizeCols : Nat) (hi : ℚ) (G : List ℚ) : Nat :=
  ((Finset.Ico 1 (sizeRows - 1) ×ˢ Finset.Ico 1 (sizeCols - 1)).filter
    (fun p => hi ≤ G.getD (p.1 * sizeCols + p.2) 0)).card

/-- A 3x5 state at the entry of the hysteresis loop: interior magnitudes `1, 2, 4` and
`largestG = 4`. -/
def hystEntryExample : CannyState :=
  { pixelsCanny := List.replicate 15 (some 0),
    G := [0, 0, 0, 0, 0, 0, 1, 2, 4, 0, 0, 0, 0, 0, 0],
    theta := List.replicate 15 0,
    largestG := 4 }

/-- The condition under which one more visit of the hysteresis loop body leaves pixel
`(i, j)` as it is: the pixel is strong, or it is 0 with output `(int)(0 * (255.0 /
largestG))` and is either below `lo` or without a strong neighbour. -/
def HystSettled (C : Nat) (lo hi L : ℚ) (s : CannyState) (i j : Nat) : Prop :=
  (¬ s.G.getD (i * C + j) 0 < lo ∧ hi ≤ s.G.getD (i * C + j) 0) ∨
  (s.G.getD (i * C + j) 0 = 0 ∧ s.pixelsCanny.getD (i * C + j) none = toPixel 0 L ∧
    (0 < lo ∨ (¬ hi ≤ 0 ∧ strongNeighbour C s.G hi i j = false)))

/-- A 3x3 image brighter on the left: at the interior pixel `Gx = 100` and `Gy = 0`. -/
def leftEdgeImage : List Int := [25, 0, 0, 25, 0, 0, 25, 0, 0]

/-- State of `cannyFilter_parallel` after phase 2 in the execution in which the suppression
workers run to completion one after the other in the order `order`.  The workers read rows
of `G` that the adjacent worker zeroes in place, so the state depends on the order;
`cannySuppressed` is the execution with `order = 0, 1, ..., numThreads - 1`. -/
def cannySuppressedIn (order : List Nat) (m : Libm) (numThreads : Nat) (pixels : List Int)
    (sizeRows sizeCols sizeDepth : Nat) (lowerThreshold higherThreshold : ℚ) : CannyState :=
  runWorkersIn order
    (mkThreadData numThreads sizeRows sizeCols sizeDepth 0 lowerThreshold higherThreshold)
    cannyPhase2Worker
    (cannyGradient m numThreads pixels sizeRows sizeCols sizeDepth lowerThreshold higherThreshold)

/-- The function `cannyFilter_parallel` in the execution in which the suppression workers
complete in the order `order`. -/
def cannyFilterIn (order : List Nat) (m : Libm) (numThreads : Nat) (pixels : List Int)
    (sizeRows sizeCols sizeDepth : Nat) (lowerThreshold higherThreshold : ℚ) :
    Option (List (Option Int)) :=
  (hystLoop sizeRows sizeCols lowerThreshold higherThreshold (sweepBound sizeRows sizeCols)
    (cannySuppressedIn order m numThreads pixels sizeRows sizeCols sizeDepth lowerThreshold
      higherThreshold)).map (fun s => s.pixelsCanny)

/-- The pipeline of `cannyEdgeDetection_parallel` in the execution in which the suppression
workers complete in the order `order`. -/
def cannyEdgeDetectionIn (order : List Nat) (m : Libm) (numThreads : Nat) (pixels : List Int)
    (sizeRows sizeCols sizeDepth : Nat) (lowerThreshold higherThreshold : ℚ) :
    Option (List (Option Int)) :=
  cannyFilterIn order m numThreads
    (rgbToGrayscale_parallel numThreads
      (gaussianBlur_parallel numThreads pixels gaussKernel gaussKernelConst
        sizeRows sizeCols sizeDepth) sizeRows sizeCols sizeDepth)
    sizeRows sizeCols 1 lowerThreshold higherThreshold

/-- A 6x3 image with a bright first row and a dark last row, all columns equal. -/
def stepImage : List Int :=
  [255, 255, 255, 20, 20, 20, 20, 20, 20, 20, 20, 20, 20, 20, 20, 0, 0, 0]

/-- The value held by a 32-bit `int` after an operation whose exact result is `x`:
two's-complement wrap-around (what the hardware produces; in C++ the overflow itself is
undefined). -/
def int32 (x : Int) : Int := (x + 2147483648) % 4294967296 - 2147483648

/-- The `int` sum `a + b`. -/
def iadd (a b : Int) : Int := int32 (a + b)

/-- The `int` difference `a - b`. -/
def isub (a b : Int) : Int := int32 (a - b)

/-- The `int` product `a * b`. -/
def imul (a b : Int) : Int := int32 (a * b)

/-- The `int` index expression `a * sizeCols + b`. -/
def idx2 (sizeCols : Nat) (a b : Int) : Int := iadd (imul a sizeCols) b

/-- The `int` index expression `a * sizeCols * sizeDepth + b * sizeDepth + k`. -/
def idx3 (sizeCols sizeDepth : Nat) (a b k : Int) : Int :=
  iadd (iadd (imul (imul a sizeCols) sizeDepth) (imul b sizeDepth)) k

/-- The four buffers addressed through `ThreadData`. -/
inductive Buf where
  | inputPixels
  | outputPixels
  | G
  | theta

/-- One buffer access of the program: the buffer, the value of the index expression as the
program computes it in 32-bit `int` arithmetic, and whether the access is a store. -/
structure Access where
  buf : Buf
  idx : Int
  store : Bool

/-- Accesses of `gaussianBlurWorker` for pixel `(i, j)` and channel `k`: the guarded loads of
the `y`/`x` loops, then the store of the result. -/
def blurCellAccesses (d : ThreadData) (i j k : Nat) : List Access :=
  (offsets5.flatMap (fun y => offsets5.flatMap (fun x =>
    if 0 ≤ iadd i x ∧ iadd i x < d.sizeRows ∧ 0 ≤ iadd j y ∧ iadd j y < d.sizeCols then
      [Access.mk Buf.inputPixels (idx3 d.sizeCols d.sizeDepth (iadd i x) (iadd j y) k) false]
    else []))) ++
  [Access.mk Buf.outputPixels (idx3 d.sizeCols d.sizeDepth i j k) true]

/-- All accesses of `gaussianBlurWorker` run on `d`. -/
def gaussianBlurAccesses (d : ThreadData) : List Access :=
  (List.range' d.startRow (d.endRow - d.startRow)).flatMap (fun i =>
    (List.range d.sizeCols).flatMap (fun j =>
      (List.range d.sizeDepth).flatMap (fun k => blurCellAccesses d i j k)))

/-- Accesses of `rgbToGrayscaleWorker` for pixel `(i, j)`: one load per channel, then the
store of the mean. -/
def grayCellAccesses (d : ThreadData) (i j : Nat) : List Access :=
  (List.range d.sizeDepth).map (fun (k : Nat) => Access.mk Buf.inputPixels
    (idx3 d.sizeCols d.sizeDepth i j k) false) ++
  [Access.mk Buf.outputPixels (idx2 d.sizeCols i j) true]

/-- All accesses of `rgbToGrayscaleWorker` run on `d`. -/
def rgbToGrayscaleAccesses (d : ThreadData) : List Access :=
  (List.range' d.startRow (d.endRow - d.startRow)).flatMap (fun i =>
    (List.range d.sizeCols).flatMap (fun j => grayCellAccesses d i j))

/-- Accesses of `cannyPhase1Worker` for pixel `(i, j)`: two loads of the input per offset
(for `gxValue` and `gyValue`), the stores of `G` and `theta`, the re-quantization of `theta`
and the comparison with `localLargestG`. -/
def phase1CellAccesses (d : ThreadData) (i j : Nat) : List Access :=
  (offsets3.flatMap (fun x => offsets3.flatMap (fun y =>
    [Access.mk Buf.inputPixels (iadd (idx2 d.sizeCols (iadd i x) j) y) false,
     Access.mk Buf.inputPixels (iadd (idx2 d.sizeCols (iadd i x) j) y) false]))) ++
  [Access.mk Buf.G (idx2 d.sizeCols i j) true,
   Access.mk Buf.theta (idx2 d.sizeCols i j) true,
   Access.mk Buf.theta (idx2 d.sizeCols i j) false,
   Access.mk Buf.theta (idx2 d.sizeCols i j) true,
   Access.mk Buf.G (idx2 d.sizeCols i j) false,
   Access.mk Buf.G (idx2 d.sizeCols i j) false]

/-- All accesses of `cannyPhase1Worker` run on `d`. -/
def cannyPhase1Accesses (d : ThreadData) : List Access :=
  (List.range' (max 1 d.startRow) (min (d.sizeRows - 1) d.endRow - max 1 d.startRow)).flatMap
    (fun i => (List.range' 1 (d.sizeCols - 1 - 1)).flatMap (fun j => phase1CellAccesses d i j))

/-- The two neighbours of `(i, j)` that `cannyPhase2Worker` compares for direction `th`. -/
def phase2Neighbours (d : ThreadData) (th : Int) (i j : Nat) : List Access :=
  if th = 0 ∨ th = 180 then
    [Access.mk Buf.G (isub (idx2 d.sizeCols i j) 1) false,
     Access.mk Buf.G (iadd (idx2 d.sizeCols i j) 1) false]
  else if th = 45 ∨ th = 225 then
    [Access.mk Buf.G (iadd (idx2 d.sizeCols (iadd i 1) j) 1) false,
     Access.mk Buf.G (isub (idx2 d.sizeCols (isub i 1) j) 1) false]
  else if th = 90 ∨ th = 270 then
    [Access.mk Buf.G (idx2 d.sizeCols (iadd i 1) j) false,
     Access.mk Buf.G (idx2 d.sizeCols (isub i 1) j) false]
  else
    [Access.mk Buf.G (isub (idx2 d.sizeCols (iadd i 1) j) 1) false,
     Access.mk Buf.G (iadd (idx2 d.sizeCols (isub i 1) j) 1) false]

/-- Accesses that `cannyPhase2Worker` can make for pixel `(i, j)` when the direction buffer
is `theta`: loads of `theta` and `G`, the two compared neighbours, the store of 0, and the
load of `G` and store of the output value. -/
def phase2CellAccesses (d : ThreadData) (theta : List Int) (i j : Nat) : List Access :=
  [Access.mk Buf.theta (idx2 d.sizeCols i j) false,
   Access.mk Buf.G (idx2 d.sizeCols i j) false] ++
  phase2Neighbours d (theta.getD (i * d.sizeCols + j) 0) i j ++
  [Access.mk Buf.G (idx2 d.sizeCols i j) true,
   Access.mk Buf.G (idx2 d.sizeCols i j) false,
   Access.mk Buf.outputPixels (idx2 d.sizeCols i j) true]

/-- All accesses that `cannyPhase2Worker` run on `d` can make. -/
def cannyPhase2Accesses (d : ThreadData) (theta : List Int) : List Access :=
  (List.range' (max 1 d.startRow) (min (d.sizeRows - 1) d.endRow - max 1 d.startRow)).flatMap
    (fun i => (List.range' 1 (d.sizeCols - 1 - 1)).flatMap
      (fun j => phase2CellAccesses d theta i j))

/-- Accesses of the two border fixup loops of `cannyFilter_parallel`. -/
def borderFixupAccesses (sizeRows sizeCols : Nat) : List Access :=
  (List.range' 1 (sizeCols - 1 - 1)).flatMap (fun (j : Nat) =>
    [Access.mk Buf.G (iadd sizeCols j) false,
     Access.mk Buf.G (j : Int) true,
     Access.mk Buf.theta (iadd sizeCols j) false,
     Access.mk Buf.theta (j : Int) true,
     Access.mk Buf.G (idx2 sizeCols (isub sizeRows 2) j) false,
     Access.mk Buf.G (idx2 sizeCols (isub sizeRows 1) j) true,
     Access.mk Buf.theta (idx2 sizeCols (isub sizeRows 2) j) false,
     Access.mk Buf.theta (idx2 sizeCols (isub sizeRows 1) j) true]) ++
  (List.range sizeRows).flatMap (fun (i : Nat) =>
    [Access.mk Buf.G (idx2 sizeCols i 1) false,
     Access.mk Buf.G (imul i sizeCols) true,
     Access.mk Buf.theta (idx2 sizeCols i 1) false,
     Access.mk Buf.theta (imul i sizeCols) true,
     Access.mk Buf.G (isub (iadd (imul i sizeCols) sizeCols) 2) false,
     Access.mk Buf.G (isub (iadd (imul i sizeCols) sizeCols) 1) true,
     Access.mk Buf.theta (isub (iadd (imul i sizeCols) sizeCols) 2) false,
     Access.mk Buf.theta (isub (iadd (imul i sizeCols) sizeCols) 1) true])

/-- Accesses that the body of the hysteresis loop can make for pixel `(i, j)`: the two
threshold tests, `tempG`, the store of 0, the scan of the eight neighbours, the store of
`hi`, and the load of `G` and store of the output value. -/
def hystCellAccesses (sizeCols i j : Nat) : List Access :=
  [Access.mk Buf.G (idx2 sizeCols i j) false,
   Access.mk Buf.G (idx2 sizeCols i j) true,
   Access.mk Buf.G (idx2 sizeCols i j) false,
   Access.mk Buf.G (idx2 sizeCols i j) false,
   Access.mk Buf.G (idx2 sizeCols i j) true] ++
  neighbours8.map (fun o =>
    Access.mk Buf.G (idx2 sizeCols (iadd i o.1) (iadd j o.2)) false) ++
  [Access.mk Buf.G (idx2 sizeCols i j) true,
   Access.mk Buf.G (idx2 sizeCols i j) false,
   Access.mk Buf.outputPixels (idx2 sizeCols i j) true]

/-- All accesses that one sweep of the hysteresis loop can make. -/
def hystSweepAccesses (sizeRows sizeCols : Nat) : List Access :=
  (List.range' 1 (sizeRows - 1 - 1)).flatMap (fun i =>
    (List.range' 1 (sizeCols - 1 - 1)).flatMap (fun j => hystCellAccesses sizeCols i j))

/-- Buffer lengths in `gaussianBlur_parallel`: the input is the caller's buffer of
`rows * cols * channels` entries, the output is allocated with the `int` value of
`sizeRows * sizeCols * sizeDepth` (no entries when that value is negative). -/
def blurLen (sizeRows sizeCols sizeDepth : Nat) : Buf → Nat
  | Buf.inputPixels => sizeRows * sizeCols * sizeDepth
  | Buf.outputPixels => (imul (imul sizeRows sizeCols) sizeDepth).toNat
  | Buf.G => 0
  | Buf.theta => 0

/-- Buffer lengths in `rgbToGrayscale_parallel`: the input has `rows * cols * channels`
entries, the output is allocated with the `int` value of `sizeRows * sizeCols`. -/
def grayLen (sizeRows sizeCols sizeDepth : Nat) : Buf → Nat
  | Buf.inputPixels => sizeRows * sizeCols * sizeDepth
  | Buf.outputPixels => (imul sizeRows sizeCols).toNat
  | Buf.G => 0
  | Buf.theta => 0

/-- Buffer lengths in `cannyFilter_parallel`: the single-channel input has `rows * cols`
entries; `pixelsCanny`, `G` and `theta` are allocated with the `int` value of
`sizeRows * sizeCols`. -/
def cannyLen (sizeRows sizeCols : Nat) : Buf → Nat
  | Buf.inputPixels => sizeRows * sizeCols
  | Buf.outputPixels => (imul sizeRows sizeCols).toNat
  | Buf.G => (imul sizeRows sizeCols).toNat
  | Buf.theta => (imul sizeRows sizeCols).toNat

/-- The access uses an index inside the buffer it addresses. -/
def InBounds (len : Buf → Nat) (a : Access) : Prop := 0 ≤ a.idx ∧ a.idx < len a.buf

/-- A store of the worker goes to a row of its own range `[startRow, endRow)`; `stride` is
the number of entries of one row. -/
def OwnRows (d : ThreadData) (stride : Nat) (a : Access) : Prop :=
  a.store = true → (d.startRow : Int) ≤ a.idx / stride ∧ a.idx / stride < d.endRow

/-! # Theorems -/

/-! ## Lists and loops -/

theorem getD_set_eq {α : Type} (l : List α) (i : Nat) (a d : α) (h : i < l.length) :
    (l.set i a).getD i d = a := by
  rw [List.getD_eq_getElem?_getD, List.getElem?_set]
  simp [h]

theorem getD_set_ne {α : Type} (l : List α) (i j : Nat) (a d : α) (h : i ≠ j) :
    (l.set i a).getD j d = l.getD j d := by
  rw [List.getD_eq_getElem?_getD, List.getD_eq_getElem?_getD, List.getElem?_set]
  simp [h]

theorem forRange_empty {σ : Type} (a b : Nat) (h : b ≤ a) (body : Nat → σ → σ) (s : σ) :
    forRange a b body s = s := by
  unfold forRange
  rw [Nat.sub_eq_zero_of_le h]
  rfl

theorem forRange_append {σ : Type} (a b c : Nat) (hab : a ≤ b) (hbc : b ≤ c)
    (body : Nat → σ → σ) (s : σ) :
    forRange b c body (forRange a b body s) = forRange a c body s := by
  unfold forRange
  rw [← List.foldl_append]
  have h1 : b = a + 1 * (b - a) := by omega
  have h2 : c - a = (c - b) + (b - a) := by omega
  rw [h2, ← List.range'_append a (b - a) (c - b) 1, ← h1]

theorem forRange_clamp_append {σ : Type} (lo hi a b c : Nat) (hab : a ≤ b) (hbc : b ≤ c)
    (body : Nat → σ → σ) (s : σ) :
    forRange (max lo b) (min hi c) body (forRange (max lo a) (min hi b) body s) =
      forRange (max lo a) (min hi c) body s := by
  by_cases h1 : min hi b ≤ max lo a
  · rw [forRange_empty _ _ h1]
    by_cases h2 : min hi c ≤ max lo b
    · rw [forRange_empty _ _ h2, forRange_empty _ _ (by omega)]
    · have : max lo b = max lo a := by omega
      rw [this]
  · by_cases h2 : min hi c ≤ max lo b
    · rw [forRange_empty _ _ h2]
      have : min hi b = min hi c := by omega
      rw [this]
    · have : max lo b = min hi b := by omega
      rw [this]
      exact forRange_append _ _ _ (by omega) (by omega) body s

theorem forRange_inv {σ : Type} (P : σ → Prop) (a b : Nat) (body : Nat → σ → σ)
    (hstep : ∀ i s, a ≤ i → i < b → P s → P (body i s)) (s : σ) (h0 : P s) :
    P (forRange a b body s) := by
  unfold forRange
  have key : ∀ (l : List Nat) (s : σ), (∀ i ∈ l, a ≤ i ∧ i < b) → P s →
      P (l.foldl (fun acc i => body i acc) s) := by
    intro l
    induction l with
    | nil => intro s _ h; exact h
    | cons x xs ih =>
      intro s hm h
      simp only [List.foldl_cons]
      apply ih
      · intro i hi
        exact hm i (List.mem_cons_of_mem _ hi)
      · exact hstep x s (hm x (List.mem_cons_self _ _)).1 (hm x (List.mem_cons_self _ _)).2 h
  apply key _ _ _ h0
  intro i hi
  rw [List.mem_range'_1] at hi
  omega

theorem forRange_rel {σ τ : Type} (Rel : σ → τ → Prop) (a b : Nat) (f : Nat → σ → σ)
    (g : Nat → τ → τ) (hstep : ∀ i s t, a ≤ i → i < b → Rel s t → Rel (f i s) (g i t))
    (s : σ) (t : τ) (h0 : Rel s t) : Rel (forRange a b f s) (forRange a b g t) := by
  unfold forRange
  have key : ∀ (l : List Nat) (s : σ) (t : τ), (∀ i ∈ l, a ≤ i ∧ i < b) → Rel s t →
      Rel (l.foldl (fun acc i => f i acc) s) (l.foldl (fun acc i => g i acc) t) := by
    intro l
    induction l with
    | nil => intro s t _ h; exact h
    | cons x xs ih =>
      intro s t hm h
      simp only [List.foldl_cons]
      apply ih
      · intro i hi
        exact hm i (List.mem_cons_of_mem _ hi)
      · exact hstep x s t (hm x (List.mem_cons_self _ _)).1 (hm x (List.mem_cons_self _ _)).2 h
  apply key _ _ _ _ h0
  intro i hi
  rw [List.mem_range'_1] at hi
  omega

theorem forRange_succ_right {σ : Type} (a b : Nat) (hab : a ≤ b) (body : Nat → σ → σ) (s : σ) :
    forRange a (b + 1) body s = body b (forRange a b body s) := by
  unfold forRange
  have h : b + 1 - a = (b - a) + 1 := by omega
  rw [h, List.range'_concat, List.foldl_append]
  simp only [List.foldl_cons, List.foldl_nil, one_mul]
  congr 1
  omega

theorem runWorkers_succ {σ : Type} (n : Nat) (mk : Nat → ThreadData)
    (worker : ThreadData → σ → σ) (s : σ) :
    runWorkers (n + 1) mk worker s = worker (mk n) (runWorkers n mk worker s) := by
  unfold runWorkers
  rw [List.range_succ, List.foldl_append]
  rfl

/-! ## Worker partitioner -/

theorem rowsPerThread_mul_le (R N : Nat) : (N - 1) * rowsPerThread R N ≤ R := by
  unfold rowsPerThread
  calc (N - 1) * (R / N) ≤ N * (R / N) := Nat.mul_le_mul_right _ (Nat.sub_le _ _)
    _ ≤ R := Nat.mul_div_le R N

theorem startRowOf_zero (R N : Nat) : startRowOf R N 0 = 0 := by
  simp [startRowOf]

theorem endRowOf_last (R N : Nat) : endRowOf R N (N - 1) = R := by
  simp [endRowOf]

theorem startRowOf_le_endRowOf (R N t : Nat) : startRowOf R N t ≤ endRowOf R N t := by
  unfold startRowOf endRowOf
  split
  · next h =>
    subst h
    exact rowsPerThread_mul_le R N
  · exact Nat.mul_le_mul_right _ (Nat.le_succ t)

theorem endRowOf_eq_startRowOf_succ (R N t : Nat) (ht : t + 1 < N) :
    endRowOf R N t = startRowOf R N (t + 1) := by
  unfold startRowOf endRowOf
  rw [if_neg (by omega)]

theorem endRowOf_le (R N t : Nat) (ht : t < N) : endRowOf R N t ≤ R := by
  unfold endRowOf
  split
  · exact le_rfl
  · next h =>
    have h1 : t + 1 ≤ N - 1 := by omega
    exact le_trans (Nat.mul_le_mul_right _ h1) (rowsPerThread_mul_le R N)

theorem row_in_unique_range (R N : Nat) (hN : 0 < N) (r : Nat) (hr : r < R) :
    ∃! t, t < N ∧ startRowOf R N t ≤ r ∧ r < endRowOf R N t := by
  unfold startRowOf endRowOf
  generalize hq : rowsPerThread R N = q
  have hlast : (N - 1) * q ≤ R := hq ▸ rowsPerThread_mul_le R N
  by_cases hlt : r < (N - 1) * q
  · have hq0 : 0 < q := by
      rcases Nat.eq_zero_or_pos q with h | h
      · subst h; simp at hlt
      · exact h
    have hdiv : r / q < N - 1 := (Nat.div_lt_iff_lt_mul hq0).2 hlt
    refine ⟨r / q, ⟨by omega, Nat.div_mul_le_self r q, ?_⟩, ?_⟩
    · rw [if_neg (by omega)]
      have := Nat.lt_mul_div_succ r hq0
      rw [Nat.mul_comm] at this
      exact this
    · rintro t ⟨ht, h1, h2⟩
      by_cases hl : t = N - 1
      · subst hl; omega
      · rw [if_neg hl] at h2
        have := (Nat.div_lt_iff_lt_mul hq0).2 h2
        have := (Nat.le_div_iff_mul_le hq0).2 h1
        omega
  · refine ⟨N - 1, ⟨by omega, by omega, by simp; exact hr⟩, ?_⟩
    rintro t ⟨ht, h1, h2⟩
    by_contra hne
    rw [if_neg hne] at h2
    have h3 : t + 1 ≤ N - 1 := by omega
    have := Nat.mul_le_mul_right q h3
    omega

/-- C2: for every row count `R` and worker count `N` in `[1,16]` the ranges
`[startRowOf t, endRowOf t)`, `t < N`, start at 0, end at `R`, are contiguous, lie inside
`[0,R)`, have size `R / N` except for the last one, are pairwise disjoint, and every row of
`[0,R)` lies in exactly one of them. -/
theorem partition_covers_rows (R N : Nat) (hN1 : 1 ≤ N) (hN16 : N ≤ 16) :
    startRowOf R N 0 = 0 ∧ endRowOf R N (N - 1) = R ∧
    (∀ t, t + 1 < N → endRowOf R N t = startRowOf R N (t + 1)) ∧
    (∀ t, t < N → startRowOf R N t ≤ endRowOf R N t ∧ endRowOf R N t ≤ R) ∧
    (∀ t, t + 1 < N → endRowOf R N t - startRowOf R N t = R / N) ∧
    (∀ t u r, t < N → u < N → startRowOf R N t ≤ r → r < endRowOf R N t →
      startRowOf R N u ≤ r → r < endRowOf R N u → t = u) ∧
    (∀ r, r < R → ∃! t, t < N ∧ startRowOf R N t ≤ r ∧ r < endRowOf R N t) := by
  have _h16 := hN16
  refine ⟨startRowOf_zero R N, endRowOf_last R N,
    fun t ht => endRowOf_eq_startRowOf_succ R N t ht,
    fun t ht => ⟨startRowOf_le_endRowOf R N t, endRowOf_le R N t ht⟩, ?_, ?_,
    fun r hr => row_in_unique_range R N (by omega) r hr⟩
  · intro t ht
    rw [endRowOf_eq_startRowOf_succ R N t ht]
    unfold startRowOf rowsPerThread
    rw [Nat.add_mul, Nat.one_mul, Nat.add_sub_cancel_left]
  · intro t u r ht hu h1 h2 h3 h4
    have hr : r < R := lt_of_lt_of_le h2 (endRowOf_le R N t ht)
    obtain ⟨w, _, hw⟩ := row_in_unique_range R N (by omega) r hr
    rw [hw t ⟨ht, h1, h2⟩, hw u ⟨hu, h3, h4⟩]

/-- Witness of C2 at `R = 10`, `N = 4`. -/
theorem partition_covers_rows_witness :
    startRowOf 10 4 0 = 0 ∧ endRowOf 10 4 (4 - 1) = 10 ∧
    (∀ t, t + 1 < 4 → endRowOf 10 4 t = startRowOf 10 4 (t + 1)) ∧
    (∀ t, t < 4 → startRowOf 10 4 t ≤ endRowOf 10 4 t ∧ endRowOf 10 4 t ≤ 10) ∧
    (∀ t, t + 1 < 4 → endRowOf 10 4 t - startRowOf 10 4 t = 10 / 4) ∧
    (∀ t u r, t < 4 → u < 4 → startRowOf 10 4 t ≤ r → r < endRowOf 10 4 t →
      startRowOf 10 4 u ≤ r → r < endRowOf 10 4 u → t = u) ∧
    (∀ r, r < 10 → ∃! t, t < 4 ∧ startRowOf 10 4 t ≤ r ∧ r < endRowOf 10 4 t) :=
  partition_covers_rows 10 4 (by decide) (by decide)

/-! ## Worker-count independence of the stages -/

theorem runWorkers_eq_forRange {σ : Type} (Inv : σ → Prop) (lo hi R N : Nat) (hN : 0 < N)
    (mk : Nat → ThreadData) (worker : ThreadData → σ → σ) (body : Nat → σ → σ)
    (hbody : ∀ i s, Inv s → Inv (body i s))
    (hw : ∀ t s, t < N → Inv s → worker (mk t) s =
      forRange (max lo (startRowOf R N t)) (min hi (endRowOf R N t)) body s)
    (s : σ) (h0 : Inv s) :
    runWorkers N mk worker s = forRange (max lo 0) (min hi R) body s := by
  have key : ∀ k, k ≤ N → runWorkers k mk worker s =
      forRange (max lo 0) (min hi (if k = N then R else startRowOf R N k)) body s := by
    intro k
    induction k with
    | zero =>
      intro _
      rw [if_neg (by omega), startRowOf_zero, forRange_empty _ _ (by omega)]
      rfl
    | succ k ih =>
      intro hk
      rw [runWorkers_succ, ih (by omega), if_neg (by omega), hw k _ (by omega)]
      · have h1 : startRowOf R N k ≤ endRowOf R N k := startRowOf_le_endRowOf R N k
        rw [forRange_clamp_append lo hi 0 _ _ (Nat.zero_le _) h1]
        by_cases hl : k + 1 = N
        · rw [if_pos hl]
          have : k = N - 1 := by omega
          rw [this, endRowOf_last]
        · rw [if_neg hl, endRowOf_eq_startRowOf_succ R N k (by omega)]
      · exact forRange_inv Inv _ _ body (fun i s _ _ h => hbody i s h) s h0
  have := key N le_rfl
  rwa [if_pos rfl] at this

theorem gaussianBlur_parallel_eq (N : Nat) (hN : 0 < N) (pixels : List Int)
    (kernel : List (List ℚ)) (kernelConst : ℚ) (R C D : Nat) :
    gaussianBlur_parallel N pixels kernel kernelConst R C D =
      forRange 0 R (fun i out1 =>
        forRange 0 C (fun j out2 =>
          forRange 0 D (fun k out3 =>
            out3.set (i * C * D + j * D + k)
              (blurCell (mkThreadData 1 R C D kernelConst 0 0 0) kernel pixels i j k))
            out2) out1) (List.replicate (R * C * D) 0) := by
  have h := runWorkers_eq_forRange (fun _ => True) 0 R R N hN
    (mkThreadData N R C D kernelConst 0 0) (gaussianBlurWorker kernel pixels)
    (fun i out1 =>
        forRange 0 C (fun j out2 =>
          forRange 0 D (fun k out3 =>
            out3.set (i * C * D + j * D + k)
              (blurCell (mkThreadData 1 R C D kernelConst 0 0 0) kernel pixels i j k))
            out2) out1)
    (fun _ _ _ => trivial)
    (by
      intro t s ht _
      have h1 : min R (endRowOf R N t) = endRowOf R N t :=
        Nat.min_eq_right (endRowOf_le R N t ht)
      rw [h1, Nat.zero_max]
      rfl)
    (List.replicate (R * C * D) 0) trivial
  simpa using h

theorem rgbToGrayscale_parallel_eq (N : Nat) (hN : 0 < N) (pixels : List Int) (R C D : Nat) :
    rgbToGrayscale_parallel N pixels R C D =
      forRange 0 R (fun i out1 =>
        forRange 0 C (fun j out2 =>
          out2.set (i * C + j)
            (Int.tdiv (forRange 0 D (fun k sum =>
              sum + pixels.getD (i * C * D + j * D + k) 0) 0) D)) out1)
        (List.replicate (R * C) 0) := by
  have h := runWorkers_eq_forRange (fun _ => True) 0 R R N hN
    (mkThreadData N R C D 0 0 0) (rgbToGrayscaleWorker pixels)
    (fun i out1 =>
        forRange 0 C (fun j out2 =>
          out2.set (i * C + j)
            (Int.tdiv (forRange 0 D (fun k sum =>
              sum + pixels.getD (i * C * D + j * D + k) 0) 0) D)) out1)
    (fun _ _ _ => trivial)
    (by
      intro t s ht _
      have h1 : min R (endRowOf R N t) = endRowOf R N t :=
        Nat.min_eq_right (endRowOf_le R N t ht)
      rw [h1, Nat.zero_max]
      rfl)
    (List.replicate (R * C) 0) trivial
  simpa using h

theorem ite_gt_eq_max (a b : ℚ) : (if a > b then a else b) = max b a := by
  rcases lt_or_le b a with h | h
  · rw [if_pos h, max_eq_right h.le]
  · rw [if_neg (not_lt.2 h), max_eq_left h]

theorem cannyPhase1Pixel_rel (m : Libm) (input : List Int) (d : ThreadData) (i j : Nat)
    (M l0 : ℚ) (p q : CannyState × ℚ) (h : Phase1Rel M l0 p q) :
    Phase1Rel M l0 (cannyPhase1Pixel m input d i j p) (cannyPhase1Pixel m input d i j q) := by
  obtain ⟨hG, hT, hP, hL, h2⟩ := h
  unfold cannyPhase1Pixel
  refine ⟨?_, ?_, ?_, ?_, ?_⟩
  · simp only [hG]
  · simp only [hT]
  · simp only [hP]
  · simp only [hL]
  · simp only [hG, h2, ite_gt_eq_max]
    rw [max_assoc]

theorem cannyPhase1Row_rel (m : Libm) (input : List Int) (d : ThreadData) (i : Nat)
    (M l0 : ℚ) (p q : CannyState × ℚ) (h : Phase1Rel M l0 p q) :
    Phase1Rel M l0 (cannyPhase1Row m input d i p) (cannyPhase1Row m input d i q) :=
  forRange_rel (Phase1Rel M l0) _ _ _ _
    (fun j s t _ _ hst => cannyPhase1Pixel_rel m input d i j M l0 s t hst) p q h

theorem cannyPhase1Rows_rel (m : Libm) (input : List Int) (d : ThreadData) (a b : Nat)
    (M l0 : ℚ) (p q : CannyState × ℚ) (h : Phase1Rel M l0 p q) :
    Phase1Rel M l0 (forRange a b (cannyPhase1Row m input d) p)
      (forRange a b (cannyPhase1Row m input d) q) :=
  forRange_rel (Phase1Rel M l0) _ _ _ _
    (fun i s t _ _ hst => cannyPhase1Row_rel m input d i M l0 s t hst) p q h

theorem cannyPhase1Rows_inv (m : Libm) (input : List Int) (d : ThreadData) (a b : Nat)
    (L : ℚ) (p : CannyState × ℚ) (h : p.1.largestG = L ∧ 0 ≤ p.2) :
    (forRange a b (cannyPhase1Row m input d) p).1.largestG = L ∧
      0 ≤ (forRange a b (cannyPhase1Row m input d) p).2 := by
  apply forRange_inv (fun p : CannyState × ℚ => p.1.largestG = L ∧ 0 ≤ p.2) _ _ _ _ p h
  intro i s _ _ hs
  apply forRange_inv (fun p : CannyState × ℚ => p.1.largestG = L ∧ 0 ≤ p.2) _ _ _ _ s hs
  intro j s2 _ _ hs2
  unfold cannyPhase1Pixel
  refine ⟨hs2.1, ?_⟩
  simp only [ite_gt_eq_max]
  exact le_max_of_le_left hs2.2

theorem phase1_runWorkers (m : Libm) (input : List Int) (N : Nat) (hN : 0 < N)
    (R C D : Nat) (kc lt ht : ℚ) (s0 : CannyState) (h0 : 0 ≤ s0.largestG) :
    runWorkers N (mkThreadData N R C D kc lt ht) (cannyPhase1Worker m input) s0 =
      { (forRange (max 1 0) (min (R - 1) R)
          (cannyPhase1Row m input (mkThreadData 1 R C D kc lt ht 0)) (s0, 0)).1 with
        largestG := max s0.largestG (forRange (max 1 0) (min (R - 1) R)
          (cannyPhase1Row m input (mkThreadData 1 R C D kc lt ht 0)) (s0, 0)).2 } := by
  have key : ∀ k, k ≤ N →
      runWorkers k (mkThreadData N R C D kc lt ht) (cannyPhase1Worker m input) s0 =
      { (forRange (max 1 0) (min (R - 1) (if k = N then R else startRowOf R N k))
          (cannyPhase1Row m input (mkThreadData 1 R C D kc lt ht 0)) (s0, 0)).1 with
        largestG := max s0.largestG
          (forRange (max 1 0) (min (R - 1) (if k = N then R else startRowOf R N k))
          (cannyPhase1Row m input (mkThreadData 1 R C D kc lt ht 0)) (s0, 0)).2 } := by
    intro k
    induction k with
    | zero =>
      intro _
      rw [if_neg (by omega), startRowOf_zero, forRange_empty _ _ (by omega)]
      simp [runWorkers, max_eq_left h0]
    | succ k ih =>
      intro hk
      rw [runWorkers_succ, ih (by omega), if_neg (by omega)]
      have hend : (if k + 1 = N then R else startRowOf R N (k + 1)) = endRowOf R N k := by
        by_cases hl : k + 1 = N
        · rw [if_pos hl]
          have : k = N - 1 := by omega
          rw [this, endRowOf_last]
        · rw [if_neg hl, endRowOf_eq_startRowOf_succ R N k (by omega)]
      rw [hend, ← forRange_clamp_append 1 (R - 1) 0 (startRowOf R N k) (endRowOf R N k)
        (Nat.zero_le _) (startRowOf_le_endRowOf R N k)]
      have hinv := cannyPhase1Rows_inv m input (mkThreadData 1 R C D kc lt ht 0) (max 1 0)
        (min (R - 1) (startRowOf R N k)) s0.largestG (s0, 0) ⟨rfl, le_rfl⟩
      generalize forRange (max 1 0) (min (R - 1) (startRowOf R N k))
        (cannyPhase1Row m input (mkThreadData 1 R C D kc lt ht 0)) (s0, 0) = p at hinv ⊢
      obtain ⟨hpL, hp2⟩ := hinv
      have hq := cannyPhase1Rows_inv m input (mkThreadData 1 R C D kc lt ht 0)
        (max 1 (startRowOf R N k)) (min (R - 1) (endRowOf R N k)) p.1.largestG (p.1, 0)
        ⟨rfl, le_rfl⟩
      have hrel1 := cannyPhase1Rows_rel m input (mkThreadData 1 R C D kc lt ht 0)
        (max 1 (startRowOf R N k)) (min (R - 1) (endRowOf R N k))
        (max s0.largestG p.2) 0 (p.1, 0) ({ p.1 with largestG := max s0.largestG p.2 }, 0)
        ⟨rfl, rfl, rfl, rfl, by simp⟩
      have hrel2 := cannyPhase1Rows_rel m input (mkThreadData 1 R C D kc lt ht 0)
        (max 1 (startRowOf R N k)) (min (R - 1) (endRowOf R N k))
        p.1.largestG p.2 (p.1, 0) p
        ⟨rfl, rfl, rfl, rfl, by simp [max_eq_left hp2]⟩
      have hw : cannyPhase1Loop m input (mkThreadData N R C D kc lt ht k)
          { p.1 with largestG := max s0.largestG p.2 } =
          forRange (max 1 (startRowOf R N k)) (min (R - 1) (endRowOf R N k))
            (cannyPhase1Row m input (mkThreadData 1 R C D kc lt ht 0))
            ({ p.1 with largestG := max s0.largestG p.2 }, 0) := rfl
      unfold cannyPhase1Worker
      rw [hw]
      generalize forRange (max 1 (startRowOf R N k)) (min (R - 1) (endRowOf R N k))
        (cannyPhase1Row m input (mkThreadData 1 R C D kc lt ht 0))
        ({ p.1 with largestG := max s0.largestG p.2 }, 0) = w at hrel1 ⊢
      generalize forRange (max 1 (startRowOf R N k)) (min (R - 1) (endRowOf R N k))
        (cannyPhase1Row m input (mkThreadData 1 R C D kc lt ht 0)) p = p2 at hrel2 ⊢
      generalize forRange (max 1 (startRowOf R N k)) (min (R - 1) (endRowOf R N k))
        (cannyPhase1Row m input (mkThreadData 1 R C D kc lt ht 0)) (p.1, 0) = q at hq hrel1 hrel2
      obtain ⟨a1, a2, a3, a4, a5⟩ := hrel1
      obtain ⟨b1, b2, b3, b4, b5⟩ := hrel2
      obtain ⟨_, hq2⟩ := hq
      apply CannyState.ext
      · simp only [a3, b3]
      · simp only [a1, b1]
      · simp only [a2, b2]
      · simp only [a4, a5, b5, ite_gt_eq_max, max_eq_right hq2, max_assoc]
  have := key N le_rfl
  rwa [if_pos rfl] at this

theorem cannyPhase2Row_largestG (d : ThreadData) (L : ℚ) (i : Nat) (s : CannyState) :
    (cannyPhase2Row d L i s).largestG = s.largestG := by
  unfold cannyPhase2Row
  exact forRange_inv (fun t : CannyState => t.largestG = s.largestG) 1 (d.sizeCols - 1)
    (fun j acc => cannyPhase2Pixel d L i j acc) (fun j t _ _ h => h) s rfl

theorem phase2_runWorkers (N : Nat) (hN : 0 < N) (R C D : Nat) (kc lt ht : ℚ)
    (s0 : CannyState) :
    runWorkers N (mkThreadData N R C D kc lt ht) cannyPhase2Worker s0 =
      forRange (max 1 0) (min (R - 1) R)
        (cannyPhase2Row (mkThreadData 1 R C D kc lt ht 0) s0.largestG) s0 := by
  apply runWorkers_eq_forRange (fun s : CannyState => s.largestG = s0.largestG) 1 (R - 1) R N hN
  · intro i s h
    rw [cannyPhase2Row_largestG]
    exact h
  · intro t s _ h
    show forRange _ _ (cannyPhase2Row _ s.largestG) s = _
    rw [h]
    rfl
  · rfl

theorem cannyGradient_eq (m : Libm) (N : Nat) (hN : 0 < N) (pixels : List Int) (R C D : Nat)
    (lt ht : ℚ) :
    cannyGradient m N pixels R C D lt ht = cannyGradient m 1 pixels R C D lt ht := by
  unfold cannyGradient
  rw [phase1_runWorkers m pixels N hN R C D 0 lt ht _ (le_refl (0 : ℚ)),
    phase1_runWorkers m pixels 1 Nat.one_pos R C D 0 lt ht _ (le_refl (0 : ℚ))]

theorem cannySuppressed_eq (m : Libm) (N : Nat) (hN : 0 < N) (pixels : List Int) (R C D : Nat)
    (lt ht : ℚ) :
    cannySuppressed m N pixels R C D lt ht = cannySuppressed m 1 pixels R C D lt ht := by
  unfold cannySuppressed
  rw [phase2_runWorkers N hN, phase2_runWorkers 1 Nat.one_pos, cannyGradient_eq m N hN]

theorem cannyFilter_parallel_eq (m : Libm) (N : Nat) (hN : 0 < N) (pixels : List Int)
    (R C D : Nat) (lt ht : ℚ) :
    cannyFilter_parallel m N pixels R C D lt ht = cannyFilter_parallel m 1 pixels R C D lt ht := by
  unfold cannyFilter_parallel cannyFinal
  rw [cannySuppressed_eq m N hN]

theorem cannyEdgeDetection_parallel_eq (m : Libm) (N : Nat) (hN : 0 < N) (pixels : List Int)
    (R C D : Nat) (lt ht : ℚ) :
    cannyEdgeDetection_parallel m N pixels R C D lt ht =
      cannyEdgeDetection_parallel m 1 pixels R C D lt ht := by
  unfold cannyEdgeDetection_parallel
  rw [cannyFilter_parallel_eq m N hN, gaussianBlur_parallel_eq N hN,
    gaussianBlur_parallel_eq 1 Nat.one_pos, rgbToGrayscale_parallel_eq N hN,
    rgbToGrayscale_parallel_eq 1 Nat.one_pos]

/-! ## binary64 rounding -/

theorem bitLenAux_spec (f n : Nat) (hf : n ≤ f) (hn : 0 < n) :
    2 ^ (bitLenAux f n - 1) ≤ n ∧ n < 2 ^ bitLenAux f n ∧ 0 < bitLenAux f n := by
  induction f generalizing n with
  | zero => omega
  | succ f ih =>
    rw [bitLenAux, if_neg (by omega)]
    by_cases h2 : n / 2 = 0
    · have h1 : n = 1 := by omega
      subst h1
      cases f <;> simp [bitLenAux]
    · obtain ⟨a, b, c⟩ := ih (n / 2) (by omega) (by omega)
      have e : bitLenAux f (n / 2) + 1 - 1 = (bitLenAux f (n / 2) - 1) + 1 := by omega
      refine ⟨?_, ?_, by omega⟩
      · rw [e, pow_succ]
        omega
      · rw [pow_succ]
        omega

theorem bitLen_spec (n : Nat) (hn : 0 < n) :
    2 ^ (bitLen n - 1) ≤ n ∧ n < 2 ^ bitLen n ∧ 0 < bitLen n :=
  bitLenAux_spec n n le_rfl hn

theorem abs_eq_natAbs_div_den (q : ℚ) : |q| = (q.num.natAbs : ℚ) / (q.den : ℚ) := by
  rw [Rat.abs_def, Rat.divInt_eq_div]
  simp only [Int.cast_natCast]

theorem ilog2_spec (q : ℚ) (hq : q ≠ 0) :
    (2 : ℚ) ^ ilog2 q ≤ |q| ∧ |q| < (2 : ℚ) ^ (ilog2 q + 1) := by
  have hnum : 0 < q.num.natAbs := Int.natAbs_pos.2 (Rat.num_ne_zero.2 hq)
  have hden : 0 < q.den := q.den_pos
  obtain ⟨a1, a2, a3⟩ := bitLen_spec _ hnum
  obtain ⟨b1, b2, b3⟩ := bitLen_spec _ hden
  have habs := abs_eq_natAbs_div_den q
  have hdq : (0 : ℚ) < (q.den : ℚ) := by exact_mod_cast hden
  have two_pos : (0 : ℚ) < 2 := by norm_num
  have two_ne : (2 : ℚ) ≠ 0 := by norm_num
  -- rational versions of the bounds
  have A1 : (2 : ℚ) ^ ((bitLen q.num.natAbs : ℤ) - 1) ≤ (q.num.natAbs : ℚ) := by
    have : ((bitLen q.num.natAbs : ℤ) - 1) = ((bitLen q.num.natAbs - 1 : ℕ) : ℤ) := by omega
    rw [this, zpow_natCast]
    exact_mod_cast a1
  have A2 : (q.num.natAbs : ℚ) < (2 : ℚ) ^ ((bitLen q.num.natAbs : ℤ)) := by
    rw [zpow_natCast]
    exact_mod_cast a2
  have B1 : (2 : ℚ) ^ ((bitLen q.den : ℤ) - 1) ≤ (q.den : ℚ) := by
    have : ((bitLen q.den : ℤ) - 1) = ((bitLen q.den - 1 : ℕ) : ℤ) := by omega
    rw [this, zpow_natCast]
    exact_mod_cast b1
  have B2 : (q.den : ℚ) < (2 : ℚ) ^ ((bitLen q.den : ℤ)) := by
    rw [zpow_natCast]
    exact_mod_cast b2
  unfold ilog2
  generalize (bitLen q.num.natAbs : ℤ) = la at A1 A2 ⊢
  generalize (bitLen q.den : ℤ) = lb at B1 B2 ⊢
  have hlow : (2 : ℚ) ^ (la - lb - 1) ≤ |q| := by
    rw [habs, le_div_iff₀ hdq]
    calc (2 : ℚ) ^ (la - lb - 1) * (q.den : ℚ) ≤ (2 : ℚ) ^ (la - lb - 1) * (2 : ℚ) ^ lb :=
          mul_le_mul_of_nonneg_left B2.le (zpow_pos two_pos _).le
      _ = (2 : ℚ) ^ (la - 1) := by rw [← zpow_add₀ two_ne]; congr 1; ring
      _ ≤ _ := A1
  have hhigh : |q| < (2 : ℚ) ^ (la - lb + 1) := by
    rw [habs, div_lt_iff₀ hdq]
    calc (q.num.natAbs : ℚ) < (2 : ℚ) ^ la := A2
      _ = (2 : ℚ) ^ (la - lb + 1) * (2 : ℚ) ^ (lb - 1) := by
          rw [← zpow_add₀ two_ne]; congr 1; ring
      _ ≤ (2 : ℚ) ^ (la - lb + 1) * (q.den : ℚ) :=
          mul_le_mul_of_nonneg_left B1 (zpow_pos two_pos _).le
  split
  · next h => exact ⟨h, hhigh⟩
  · next h =>
    refine ⟨hlow, ?_⟩
    rw [sub_add_cancel]
    exact not_le.1 h

theorem ilog2_mono (p q : ℚ) (hp : p ≠ 0) (hq : q ≠ 0) (h : |p| ≤ |q|) : ilog2 p ≤ ilog2 q := by
  have h1 := (ilog2_spec p hp).1
  have h2 := (ilog2_spec q hq).2
  have h3 : (2 : ℚ) ^ ilog2 p < (2 : ℚ) ^ (ilog2 q + 1) := lt_of_le_of_lt (le_trans h1 h) h2
  have := (zpow_lt_zpow_iff_right₀ (by norm_num : (1 : ℚ) < 2)).1 h3
  omega

theorem roundNE_le (x : ℚ) : (roundNE x : ℚ) ≤ x + 1 / 2 := by
  have h1 := Int.floor_le x
  have h2 := Int.lt_floor_add_one x
  unfold roundNE
  split_ifs <;> push_cast <;> linarith

theorem le_roundNE (x : ℚ) : x - 1 / 2 ≤ (roundNE x : ℚ) := by
  have h1 := Int.floor_le x
  have h2 := Int.lt_floor_add_one x
  unfold roundNE
  split_ifs <;> push_cast <;> linarith

theorem roundNE_intCast (n : ℤ) : roundNE (n : ℚ) = n := by
  unfold roundNE
  simp

theorem roundNE_mono (x y : ℚ) (h : x ≤ y) : roundNE x ≤ roundNE y := by
  rcases eq_or_lt_of_le h with h | h
  · rw [h]
  · by_contra hc
    have h1 : roundNE y + 1 ≤ roundNE x := by omega
    have h2 : ((roundNE y : ℚ)) + 1 ≤ (roundNE x : ℚ) := by exact_mod_cast h1
    have := roundNE_le x
    have := le_roundNE y
    linarith

theorem roundNE_le_of_le_intCast (x : ℚ) (n : ℤ) (h : x ≤ n) : roundNE x ≤ n := by
  have := roundNE_mono x n h
  rwa [roundNE_intCast] at this

theorem le_roundNE_of_intCast_le (x : ℚ) (n : ℤ) (h : (n : ℚ) ≤ x) : n ≤ roundNE x := by
  have := roundNE_mono n x h
  rwa [roundNE_intCast] at this

theorem rnd_zero : rnd 0 = 0 := by
  simp [rnd]

theorem ulpExp_mono (p q : ℚ) (hp : p ≠ 0) (hq : q ≠ 0) (h : |p| ≤ |q|) :
    ulpExp p ≤ ulpExp q := by
  have := ilog2_mono p q hp hq h
  unfold ulpExp
  omega

theorem rnd_nonneg (q : ℚ) (h : 0 ≤ q) : 0 ≤ rnd q := by
  unfold rnd
  split
  · exact le_rfl
  · apply mul_nonneg _ (zpow_pos (by norm_num) _).le
    have : (0 : ℤ) ≤ roundNE (q / (2 : ℚ) ^ ulpExp q) :=
      le_roundNE_of_intCast_le _ 0 (by
        push_cast
        exact div_nonneg h (zpow_pos (by norm_num) _).le)
    exact_mod_cast this

theorem rnd_mono_pos (p q : ℚ) (hp : 0 < p) (h : p ≤ q) : rnd p ≤ rnd q := by
  have hq : 0 < q := lt_of_lt_of_le hp h
  have two_pos : (0 : ℚ) < 2 := by norm_num
  have two_ne : (2 : ℚ) ≠ 0 := by norm_num
  have hu := ulpExp_mono p q hp.ne' hq.ne' (by rwa [abs_of_pos hp, abs_of_pos hq])
  unfold rnd
  rw [if_neg hp.ne', if_neg hq.ne']
  rcases eq_or_lt_of_le hu with he | hl
  · rw [he]
    apply mul_le_mul_of_nonneg_right _ (zpow_pos two_pos _).le
    have := roundNE_mono (p / (2 : ℚ) ^ ulpExp q) (q / (2 : ℚ) ^ ulpExp q)
      (div_le_div_of_nonneg_right h (zpow_pos two_pos _).le)
    exact_mod_cast this
  · -- different binades: `2 ^ ilog2 q` separates the two rounded values
    have hlq : ulpExp q = ilog2 q - 52 := by
      unfold ulpExp at hl ⊢
      omega
    have hpq := (ilog2_spec p hp.ne').2
    have hqq := (ilog2_spec q hq.ne').1
    rw [abs_of_pos hp] at hpq
    rw [abs_of_pos hq] at hqq
    have hple : p ≤ (2 : ℚ) ^ ilog2 q := by
      apply le_trans hpq.le
      apply zpow_le_zpow_right₀ (by norm_num)
      unfold ulpExp at hl
      omega
    -- left value is at most `2 ^ ilog2 q`
    have hk : 0 ≤ ilog2 q - ulpExp p := by omega
    have h1 : roundNE (p / (2 : ℚ) ^ ulpExp p) ≤ (2 : ℤ) ^ (ilog2 q - ulpExp p).toNat := by
      apply roundNE_le_of_le_intCast
      rw [div_le_iff₀ (zpow_pos two_pos _)]
      push_cast
      rw [← zpow_natCast, Int.toNat_of_nonneg hk, ← zpow_add₀ two_ne]
      simpa using hple
    have h1' : (roundNE (p / (2 : ℚ) ^ ulpExp p) : ℚ) * (2 : ℚ) ^ ulpExp p ≤ (2 : ℚ) ^ ilog2 q := by
      have : (roundNE (p / (2 : ℚ) ^ ulpExp p) : ℚ) ≤ (2 : ℚ) ^ (ilog2 q - ulpExp p) := by
        have h1q : ((roundNE (p / (2 : ℚ) ^ ulpExp p) : ℤ) : ℚ) ≤
            (((2 : ℤ) ^ (ilog2 q - ulpExp p).toNat : ℤ) : ℚ) := by exact_mod_cast h1
        push_cast at h1q
        rwa [← zpow_natCast, Int.toNat_of_nonneg hk] at h1q
      calc _ ≤ (2 : ℚ) ^ (ilog2 q - ulpExp p) * (2 : ℚ) ^ ulpExp p :=
            mul_le_mul_of_nonneg_right this (zpow_pos two_pos _).le
        _ = (2 : ℚ) ^ ilog2 q := by rw [← zpow_add₀ two_ne]; congr 1; ring
    -- right value is at least `2 ^ ilog2 q`
    have hcast : (((2 : ℤ) ^ 52 : ℤ) : ℚ) = (2 : ℚ) ^ (52 : ℤ) := by norm_num
    have h2 : (2 : ℤ) ^ 52 ≤ roundNE (q / (2 : ℚ) ^ ulpExp q) := by
      apply le_roundNE_of_intCast_le
      rw [le_div_iff₀ (zpow_pos two_pos _), hlq, hcast, ← zpow_add₀ two_ne]
      have e : (52 : ℤ) + (ilog2 q - 52) = ilog2 q := by ring
      rw [e]
      exact hqq
    have h2' : (2 : ℚ) ^ ilog2 q ≤ (roundNE (q / (2 : ℚ) ^ ulpExp q) : ℚ) * (2 : ℚ) ^ ulpExp q := by
      have : ((2 : ℚ) ^ (52 : ℤ)) ≤ (roundNE (q / (2 : ℚ) ^ ulpExp q) : ℚ) := by
        rw [← hcast]
        exact_mod_cast h2
      calc (2 : ℚ) ^ ilog2 q = (2 : ℚ) ^ (52 : ℤ) * (2 : ℚ) ^ ulpExp q := by
            rw [← zpow_add₀ two_ne, hlq]; congr 1; ring
        _ ≤ _ := mul_le_mul_of_nonneg_right this (zpow_pos two_pos _).le
    exact le_trans h1' h2'

theorem rnd_mono_nonneg (p q : ℚ) (hp : 0 ≤ p) (h : p ≤ q) : rnd p ≤ rnd q := by
  rcases eq_or_lt_of_le hp with h0 | h0
  · rw [← h0, rnd_zero]
    exact rnd_nonneg q (le_trans hp h)
  · exact rnd_mono_pos p q h0 h

theorem fmul_zero_left (a : ℚ) : fmul 0 a = 0 := by
  simp [fmul, rnd_zero]

theorem fmul_nonneg (a b : ℚ) (ha : 0 ≤ a) (hb : 0 ≤ b) : 0 ≤ fmul a b :=
  rnd_nonneg _ (mul_nonneg ha hb)

theorem fmul_le_fmul_right (a b c : ℚ) (ha : 0 ≤ a) (hab : a ≤ b) (hc : 0 ≤ c) :
    fmul a c ≤ fmul b c :=
  rnd_mono_nonneg _ _ (mul_nonneg ha hc) (mul_le_mul_of_nonneg_right hab hc)

/-! ## Hysteresis: one pixel -/

theorem idx_lt (R C i j : Nat) (hi : i < R) (hj : j < C) : i * C + j < R * C := by
  have h1 : (i + 1) * C ≤ R * C := Nat.mul_le_mul_right C hi
  have h2 : (i + 1) * C = i * C + C := by ring
  omega

theorem idx_inj (C i j a b : Nat) (hj : j < C) (hb : b < C) (h : i * C + j = a * C + b) :
    i = a ∧ j = b := by
  rcases Nat.lt_trichotomy i a with hlt | heq | hgt
  · exfalso
    have h1 : (i + 1) * C ≤ a * C := Nat.mul_le_mul_right C hlt
    have h2 : (i + 1) * C = i * C + C := by ring
    omega
  · subst heq
    exact ⟨rfl, by omega⟩
  · exfalso
    have h1 : (a + 1) * C ≤ i * C := Nat.mul_le_mul_right C hgt
    have h2 : (a + 1) * C = a * C + C := by ring
    omega

theorem interior_idx_lt (R C i j : Nat) (h : Interior R C i j) : i * C + j < R * C := by
  obtain ⟨_, h2, _, h4⟩ := h
  exact idx_lt R C i j (by omega) (by omega)

theorem nbIdx_eq (C i j : Nat) (x y : Int) (a b : Nat) (ha : (a : Int) = i + x)
    (hb : (b : Int) = j + y) : nbIdx C i j (x, y) = a * C + b := by
  unfold nbIdx
  simp only
  rw [← ha, ← hb]
  have : (a : Int) * (C : Int) + (b : Int) = ((a * C + b : Nat) : Int) := by push_cast; ring
  rw [this, Int.toNat_natCast]

theorem strongNeighbour_iff (C : Nat) (G : List ℚ) (hi : ℚ) (i j : Nat) (h1 : 1 ≤ i)
    (h2 : 1 ≤ j) :
    strongNeighbour C G hi i j = true ↔ ∃ a b, Adj8 i j a b ∧ hi ≤ G.getD (a * C + b) 0 := by
  have e1 := nbIdx_eq C i j (-1) (-1) (i - 1) (j - 1) (by omega) (by omega)
  have e2 := nbIdx_eq C i j (-1) 0 (i - 1) j (by omega) (by omega)
  have e3 := nbIdx_eq C i j (-1) 1 (i - 1) (j + 1) (by omega) (by omega)
  have e4 := nbIdx_eq C i j 0 (-1) i (j - 1) (by omega) (by omega)
  have e5 := nbIdx_eq C i j 0 1 i (j + 1) (by omega) (by omega)
  have e6 := nbIdx_eq C i j 1 (-1) (i + 1) (j - 1) (by omega) (by omega)
  have e7 := nbIdx_eq C i j 1 0 (i + 1) j (by omega) (by omega)
  have e8 := nbIdx_eq C i j 1 1 (i + 1) (j + 1) (by omega) (by omega)
  simp only [strongNeighbour, neighbours8, List.any_cons, List.any_nil, e1, e2, e3, e4, e5, e6,
    e7, e8, Bool.or_eq_true, decide_eq_true_eq, Bool.or_false, ge_iff_le]
  constructor
  · rintro (h | h | h | h | h | h | h | h)
    · exact ⟨i - 1, j - 1, ⟨by omega, by omega, by omega, by omega, by omega⟩, h⟩
    · exact ⟨i - 1, j, ⟨by omega, by omega, by omega, by omega, by omega⟩, h⟩
    · exact ⟨i - 1, j + 1, ⟨by omega, by omega, by omega, by omega, by omega⟩, h⟩
    · exact ⟨i, j - 1, ⟨by omega, by omega, by omega, by omega, by omega⟩, h⟩
    · exact ⟨i, j + 1, ⟨by omega, by omega, by omega, by omega, by omega⟩, h⟩
    · exact ⟨i + 1, j - 1, ⟨by omega, by omega, by omega, by omega, by omega⟩, h⟩
    · exact ⟨i + 1, j, ⟨by omega, by omega, by omega, by omega, by omega⟩, h⟩
    · exact ⟨i + 1, j + 1, ⟨by omega, by omega, by omega, by omega, by omega⟩, h⟩
  · rintro ⟨a, b, ⟨hne, a1, a2, b1, b2⟩, hg⟩
    have ha : a = i - 1 ∨ a = i ∨ a = i + 1 := by omega
    have hb : b = j - 1 ∨ b = j ∨ b = j + 1 := by omega
    rcases ha with ha | ha | ha <;> rcases hb with hb | hb | hb <;> subst ha <;> subst hb <;>
      first
      | (exfalso; omega)
      | simp only [hg, true_or, or_true]

theorem adj8_idx_ne (C i j a b : Nat) (hj : j + 1 < C) (h : Adj8 i j a b) :
    i * C + j ≠ a * C + b := by
  intro he
  obtain ⟨hne, _, _, b1, _⟩ := h
  have := idx_inj C i j a b (by omega) (by omega) he
  omega

theorem strongNeighbour_set (C : Nat) (G : List ℚ) (hi v : ℚ) (i j : Nat) (h1 : 1 ≤ i)
    (h2 : 1 ≤ j) (h3 : j + 1 < C) :
    strongNeighbour C (G.set (i * C + j) v) hi i j = strongNeighbour C G hi i j := by
  rw [Bool.eq_iff_iff, strongNeighbour_iff C _ hi i j h1 h2, strongNeighbour_iff C _ hi i j h1 h2]
  constructor
  · rintro ⟨a, b, hadj, hg⟩
    rw [getD_set_ne _ _ _ _ _ (adj8_idx_ne C i j a b h3 hadj)] at hg
    exact ⟨a, b, hadj, hg⟩
  · rintro ⟨a, b, hadj, hg⟩
    refine ⟨a, b, hadj, ?_⟩
    rw [getD_set_ne _ _ _ _ _ (adj8_idx_ne C i j a b h3 hadj)]
    exact hg

theorem hystPixel_ok (R C : Nat) (L lt ht : ℚ) (i j : Nat) (st : CannyState × Bool)
    (h : HystOK R C L st.1) : HystOK R C L (hystPixel C lt ht i j st).1 := by
  obtain ⟨h1, h2, h3⟩ := h
  unfold hystPixel
  split_ifs <;> simp [HystOK, h1, h2, h3]

theorem hystPixel_G_ne (C : Nat) (lt ht : ℚ) (i j k : Nat) (st : CannyState × Bool)
    (hk : i * C + j ≠ k) : (hystPixel C lt ht i j st).1.G.getD k 0 = st.1.G.getD k 0 := by
  unfold hystPixel
  split_ifs <;> simp only [getD_set_ne _ _ _ _ _ hk]

theorem hystPixel_out_ne (C : Nat) (lt ht : ℚ) (i j k : Nat) (st : CannyState × Bool)
    (d : Option Int) (hk : i * C + j ≠ k) :
    (hystPixel C lt ht i j st).1.pixelsCanny.getD k d = st.1.pixelsCanny.getD k d := by
  unfold hystPixel
  split_ifs <;> simp only [getD_set_ne _ _ _ _ _ hk]

theorem hystPixel_low (C : Nat) (lt ht : ℚ) (i j : Nat) (st : CannyState × Bool) (d : Option Int)
    (hlen : i * C + j < st.1.G.length) (hlen2 : i * C + j < st.1.pixelsCanny.length)
    (h : st.1.G.getD (i * C + j) 0 < fmul lt st.1.largestG) :
    (hystPixel C lt ht i j st).1.G.getD (i * C + j) 0 = 0 ∧
    (hystPixel C lt ht i j st).1.pixelsCanny.getD (i * C + j) d = toPixel 0 st.1.largestG ∧
    (hystPixel C lt ht i j st).2 = st.2 := by
  unfold hystPixel
  rw [if_pos h]
  simp only [getD_set_eq _ _ _ _ hlen, getD_set_eq _ _ _ _ hlen2, and_self]

theorem hystPixel_strong (C : Nat) (lt ht : ℚ) (i j : Nat) (st : CannyState × Bool)
    (h1 : ¬ st.1.G.getD (i * C + j) 0 < fmul lt st.1.largestG)
    (h2 : fmul ht st.1.largestG ≤ st.1.G.getD (i * C + j) 0) :
    hystPixel C lt ht i j st = st := by
  unfold hystPixel
  rw [if_neg h1, if_pos h2]

theorem hystPixel_weak (C : Nat) (lt ht : ℚ) (i j : Nat) (st : CannyState × Bool) (d : Option Int)
    (hi1 : 1 ≤ i) (hj1 : 1 ≤ j) (hj2 : j + 1 < C)
    (hlen : i * C + j < st.1.G.length) (hlen2 : i * C + j < st.1.pixelsCanny.length)
    (h1 : ¬ st.1.G.getD (i * C + j) 0 < fmul lt st.1.largestG)
    (h2 : ¬ fmul ht st.1.largestG ≤ st.1.G.getD (i * C + j) 0) :
    (strongNeighbour C st.1.G (fmul ht st.1.largestG) i j = true →
      (hystPixel C lt ht i j st).1.G.getD (i * C + j) 0 = fmul ht st.1.largestG ∧
      (hystPixel C lt ht i j st).1.pixelsCanny.getD (i * C + j) d =
        toPixel (fmul ht st.1.largestG) st.1.largestG ∧
      (hystPixel C lt ht i j st).2 = true) ∧
    (strongNeighbour C st.1.G (fmul ht st.1.largestG) i j = false →
      (hystPixel C lt ht i j st).1.G.getD (i * C + j) 0 = 0 ∧
      (hystPixel C lt ht i j st).1.pixelsCanny.getD (i * C + j) d = toPixel 0 st.1.largestG ∧
      (hystPixel C lt ht i j st).2 = st.2) := by
  unfold hystPixel
  rw [if_neg h1, if_neg h2, strongNeighbour_set C _ _ _ i j hi1 hj1 hj2]
  constructor
  · intro hs
    rw [if_pos hs]
    have hlen' : i * C + j < (st.1.G.set (i * C + j) 0).length := by
      rw [List.length_set]; exact hlen
    simp only [getD_set_eq _ _ _ _ hlen', getD_set_eq _ _ _ _ hlen2, and_self]
  · intro hs
    rw [if_neg (by simp [hs])]
    simp only [getD_set_eq _ _ _ _ hlen, getD_set_eq _ _ _ _ hlen2, and_self]

/-! ## Hysteresis: sweeps and the loop -/

theorem forRange_split {σ : Type} (a k b : Nat) (hak : a ≤ k) (hkb : k < b) (body : Nat → σ → σ)
    (s : σ) :
    forRange a b body s = forRange (k + 1) b body (body k (forRange a k body s)) := by
  rw [← forRange_succ_right a k hak body s, forRange_append a (k + 1) b (by omega) (by omega)]

theorem hystSweep_inv (R C : Nat) (lt ht : ℚ) (P : CannyState × Bool → Prop)
    (hstep : ∀ i j st, Interior R C i j → P st → P (hystPixel C lt ht i j st))
    (s : CannyState) (h : P (s, false)) : P (hystSweep R C lt ht s) := by
  unfold hystSweep
  apply forRange_inv P 1 (R - 1) _ _ (s, false) h
  intro i st hi1 hi2 hst
  unfold hystRow
  apply forRange_inv P 1 (C - 1) _ _ st hst
  intro j st2 hj1 hj2 hst2
  exact hstep i j st2 ⟨hi1, hi2, hj1, hj2⟩ hst2

theorem hystSweep_visit (R C : Nat) (lt ht : ℚ) (i0 j0 : Nat) (h0 : Interior R C i0 j0)
    (Pre Post : CannyState × Bool → Prop)
    (hpre : ∀ i j st, Interior R C i j → (i ≠ i0 ∨ j ≠ j0) → Pre st →
      Pre (hystPixel C lt ht i j st))
    (hat : ∀ st, Pre st → Post (hystPixel C lt ht i0 j0 st))
    (hpost : ∀ i j st, Interior R C i j → (i ≠ i0 ∨ j ≠ j0) → Post st →
      Post (hystPixel C lt ht i j st))
    (s : CannyState) (h : Pre (s, false)) : Post (hystSweep R C lt ht s) := by
  obtain ⟨a1, a2, a3, a4⟩ := h0
  unfold hystSweep
  rw [forRange_split 1 i0 (R - 1) a1 a2]
  -- rows before `i0`
  have hbefore : Pre (forRange 1 i0 (hystRow C lt ht) (s, false)) := by
    apply forRange_inv Pre 1 i0 _ _ (s, false) h
    intro i st hi1 hi2 hst
    unfold hystRow
    apply forRange_inv Pre 1 (C - 1) _ _ st hst
    intro j st2 hj1 hj2 hst2
    exact hpre i j st2 ⟨hi1, by omega, hj1, hj2⟩ (Or.inl (by omega)) hst2
  -- row `i0`
  have hrow : Post (hystRow C lt ht i0 (forRange 1 i0 (hystRow C lt ht) (s, false))) := by
    generalize forRange 1 i0 (hystRow C lt ht) (s, false) = st at hbefore
    unfold hystRow
    rw [forRange_split 1 j0 (C - 1) a3 a4]
    have hb2 : Pre (forRange 1 j0 (fun j acc => hystPixel C lt ht i0 j acc) st) := by
      apply forRange_inv Pre 1 j0 _ _ st hbefore
      intro j st2 hj1 hj2 hst2
      exact hpre i0 j st2 ⟨a1, a2, hj1, by omega⟩ (Or.inr (by omega)) hst2
    apply forRange_inv Post (j0 + 1) (C - 1) _ _ _ (hat _ hb2)
    intro j st2 hj1 hj2 hst2
    exact hpost i0 j st2 ⟨a1, a2, by omega, hj2⟩ (Or.inr (by omega)) hst2
  -- rows after `i0`
  apply forRange_inv Post (i0 + 1) (R - 1) _ _ _ hrow
  intro i st hi1 hi2 hst
  unfold hystRow
  apply forRange_inv Post 1 (C - 1) _ _ st hst
  intro j st2 hj1 hj2 hst2
  exact hpost i j st2 ⟨by omega, hi2, hj1, hj2⟩ (Or.inl (by omega)) hst2

theorem hystSweep_ok (R C : Nat) (L lt ht : ℚ) (s : CannyState) (h : HystOK R C L s) :
    HystOK R C L (hystSweep R C lt ht s).1 :=
  hystSweep_inv R C lt ht (fun st => HystOK R C L st.1)
    (fun i j st _ hst => hystPixel_ok R C L lt ht i j st hst) s h

theorem hystSweeps_inv (R C : Nat) (lt ht : ℚ) (P : CannyState → Prop)
    (hP : ∀ t, P t → P (hystSweep R C lt ht t).1) (n : Nat) (s : CannyState) (h : P s) :
    P (hystSweeps R C lt ht n s) := by
  induction n generalizing s with
  | zero => exact h
  | succ n ih => exact ih _ (hP s h)

theorem hystLoop_exit (R C : Nat) (lt ht : ℚ) (fuel : Nat) (s s' : CannyState)
    (h : hystLoop R C lt ht fuel s = some s') :
    ∃ n, s' = (hystSweep R C lt ht (hystSweeps R C lt ht n s)).1 ∧
      (hystSweep R C lt ht (hystSweeps R C lt ht n s)).2 = false ∧
      s' = hystSweeps R C lt ht (n + 1) s := by
  induction fuel generalizing s with
  | zero => simp [hystLoop] at h
  | succ fuel ih =>
    rw [hystLoop] at h
    by_cases hc : (hystSweep R C lt ht s).2 = true
    · rw [if_pos hc] at h
      obtain ⟨n, h1, h2, h3⟩ := ih _ h
      exact ⟨n + 1, h1, h2, h3⟩
    · rw [if_neg hc] at h
      refine ⟨0, ?_, ?_, ?_⟩
      · exact (Option.some.inj h).symm
      · simpa using hc
      · exact (Option.some.inj h).symm

theorem hystSweeps_succ_right (R C : Nat) (lt ht : ℚ) (n : Nat) (s : CannyState) :
    hystSweeps R C lt ht (n + 1) s = (hystSweep R C lt ht (hystSweeps R C lt ht n s)).1 := by
  induction n generalizing s with
  | zero => rfl
  | succ n ih =>
    show hystSweeps R C lt ht (n + 1) (hystSweep R C lt ht s).1 = _
    rw [ih]
    rfl

/-! ## Hysteresis: termination -/

theorem countP_set {α : Type} (p : α → Bool) (l : List α) (i : Nat) (a d : α)
    (h : i < l.length) :
    (l.set i a).countP p + (if p (l.getD i d) then 1 else 0) =
      l.countP p + (if p a then 1 else 0) := by
  induction l generalizing i with
  | nil => simp at h
  | cons x xs ih =>
    cases i with
    | zero =>
      simp only [List.set_cons_zero, List.countP_cons, List.getD_cons_zero]
      omega
    | succ i =>
      simp only [List.set_cons_succ, List.countP_cons, List.getD_cons_succ]
      have := ih i (by simpa using h)
      omega

theorem set_set_same {α : Type} (l : List α) (i : Nat) (a b : α) :
    (l.set i a).set i b = l.set i b := by
  induction l generalizing i with
  | nil => rfl
  | cons x xs ih =>
    cases i with
    | zero => rfl
    | succ i => simp [ih]

theorem hystPixel_count (R C : Nat) (L lt ht : ℚ) (i j : Nat) (hint : Interior R C i j)
    (hle : fmul lt L ≤ fmul ht L) (c0 : Nat) (st : CannyState × Bool)
    (h : HystOK R C L st.1 ∧
      c0 + (if st.2 then 1 else 0) ≤ st.1.G.countP (fun g => decide (fmul ht L ≤ g))) :
    HystOK R C L (hystPixel C lt ht i j st).1 ∧
      c0 + (if (hystPixel C lt ht i j st).2 then 1 else 0) ≤
        (hystPixel C lt ht i j st).1.G.countP (fun g => decide (fmul ht L ≤ g)) := by
  obtain ⟨hok, hc⟩ := h
  refine ⟨hystPixel_ok R C L lt ht i j st hok, ?_⟩
  obtain ⟨hG, _, hL⟩ := hok
  have hlen : i * C + j < st.1.G.length := by rw [hG]; exact interior_idx_lt R C i j hint
  unfold hystPixel
  rw [hL]
  by_cases h1 : st.1.G.getD (i * C + j) 0 < fmul lt L
  · rw [if_pos h1]
    have := countP_set (fun g => decide (fmul ht L ≤ g)) st.1.G (i * C + j) 0 0 hlen
    have hn : ¬ fmul ht L ≤ st.1.G.getD (i * C + j) 0 := not_le.2 (lt_of_lt_of_le h1 hle)
    simp only [hn, decide_False, Bool.false_eq_true, if_false] at this
    simp only
    omega
  · rw [if_neg h1]
    by_cases h2 : st.1.G.getD (i * C + j) 0 ≥ fmul ht L
    · rw [if_pos h2]
      exact hc
    · rw [if_neg h2]
      have hn : ¬ fmul ht L ≤ st.1.G.getD (i * C + j) 0 := h2
      split
      · have := countP_set (fun g => decide (fmul ht L ≤ g)) st.1.G (i * C + j) (fmul ht L) 0 hlen
        simp only [hn, decide_False, Bool.false_eq_true, if_false, le_refl, decide_True,
          if_true] at this
        simp only [set_set_same, if_true]
        split at hc <;> omega
      · have := countP_set (fun g => decide (fmul ht L ≤ g)) st.1.G (i * C + j) 0 0 hlen
        simp only [hn, decide_False, Bool.false_eq_true, if_false] at this
        simp only
        omega

theorem hystSweep_count (R C : Nat) (L lt ht : ℚ) (hle : fmul lt L ≤ fmul ht L)
    (s : CannyState) (h : HystOK R C L s) :
    s.G.countP (fun g => decide (fmul ht L ≤ g)) +
        (if (hystSweep R C lt ht s).2 then 1 else 0) ≤
      (hystSweep R C lt ht s).1.G.countP (fun g => decide (fmul ht L ≤ g)) := by
  have := hystSweep_inv R C lt ht
    (fun st => HystOK R C L st.1 ∧
      s.G.countP (fun g => decide (fmul ht L ≤ g)) + (if st.2 then 1 else 0) ≤
        st.1.G.countP (fun g => decide (fmul ht L ≤ g)))
    (fun i j st hint hst => hystPixel_count R C L lt ht i j hint hle _ st hst) s
    ⟨h, by simp⟩
  exact this.2

theorem hystLoop_terminates_aux (R C : Nat) (L lt ht : ℚ) (hle : fmul lt L ≤ fmul ht L)
    (fuel : Nat) (s : CannyState) (h : HystOK R C L s)
    (hf : R * C + 1 ≤ fuel + s.G.countP (fun g => decide (fmul ht L ≤ g))) :
    ∃ s', hystLoop R C lt ht fuel s = some s' := by
  induction fuel generalizing s with
  | zero =>
    have := List.countP_le_length (fun g => decide (fmul ht L ≤ g)) (l := s.G)
    rw [h.1] at this
    omega
  | succ fuel ih =>
    rw [hystLoop]
    by_cases hc : (hystSweep R C lt ht s).2 = true
    · rw [if_pos hc]
      apply ih _ (hystSweep_ok R C L lt ht s h)
      have := hystSweep_count R C L lt ht hle s h
      rw [hc] at this
      simp only [if_true] at this
      omega
    · rw [if_neg hc]
      exact ⟨_, rfl⟩

theorem hystLoop_terminates (R C : Nat) (L lt ht : ℚ) (hle : fmul lt L ≤ fmul ht L)
    (s : CannyState) (h : HystOK R C L s) :
    ∃ s', hystLoop R C lt ht (sweepBound R C) s = some s' :=
  hystLoop_terminates_aux R C L lt ht hle (sweepBound R C) s h (by unfold sweepBound; omega)

/-! ## States reached before the hysteresis loop -/

theorem getD_set_cases {α : Type} (l : List α) (i k : Nat) (a d : α) :
    (l.set i a).getD k d = a ∨ (l.set i a).getD k d = l.getD k d := by
  rw [List.getD_eq_getElem?_getD, List.getD_eq_getElem?_getD, List.getElem?_set]
  by_cases h : i = k
  · rw [if_pos h]
    by_cases h2 : i < l.length
    · left
      simp [h2]
    · right
      rw [if_neg h2]
      have : l[k]? = none := by
        rw [List.getElem?_eq_none_iff]
        omega
      rw [this]
  · right
    rw [if_neg h]

theorem getD_set_nonneg (l : List ℚ) (i : Nat) (a : ℚ) (ha : 0 ≤ a)
    (h : ∀ k, 0 ≤ l.getD k 0) (k : Nat) : 0 ≤ (l.set i a).getD k 0 := by
  rcases getD_set_cases l i k a 0 with e | e <;> rw [e]
  · exact ha
  · exact h k

theorem suppress_cases (C : Nat) (G : List ℚ) (theta : Int) (i j : Nat) :
    suppress C G theta i j = G ∨ suppress C G theta i j = G.set (i * C + j) 0 := by
  unfold suppress
  split_ifs <;> simp

theorem cannyPhase1Rows_good (m : Libm) (input : List Int) (d : ThreadData) (R C a b : Nat)
    (p : CannyState × ℚ) (h : BufOK R C p.1) :
    BufOK R C (forRange a b (cannyPhase1Row m input d) p).1 := by
  apply forRange_inv (fun p : CannyState × ℚ => BufOK R C p.1) _ _ _ _ p h
  intro i s _ _ hs
  apply forRange_inv (fun p : CannyState × ℚ => BufOK R C p.1) _ _ _ _ s hs
  intro j s2 _ _ hs2
  obtain ⟨h1, h2, h3⟩ := hs2
  simp [cannyPhase1Pixel, BufOK, h1, h2, h3]

theorem cannyPhase1Rows_nonneg (m : Libm) (hsqrt : ∀ x, 0 ≤ m.sqrt x) (input : List Int)
    (d : ThreadData) (a b : Nat) (p : CannyState × ℚ) (h : NonnegG p.1) :
    NonnegG (forRange a b (cannyPhase1Row m input d) p).1 := by
  apply forRange_inv (fun p : CannyState × ℚ => NonnegG p.1) _ _ _ _ p h
  intro i s _ _ hs
  apply forRange_inv (fun p : CannyState × ℚ => NonnegG p.1) _ _ _ _ s hs
  intro j s2 _ _ hs2 k
  exact getD_set_nonneg _ _ _ (hsqrt _) hs2 k

theorem fixupRows_good (R C : Nat) (s : CannyState) :
    (BufOK R C s → BufOK R C (fixupRows R C s)) ∧
    (NonnegG s → NonnegG (fixupRows R C s)) ∧
    (fixupRows R C s).largestG = s.largestG ∧
    (fixupRows R C s).pixelsCanny = s.pixelsCanny := by
  unfold fixupRows
  refine ⟨fun h => ?_, fun h => ?_, ?_, ?_⟩
  · apply forRange_inv (BufOK R C) _ _ _ _ s h
    intro j t _ _ ht
    obtain ⟨h1, h2, h3⟩ := ht
    simp [BufOK, h1, h2, h3]
  · apply forRange_inv NonnegG _ _ _ _ s h
    intro j t _ _ ht k
    apply getD_set_nonneg
    · rcases getD_set_cases t.G j ((R - 2) * C + j) (t.G.getD (C + j) 0) 0 with e | e <;> rw [e]
      · exact ht _
      · exact ht _
    · exact getD_set_nonneg _ _ _ (ht _) ht
  · apply forRange_inv (fun t : CannyState => t.largestG = s.largestG) _ _ _ _ s rfl
    intro j t _ _ h
    exact h
  · apply forRange_inv (fun t : CannyState => t.pixelsCanny = s.pixelsCanny) _ _ _ _ s rfl
    intro j t _ _ h
    exact h

theorem fixupCols_good (R C : Nat) (s : CannyState) :
    (BufOK R C s → BufOK R C (fixupCols R C s)) ∧
    (NonnegG s → NonnegG (fixupCols R C s)) ∧
    (fixupCols R C s).largestG = s.largestG ∧
    (fixupCols R C s).pixelsCanny = s.pixelsCanny := by
  unfold fixupCols
  refine ⟨fun h => ?_, fun h => ?_, ?_, ?_⟩
  · apply forRange_inv (BufOK R C) _ _ _ _ s h
    intro j t _ _ ht
    obtain ⟨h1, h2, h3⟩ := ht
    simp [BufOK, h1, h2, h3]
  · apply forRange_inv NonnegG _ _ _ _ s h
    intro i t _ _ ht k
    apply getD_set_nonneg
    · rcases getD_set_cases t.G (i * C) (i * C + C - 2) (t.G.getD (i * C + 1) 0) 0 with e | e <;>
        rw [e]
      · exact ht _
      · exact ht _
    · exact getD_set_nonneg _ _ _ (ht _) ht
  · apply forRange_inv (fun t : CannyState => t.largestG = s.largestG) _ _ _ _ s rfl
    intro j t _ _ h
    exact h
  · apply forRange_inv (fun t : CannyState => t.pixelsCanny = s.pixelsCanny) _ _ _ _ s rfl
    intro j t _ _ h
    exact h

theorem cannyGradient_good (m : Libm) (N : Nat) (hN : 0 < N) (pixels : List Int)
    (R C D : Nat) (lt ht : ℚ) :
    BufOK R C (cannyGradient m N pixels R C D lt ht) ∧
    0 ≤ (cannyGradient m N pixels R C D lt ht).largestG ∧
    ((∀ x, 0 ≤ m.sqrt x) → NonnegG (cannyGradient m N pixels R C D lt ht)) := by
  unfold cannyGradient borderFixup
  rw [phase1_runWorkers m pixels N hN R C D 0 lt ht _ (le_refl (0 : ℚ))]
  have hinit : BufOK R C (cannyInit R C) := by simp [BufOK, cannyInit]
  have hnn : NonnegG (cannyInit R C) := by
    intro k
    unfold cannyInit
    by_cases hk : k < (List.replicate (R * C) (0 : ℚ)).length
    · rw [List.getD_eq_getElem _ _ hk, List.getElem_replicate]
    · rw [List.getD_eq_default _ _ (not_lt.1 hk)]
  have h1 := cannyPhase1Rows_good m pixels (mkThreadData 1 R C D 0 lt ht 0) R C (max 1 0)
    (min (R - 1) R) (cannyInit R C, 0) hinit
  have h2 := fun hs => cannyPhase1Rows_nonneg m hs pixels (mkThreadData 1 R C D 0 lt ht 0)
    (max 1 0) (min (R - 1) R) (cannyInit R C, 0) hnn
  generalize forRange (max 1 0) (min (R - 1) R)
    (cannyPhase1Row m pixels (mkThreadData 1 R C D 0 lt ht 0)) (cannyInit R C, 0) = p at h1 h2
  refine ⟨?_, ?_, fun hs => ?_⟩
  · exact (fixupCols_good R C _).1 ((fixupRows_good R C _).1 h1)
  · rw [(fixupCols_good R C _).2.2.1, (fixupRows_good R C _).2.2.1]
    exact le_max_left _ _
  · exact (fixupCols_good R C _).2.1 ((fixupRows_good R C _).2.1 (h2 hs))

theorem cannyPhase2Rows_good (d : ThreadData) (L : ℚ) (R C a b : Nat)
    (s : CannyState) :
    (BufOK R C s → BufOK R C (forRange a b (cannyPhase2Row d L) s)) ∧
    (NonnegG s → NonnegG (forRange a b (cannyPhase2Row d L) s)) ∧
    (forRange a b (cannyPhase2Row d L) s).largestG = s.largestG := by
  refine ⟨fun h => ?_, fun h => ?_, ?_⟩
  · apply forRange_inv (BufOK R C) _ _ _ _ s h
    intro i t _ _ ht
    unfold cannyPhase2Row
    apply forRange_inv (BufOK R C) _ _ _ _ t ht
    intro j t2 _ _ ht2
    obtain ⟨h1, h2, h3⟩ := ht2
    unfold cannyPhase2Pixel
    refine ⟨?_, h2, by simp [h3]⟩
    show (suppress d.sizeCols t2.G (t2.theta.getD (i * d.sizeCols + j) 0) i j).length = R * C
    rcases suppress_cases d.sizeCols t2.G (t2.theta.getD (i * d.sizeCols + j) 0) i j with e | e <;>
      rw [e]
    · exact h1
    · rw [List.length_set]
      exact h1
  · apply forRange_inv NonnegG _ _ _ _ s h
    intro i t _ _ ht
    unfold cannyPhase2Row
    apply forRange_inv NonnegG _ _ _ _ t ht
    intro j t2 _ _ ht2 k
    unfold cannyPhase2Pixel
    rcases suppress_cases d.sizeCols t2.G (t2.theta.getD (i * d.sizeCols + j) 0) i j with e | e <;>
      simp only [e]
    · exact ht2 k
    · exact getD_set_nonneg _ _ _ le_rfl ht2 k
  · apply forRange_inv (fun t : CannyState => t.largestG = s.largestG) _ _ _ _ s rfl
    intro i t _ _ ht
    rw [cannyPhase2Row_largestG]
    exact ht

theorem cannySuppressed_good (m : Libm) (N : Nat) (hN : 0 < N) (pixels : List Int)
    (R C D : Nat) (lt ht : ℚ) :
    HystOK R C (cannySuppressed m N pixels R C D lt ht).largestG
      (cannySuppressed m N pixels R C D lt ht) ∧
    0 ≤ (cannySuppressed m N pixels R C D lt ht).largestG ∧
    ((∀ x, 0 ≤ m.sqrt x) → NonnegG (cannySuppressed m N pixels R C D lt ht)) := by
  unfold cannySuppressed
  rw [phase2_runWorkers N hN]
  obtain ⟨g1, g2, g3⟩ := cannyGradient_good m N hN pixels R C D lt ht
  generalize cannyGradient m N pixels R C D lt ht = s0 at g1 g2 g3
  obtain ⟨p1, p2, p3⟩ := cannyPhase2Rows_good (mkThreadData 1 R C D 0 lt ht 0) s0.largestG R C
    (max 1 0) (min (R - 1) R) s0
  refine ⟨⟨(p1 g1).1, (p1 g1).2.2, rfl⟩, ?_, fun hs => p2 (g3 hs)⟩
  rw [p3]
  exact g2

/-! ## Claims on the whole pipeline -/

theorem thresholds_le (lt ht L : ℚ) (h0 : 0 ≤ lt) (hlt : lt ≤ ht) (hL : 0 ≤ L) :
    fmul lt L ≤ fmul ht L :=
  fmul_le_fmul_right lt ht L h0 hlt hL

theorem cannyFinal_returns (m : Libm) (N : Nat) (hN : 0 < N) (pixels : List Int)
    (R C D : Nat) (lt ht : ℚ) (h0 : 0 ≤ lt) (hlt : lt ≤ ht) :
    ∃ s', cannyFinal m N pixels R C D lt ht = some s' ∧
      HystOK R C (cannySuppressed m N pixels R C D lt ht).largestG s' := by
  obtain ⟨g1, g2, _⟩ := cannySuppressed_good m N hN pixels R C D lt ht
  unfold cannyFinal
  obtain ⟨s', hs'⟩ := hystLoop_terminates R C _ lt ht (thresholds_le lt ht _ h0 hlt g2) _ g1
  refine ⟨s', hs', ?_⟩
  obtain ⟨n, _, _, h3⟩ := hystLoop_exit R C lt ht _ _ _ hs'
  rw [h3]
  exact hystSweeps_inv R C lt ht _ (fun t ht' => hystSweep_ok R C _ lt ht t ht') _ _ g1

/-! ## Hysteresis claims -/

theorem hystPixel_keeps_strong (R C : Nat) (L lt ht : ℚ) (hle : fmul lt L ≤ fmul ht L)
    (i0 j0 : Nat) (g0 : ℚ) (o0 : Option Int) (hg : fmul ht L ≤ g0)
    (i j : Nat) (st : CannyState × Bool)
    (h : HystOK R C L st.1 ∧ st.1.G.getD (i0 * C + j0) 0 = g0 ∧
      st.1.pixelsCanny.getD (i0 * C + j0) none = o0) :
    HystOK R C L (hystPixel C lt ht i j st).1 ∧
      (hystPixel C lt ht i j st).1.G.getD (i0 * C + j0) 0 = g0 ∧
      (hystPixel C lt ht i j st).1.pixelsCanny.getD (i0 * C + j0) none = o0 := by
  obtain ⟨hok, hG, hO⟩ := h
  refine ⟨hystPixel_ok R C L lt ht i j st hok, ?_⟩
  by_cases hk : i * C + j = i0 * C + j0
  · have hs : hystPixel C lt ht i j st = st := by
      apply hystPixel_strong
      · rw [hk, hG, hok.2.2]
        exact not_lt.2 (le_trans hle hg)
      · rw [hk, hG, hok.2.2]
        exact hg
    rw [hs]
    exact ⟨hG, hO⟩
  · rw [hystPixel_G_ne C lt ht i j _ st hk, hystPixel_out_ne C lt ht i j _ st none hk]
    exact ⟨hG, hO⟩

theorem hystSweep_keeps_strong (R C : Nat) (L lt ht : ℚ) (hle : fmul lt L ≤ fmul ht L)
    (i0 j0 : Nat) (g0 : ℚ) (o0 : Option Int) (hg : fmul ht L ≤ g0)
    (s : CannyState)
    (h : HystOK R C L s ∧ s.G.getD (i0 * C + j0) 0 = g0 ∧
      s.pixelsCanny.getD (i0 * C + j0) none = o0) :
    HystOK R C L (hystSweep R C lt ht s).1 ∧
      (hystSweep R C lt ht s).1.G.getD (i0 * C + j0) 0 = g0 ∧
      (hystSweep R C lt ht s).1.pixelsCanny.getD (i0 * C + j0) none = o0 :=
  hystSweep_inv R C lt ht
    (fun st => HystOK R C L st.1 ∧ st.1.G.getD (i0 * C + j0) 0 = g0 ∧
      st.1.pixelsCanny.getD (i0 * C + j0) none = o0)
    (fun i j st _ hst =>
      hystPixel_keeps_strong R C L lt ht hle i0 j0 g0 o0 hg i j st hst) s h

/-- C4: with `0 ≤ lowerThreshold < higherThreshold ≤ 1`, an interior pixel whose magnitude is
`≥ higherThreshold * largestG` when the hysteresis loop is entered keeps its magnitude and
its output value (the one written by the suppression stage) after every number of sweeps,
and the loop exits in a state where both are still unchanged. -/
theorem strong_pixel_never_zeroed (m : Libm) (N : Nat) (hN1 : 1 ≤ N) (hN16 : N ≤ 16)
    (pixels : List Int) (R C D : Nat) (lt ht : ℚ) (h0 : 0 ≤ lt) (hlt : lt < ht) (h1 : ht ≤ 1)
    (i j : Nat) (hint : Interior R C i j)
    (hstrong : fmul ht (cannySuppressed m N pixels R C D lt ht).largestG ≤
      (cannySuppressed m N pixels R C D lt ht).G.getD (i * C + j) 0) :
    (∀ n, (hystSweeps R C lt ht n (cannySuppressed m N pixels R C D lt ht)).G.getD
          (i * C + j) 0 = (cannySuppressed m N pixels R C D lt ht).G.getD (i * C + j) 0 ∧
        (hystSweeps R C lt ht n (cannySuppressed m N pixels R C D lt ht)).pixelsCanny.getD
          (i * C + j) none =
          (cannySuppressed m N pixels R C D lt ht).pixelsCanny.getD (i * C + j) none) ∧
    ∃ s', cannyFinal m N pixels R C D lt ht = some s' ∧
      s'.G.getD (i * C + j) 0 = (cannySuppressed m N pixels R C D lt ht).G.getD (i * C + j) 0 ∧
      s'.pixelsCanny.getD (i * C + j) none =
        (cannySuppressed m N pixels R C D lt ht).pixelsCanny.getD (i * C + j) none := by
  have _h := And.intro hN16 (And.intro h1 hint)
  obtain ⟨g1, g2, _⟩ := cannySuppressed_good m N (by omega) pixels R C D lt ht
  have hle := thresholds_le lt ht _ h0 hlt.le g2
  have hall : ∀ n, HystOK R C (cannySuppressed m N pixels R C D lt ht).largestG
        (hystSweeps R C lt ht n (cannySuppressed m N pixels R C D lt ht)) ∧
      (hystSweeps R C lt ht n (cannySuppressed m N pixels R C D lt ht)).G.getD
          (i * C + j) 0 = (cannySuppressed m N pixels R C D lt ht).G.getD (i * C + j) 0 ∧
      (hystSweeps R C lt ht n (cannySuppressed m N pixels R C D lt ht)).pixelsCanny.getD
          (i * C + j) none =
        (cannySuppressed m N pixels R C D lt ht).pixelsCanny.getD (i * C + j) none := by
    intro n
    exact hystSweeps_inv R C lt ht _
      (fun t ht' => hystSweep_keeps_strong R C _ lt ht hle i j _ _ hstrong t ht') n _
      ⟨g1, rfl, rfl⟩
  refine ⟨fun n => (hall n).2, ?_⟩
  obtain ⟨s', hs', _⟩ := cannyFinal_returns m N (by omega) pixels R C D lt ht h0 hlt.le
  refine ⟨s', hs', ?_⟩
  obtain ⟨n, _, _, h3⟩ := hystLoop_exit R C lt ht _ _ _ hs'
  rw [h3]
  exact (hall (n + 1)).2

theorem libmAxis_sqrt_nonneg (x : ℚ) : 0 ≤ libmAxis.sqrt x :=
  div_nonneg (Nat.cast_nonneg _) (Nat.cast_nonneg _)

/-- Witness of C4: pixel `(1, 3)` of a 3x5 image has magnitude 6 and `hi = 3`. -/
theorem strong_pixel_never_zeroed_witness :
    ∃ s', cannyFinal libmAxis 1 [0, 1, 0, 1, 4, 2, 0, 2, 0, 0, 0, 0, 0, 0, 0] 3 5 1
        (1 / 4) (1 / 2) = some s' ∧
      s'.G.getD (1 * 5 + 3) 0 = (cannySuppressed libmAxis 1
        [0, 1, 0, 1, 4, 2, 0, 2, 0, 0, 0, 0, 0, 0, 0] 3 5 1 (1 / 4) (1 / 2)).G.getD (1 * 5 + 3) 0 ∧
      s'.pixelsCanny.getD (1 * 5 + 3) none = (cannySuppressed libmAxis 1
        [0, 1, 0, 1, 4, 2, 0, 2, 0, 0, 0, 0, 0, 0, 0] 3 5 1 (1 / 4) (1 / 2)).pixelsCanny.getD
          (1 * 5 + 3) none :=
  (strong_pixel_never_zeroed libmAxis 1 (by decide) (by decide)
    [0, 1, 0, 1, 4, 2, 0, 2, 0, 0, 0, 0, 0, 0, 0] 3 5 1 (1 / 4) (1 / 2) (by norm_num)
    (by norm_num) (by norm_num) 1 3 (by unfold Interior; decide) (by decide!)).2

theorem dtoi_zero : dtoi 0 = some 0 := by
  simp [dtoi, dtrunc]

theorem toPixel_zero (L : ℚ) (hL : L ≠ 0) : toPixel 0 L = some 0 := by
  unfold toPixel
  rw [if_neg hL, fmul_zero_left, dtoi_zero]

theorem fmul_zero_right (a : ℚ) : fmul a 0 = 0 := by
  simp [fmul, rnd_zero]

theorem hystSweep_zeroes_low (R C : Nat) (L lt ht : ℚ) (i0 j0 : Nat)
    (h0 : Interior R C i0 j0) (hlo : 0 < fmul lt L) (s : CannyState)
    (h : HystOK R C L s ∧ s.G.getD (i0 * C + j0) 0 < fmul lt L) :
    HystOK R C L (hystSweep R C lt ht s).1 ∧
      (hystSweep R C lt ht s).1.G.getD (i0 * C + j0) 0 = 0 ∧
      (hystSweep R C lt ht s).1.pixelsCanny.getD (i0 * C + j0) none = some 0 := by
  have hL : L ≠ 0 := by
    rintro rfl
    rw [fmul_zero_right] at hlo
    exact lt_irrefl _ hlo
  apply hystSweep_visit R C lt ht i0 j0 h0
    (fun st => HystOK R C L st.1 ∧ st.1.G.getD (i0 * C + j0) 0 < fmul lt L)
    (fun st => HystOK R C L st.1 ∧ st.1.G.getD (i0 * C + j0) 0 = 0 ∧
      st.1.pixelsCanny.getD (i0 * C + j0) none = some 0) _ _ _ s h
  · intro i j st hint hne ⟨hok, hg⟩
    refine ⟨hystPixel_ok R C L lt ht i j st hok, ?_⟩
    have hk : i * C + j ≠ i0 * C + j0 := by
      intro he
      have := idx_inj C i j i0 j0 (by have := hint.2.2.2; omega) (by have := h0.2.2.2; omega) he
      omega
    rw [hystPixel_G_ne C lt ht i j _ st hk]
    exact hg
  · intro st ⟨hok, hg⟩
    refine ⟨hystPixel_ok R C L lt ht i0 j0 st hok, ?_⟩
    have hlen := interior_idx_lt R C i0 j0 h0
    rw [← hok.2.2] at hg
    obtain ⟨a, b, _⟩ := hystPixel_low C lt ht i0 j0 st none (by rw [hok.1]; exact hlen)
      (by rw [hok.2.1]; exact hlen) hg
    rw [hok.2.2, toPixel_zero L hL] at b
    exact ⟨a, b⟩
  · intro i j st hint hne ⟨hok, hg, ho⟩
    refine ⟨hystPixel_ok R C L lt ht i j st hok, ?_⟩
    have hk : i * C + j ≠ i0 * C + j0 := by
      intro he
      have := idx_inj C i j i0 j0 (by have := hint.2.2.2; omega) (by have := h0.2.2.2; omega) he
      omega
    rw [hystPixel_G_ne C lt ht i j _ st hk, hystPixel_out_ne C lt ht i j _ st none hk]
    exact ⟨hg, ho⟩

/-- C5: with `0 ≤ lowerThreshold < higherThreshold ≤ 1` (and a `sqrt` that returns
non-negative values), an interior pixel whose magnitude is `< lowerThreshold * largestG`
when the hysteresis loop is entered has magnitude 0 and output value 0 when
`cannyFilter_parallel` returns. -/
theorem low_pixel_ends_zero (m : Libm) (hsqrt : ∀ x, 0 ≤ m.sqrt x) (N : Nat) (hN1 : 1 ≤ N)
    (hN16 : N ≤ 16) (pixels : List Int) (R C D : Nat) (lt ht : ℚ) (h0 : 0 ≤ lt) (hlt : lt < ht)
    (h1 : ht ≤ 1) (i j : Nat) (hint : Interior R C i j)
    (hlow : (cannySuppressed m N pixels R C D lt ht).G.getD (i * C + j) 0 <
      fmul lt (cannySuppressed m N pixels R C D lt ht).largestG) :
    ∃ s', cannyFinal m N pixels R C D lt ht = some s' ∧
      s'.G.getD (i * C + j) 0 = 0 ∧ s'.pixelsCanny.getD (i * C + j) none = some 0 ∧
      ∃ out, cannyFilter_parallel m N pixels R C D lt ht = some out ∧
        out.getD (i * C + j) none = some 0 := by
  have _h := And.intro hN16 h1
  obtain ⟨g1, _, g3⟩ := cannySuppressed_good m N (by omega) pixels R C D lt ht
  have hlo : 0 < fmul lt (cannySuppressed m N pixels R C D lt ht).largestG :=
    lt_of_le_of_lt (g3 hsqrt _) hlow
  obtain ⟨s', hs', _⟩ := cannyFinal_returns m N (by omega) pixels R C D lt ht h0 hlt.le
  have hfin : s'.G.getD (i * C + j) 0 = 0 ∧ s'.pixelsCanny.getD (i * C + j) none = some 0 := by
    obtain ⟨n, h2, _, _⟩ := hystLoop_exit R C lt ht _ _ _ hs'
    rw [h2]
    have hpre := hystSweeps_inv R C lt ht
      (fun t => HystOK R C (cannySuppressed m N pixels R C D lt ht).largestG t ∧
        t.G.getD (i * C + j) 0 < fmul lt (cannySuppressed m N pixels R C D lt ht).largestG)
      (fun t ht' => by
        obtain ⟨a, b, _⟩ := hystSweep_zeroes_low R C _ lt ht i j hint hlo t ht'
        exact ⟨a, by rw [b]; exact hlo⟩) n _ ⟨g1, hlow⟩
    exact (hystSweep_zeroes_low R C _ lt ht i j hint hlo _ hpre).2
  refine ⟨s', hs', hfin.1, hfin.2, s'.pixelsCanny, ?_, hfin.2⟩
  unfold cannyFilter_parallel
  rw [hs']
  rfl

/-- Witness of C5: pixel `(1, 1)` of a 3x5 image has magnitude 2 and `lo = 3`. -/
theorem low_pixel_ends_zero_witness :
    ∃ s', cannyFinal libmAxis 1 [0, 1, 0, 1, 4, 2, 0, 2, 0, 0, 0, 0, 0, 0, 0] 3 5 1
        (1 / 2) (3 / 4) = some s' ∧
      s'.G.getD (1 * 5 + 1) 0 = 0 ∧ s'.pixelsCanny.getD (1 * 5 + 1) none = some 0 ∧
      ∃ out, cannyFilter_parallel libmAxis 1 [0, 1, 0, 1, 4, 2, 0, 2, 0, 0, 0, 0, 0, 0, 0] 3 5 1
        (1 / 2) (3 / 4) = some out ∧ out.getD (1 * 5 + 1) none = some 0 :=
  low_pixel_ends_zero libmAxis libmAxis_sqrt_nonneg 1 (by decide) (by decide)
    [0, 1, 0, 1, 4, 2, 0, 2, 0, 0, 0, 0, 0, 0, 0] 3 5 1 (1 / 2) (3 / 4) (by norm_num)
    (by norm_num) (by norm_num) 1 1 (by unfold Interior; decide) (by decide!)

/-! ## Suppression stage -/

theorem cannyPhase2Rows_orig_or_zero (d : ThreadData) (L : ℚ) (a b : Nat) (s0 s : CannyState)
    (h : ∀ k, s.G.getD k 0 = s0.G.getD k 0 ∨ s.G.getD k 0 = 0) :
    ∀ k, (forRange a b (cannyPhase2Row d L) s).G.getD k 0 = s0.G.getD k 0 ∨
      (forRange a b (cannyPhase2Row d L) s).G.getD k 0 = 0 := by
  apply forRange_inv (fun t : CannyState => ∀ k, t.G.getD k 0 = s0.G.getD k 0 ∨ t.G.getD k 0 = 0)
    _ _ _ _ s h
  intro i t _ _ ht
  unfold cannyPhase2Row
  apply forRange_inv (fun t : CannyState => ∀ k, t.G.getD k 0 = s0.G.getD k 0 ∨ t.G.getD k 0 = 0)
    _ _ _ _ t ht
  intro j t2 _ _ ht2 k
  unfold cannyPhase2Pixel
  rcases suppress_cases d.sizeCols t2.G (t2.theta.getD (i * d.sizeCols + j) 0) i j with e | e <;>
    simp only [e]
  · exact ht2 k
  · rcases getD_set_cases t2.G (i * d.sizeCols + j) k 0 0 with e2 | e2 <;> rw [e2]
    · exact Or.inr rfl
    · exact ht2 k

/-- C7: for every single-channel image with at least 3 rows and 3 columns and every pixel,
the magnitude held after the suppression stage is either the magnitude that the gradient
stage plus border fixup produced for that pixel or 0, and (the `sqrt` results being
non-negative) it is less than or equal to that magnitude. -/
theorem suppression_never_increases (m : Libm) (hsqrt : ∀ x, 0 ≤ m.sqrt x) (N : Nat)
    (hN1 : 1 ≤ N) (hN16 : N ≤ 16) (pixels : List Int) (R C D : Nat) (hR : 3 ≤ R) (hC : 3 ≤ C)
    (lt ht : ℚ) (k : Nat) :
    ((cannySuppressed m N pixels R C D lt ht).G.getD k 0 =
        (cannyGradient m N pixels R C D lt ht).G.getD k 0 ∨
      (cannySuppressed m N pixels R C D lt ht).G.getD k 0 = 0) ∧
    (cannySuppressed m N pixels R C D lt ht).G.getD k 0 ≤
      (cannyGradient m N pixels R C D lt ht).G.getD k 0 := by
  have _h := And.intro hN16 (And.intro hR hC)
  have hcases : (cannySuppressed m N pixels R C D lt ht).G.getD k 0 =
        (cannyGradient m N pixels R C D lt ht).G.getD k 0 ∨
      (cannySuppressed m N pixels R C D lt ht).G.getD k 0 = 0 := by
    unfold cannySuppressed
    rw [phase2_runWorkers N (by omega)]
    exact cannyPhase2Rows_orig_or_zero _ _ _ _ _ _ (fun k => Or.inl rfl) k
  refine ⟨hcases, ?_⟩
  rcases hcases with e | e <;> rw [e]
  exact (cannyGradient_good m N (by omega) pixels R C D lt ht).2.2 hsqrt k

/-- Witness of C7: pixel 6 of a 3x5 image, one worker. -/
theorem suppression_never_increases_witness :
    ((cannySuppressed libmAxis 1 [0, 1, 0, 1, 4, 2, 0, 2, 0, 0, 0, 0, 0, 0, 0] 3 5 1
          (1 / 4) (1 / 2)).G.getD 6 0 =
        (cannyGradient libmAxis 1 [0, 1, 0, 1, 4, 2, 0, 2, 0, 0, 0, 0, 0, 0, 0] 3 5 1
          (1 / 4) (1 / 2)).G.getD 6 0 ∨
      (cannySuppressed libmAxis 1 [0, 1, 0, 1, 4, 2, 0, 2, 0, 0, 0, 0, 0, 0, 0] 3 5 1
          (1 / 4) (1 / 2)).G.getD 6 0 = 0) ∧
    (cannySuppressed libmAxis 1 [0, 1, 0, 1, 4, 2, 0, 2, 0, 0, 0, 0, 0, 0, 0] 3 5 1
        (1 / 4) (1 / 2)).G.getD 6 0 ≤
      (cannyGradient libmAxis 1 [0, 1, 0, 1, 4, 2, 0, 2, 0, 0, 0, 0, 0, 0, 0] 3 5 1
        (1 / 4) (1 / 2)).G.getD 6 0 :=
  suppression_never_increases libmAxis libmAxis_sqrt_nonneg 1 (by decide) (by decide)
    [0, 1, 0, 1, 4, 2, 0, 2, 0, 0, 0, 0, 0, 0, 0] 3 5 1 (by decide) (by decide) (1 / 4) (1 / 2) 6

/-! ## Evaluations of the smoothing stage and of the degenerate Canny filter -/

/-- C8 fails on the code: the 1x1 one-channel image `[23]` is uniform, and
`gaussianBlur_parallel` with the 5x5 kernel and `kernelConst = 1.0 / 159.0` returns `[22]`:
`sum = (23 * kernelConst) * 15` and `sumKernel = kernelConst * 15` are rounded separately and
their quotient falls just below 23 before `(int)` truncates it. -/
theorem blur_changes_uniform_image :
    gaussianBlur_parallel 1 [23] gaussKernel gaussKernelConst 1 1 1 = [22] ∧
    gaussianBlur_parallel 1 [17, 17, 17, 17, 17, 17, 17, 17, 17] gaussKernel gaussKernelConst
      3 3 1 = [17, 17, 17, 17, 17, 17, 17, 17, 16] := by
  constructor <;> decide!

/-- C10 fails on the code: on the 1x1 image `[23]` the only in-bounds offset is `(0, 0)`, so
`floor(S / W) = floor(15 * 23 / 15) = 23`, while the value written by the code is 22; on the
3x3 image of 17s the two agree at pixel `(0, 0)` and differ at pixel `(2, 2)`. -/
theorem blur_differs_from_floor_of_exact_average :
    blurCell (mkThreadData 1 1 1 1 gaussKernelConst 0 0 0) gaussKernel [23] 0 0 0 = 22 ∧
    blurSpecCell gaussKernel [23] 1 1 1 0 0 0 = 23 ∧
    blurCell (mkThreadData 1 3 3 1 gaussKernelConst 0 0 0) gaussKernel
      [17, 17, 17, 17, 17, 17, 17, 17, 17] 2 2 0 = 16 ∧
    blurSpecCell gaussKernel [17, 17, 17, 17, 17, 17, 17, 17, 17] 3 3 1 2 2 0 = 17 ∧
    blurCell (mkThreadData 1 3 3 1 gaussKernelConst 0 0 0) gaussKernel
      [17, 17, 17, 17, 17, 17, 17, 17, 17] 0 0 0 =
      blurSpecCell gaussKernel [17, 17, 17, 17, 17, 17, 17, 17, 17] 3 3 1 0 0 0 := by
  refine ⟨?_, ?_, ?_, ?_, ?_⟩ <;> decide!

/-- C9 fails on the code: on the 5x5 uniform image of 128s with thresholds `0.03` and `0.1`
every magnitude and `largestG` are 0, so the nine interior entries are the result of
`(int)(0 * (255.0 / 0))`, a conversion of `NaN` that C++ leaves undefined; the hysteresis
loop skips them (`0 >= hi = 0`) and the returned buffer keeps them. -/
theorem uniform_image_output_undefined :
    cannyFilter_parallel libmAxis 1 (List.replicate 25 128) 5 5 1 (rnd (3 / 100)) (rnd (1 / 10)) =
      some [some 0, some 0, some 0, some 0, some 0,
            some 0, none, none, none, some 0,
            some 0, none, none, none, some 0,
            some 0, none, none, none, some 0,
            some 0, some 0, some 0, some 0, some 0] ∧
    (cannySuppressed libmAxis 1 (List.replicate 25 128) 5 5 1 (rnd (3 / 100))
      (rnd (1 / 10))).largestG = 0 := by
  constructor <;> decide!

/-- C3 fails on the code: in the 3x5 image below with thresholds `0.25` and `0.5` the
magnitudes after suppression are 2, 2, 6 at the interior pixels `(1,1)`, `(1,2)`, `(1,3)`
and `largestG = 6`, so `lo = 3/2`, `hi = 3`: `(1,1)` and `(1,2)` are weak and adjacent,
`(1,3)` is strong and adjacent to `(1,2)`.  The loop exits (after two sweeps) with
magnitude 0 at `(1,1)` and magnitude `hi = 3` at `(1,2)`: the first sweep zeroes `(1,1)`
before `(1,2)` is promoted, and the second sweep finds `0 < lo`. -/
theorem hysteresis_misses_chain_against_scan_order :
    (cannySuppressed libmAxis 1 [0, 1, 0, 1, 4, 2, 0, 2, 0, 0, 0, 0, 0, 0, 0] 3 5 1
      (1 / 4) (1 / 2)).G = [2, 2, 2, 6, 6, 2, 2, 2, 6, 6, 2, 2, 2, 6, 6] ∧
    (cannySuppressed libmAxis 1 [0, 1, 0, 1, 4, 2, 0, 2, 0, 0, 0, 0, 0, 0, 0] 3 5 1
      (1 / 4) (1 / 2)).largestG = 6 ∧
    fmul (1 / 4) 6 = 3 / 2 ∧ fmul (1 / 2) 6 = 3 ∧
    (cannyFinal libmAxis 1 [0, 1, 0, 1, 4, 2, 0, 2, 0, 0, 0, 0, 0, 0, 0] 3 5 1
      (1 / 4) (1 / 2)).map (fun s => s.G) =
      some [2, 2, 2, 6, 6, 2, 0, 3, 6, 6, 2, 2, 2, 6, 6] ∧
    cannyFilter_parallel libmAxis 1 [0, 1, 0, 1, 4, 2, 0, 2, 0, 0, 0, 0, 0, 0, 0] 3 5 1
      (1 / 4) (1 / 2) =
      some [some 0, some 0, some 0, some 0, some 0, some 0, some 0, some 127, some 255, some 0,
        some 0, some 0, some 0, some 0, some 0] := by
  refine ⟨?_, ?_, ?_, ?_, ?_, ?_⟩ <;> decide!

/-! ## Hysteresis: what a sweep leaves behind -/

theorem interior_idx_ne (R C i j i0 j0 : Nat) (h : Interior R C i j) (h0 : Interior R C i0 j0)
    (hne : i ≠ i0 ∨ j ≠ j0) : i * C + j ≠ i0 * C + j0 := by
  intro he
  have := idx_inj C i j i0 j0 (by have := h.2.2.2; omega) (by have := h0.2.2.2; omega) he
  omega

theorem hystSweep_zero_or_strong (R C : Nat) (L lt ht : ℚ) (i0 j0 : Nat)
    (h0 : Interior R C i0 j0) (s : CannyState) (h : HystOK R C L s) :
    ((hystSweep R C lt ht s).1.G.getD (i0 * C + j0) 0 = 0 ∧
      (hystSweep R C lt ht s).1.pixelsCanny.getD (i0 * C + j0) none = toPixel 0 L) ∨
    fmul ht L ≤ (hystSweep R C lt ht s).1.G.getD (i0 * C + j0) 0 := by
  have key := hystSweep_visit R C lt ht i0 j0 h0
    (fun st => HystOK R C L st.1)
    (fun st => HystOK R C L st.1 ∧
      ((st.1.G.getD (i0 * C + j0) 0 = 0 ∧
        st.1.pixelsCanny.getD (i0 * C + j0) none = toPixel 0 L) ∨
      fmul ht L ≤ st.1.G.getD (i0 * C + j0) 0))
    (fun i j st _ _ hst => hystPixel_ok R C L lt ht i j st hst)
    (by
      intro st hok
      refine ⟨hystPixel_ok R C L lt ht i0 j0 st hok, ?_⟩
      have hlen := interior_idx_lt R C i0 j0 h0
      have hl1 : i0 * C + j0 < st.1.G.length := by rw [hok.1]; exact hlen
      have hl2 : i0 * C + j0 < st.1.pixelsCanny.length := by rw [hok.2.1]; exact hlen
      by_cases c1 : st.1.G.getD (i0 * C + j0) 0 < fmul lt st.1.largestG
      · obtain ⟨a, b, _⟩ := hystPixel_low C lt ht i0 j0 st none hl1 hl2 c1
        rw [hok.2.2] at b
        exact Or.inl ⟨a, b⟩
      · by_cases c2 : fmul ht st.1.largestG ≤ st.1.G.getD (i0 * C + j0) 0
        · rw [hystPixel_strong C lt ht i0 j0 st c1 c2]
          rw [hok.2.2] at c2
          exact Or.inr c2
        · obtain ⟨w1, w2⟩ := hystPixel_weak C lt ht i0 j0 st none h0.1 h0.2.2.1
            (by have := h0.2.2.2; omega) hl1 hl2 c1 c2
          rcases hb : strongNeighbour C st.1.G (fmul ht st.1.largestG) i0 j0 with _ | _
          · obtain ⟨a, b, _⟩ := w2 hb
            rw [hok.2.2] at b
            exact Or.inl ⟨a, b⟩
          · obtain ⟨a, _, _⟩ := w1 hb
            rw [hok.2.2] at a
            exact Or.inr (by rw [a]))
    (by
      intro i j st hint hne ⟨hok, hp⟩
      refine ⟨hystPixel_ok R C L lt ht i j st hok, ?_⟩
      have hk := interior_idx_ne R C i j i0 j0 hint h0 hne
      rw [hystPixel_G_ne C lt ht i j _ st hk, hystPixel_out_ne C lt ht i j _ st none hk]
      exact hp)
    s h
  exact key.2

theorem hystPixel_sound (R C : Nat) (L lt ht : ℚ) (G0 : List ℚ)
    (hle : fmul lt L ≤ fmul ht L) (hnn : ∀ k, 0 ≤ G0.getD k 0) (i j : Nat)
    (hint : Interior R C i j) (st : CannyState × Bool)
    (h : HystOK R C L st.1 ∧ HystSound R C G0 (fmul lt L) (fmul ht L) st.1) :
    HystOK R C L (hystPixel C lt ht i j st).1 ∧
      HystSound R C G0 (fmul lt L) (fmul ht L) (hystPixel C lt ht i j st).1 := by
  obtain ⟨hok, hs⟩ := h
  refine ⟨hystPixel_ok R C L lt ht i j st hok, ?_⟩
  intro a b hb
  by_cases hk : i * C + j = a * C + b
  · -- the pixel just visited
    obtain ⟨rfl, rfl⟩ := idx_inj C i j a b (by have := hint.2.2.2; omega) hb hk
    have hlen := interior_idx_lt R C i j hint
    have hl1 : i * C + j < st.1.G.length := by rw [hok.1]; exact hlen
    have hl2 : i * C + j < st.1.pixelsCanny.length := by rw [hok.2.1]; exact hlen
    have hcur := hs i j hb
    -- the current magnitude is non-negative unless it is `hi`
    by_cases c1 : st.1.G.getD (i * C + j) 0 < fmul lt st.1.largestG
    · obtain ⟨e, _, _⟩ := hystPixel_low C lt ht i j st none hl1 hl2 c1
      rw [hok.2.2] at c1
      refine Or.inr (Or.inl ⟨?_, e⟩)
      rcases hcur with h1 | ⟨h1, _⟩ | ⟨h1, _⟩
      · rw [← h1]
        exact lt_of_lt_of_le c1 hle
      · exact h1
      · rw [h1] at c1
        exact absurd (lt_of_lt_of_le c1 hle) (lt_irrefl _)
    · by_cases c2 : fmul ht st.1.largestG ≤ st.1.G.getD (i * C + j) 0
      · rw [hystPixel_strong C lt ht i j st c1 c2]
        exact hcur
      · obtain ⟨w1, w2⟩ := hystPixel_weak C lt ht i j st none hint.1 hint.2.2.1
          (by have := hint.2.2.2; omega) hl1 hl2 c1 c2
        rw [hok.2.2] at c1 c2 w1 w2
        -- the pixel was weak at loop entry
        have hweak : fmul lt L ≤ G0.getD (i * C + j) 0 ∧ G0.getD (i * C + j) 0 < fmul ht L ∧
            0 ≤ st.1.G.getD (i * C + j) 0 := by
          rcases hcur with h1 | ⟨h1, h2⟩ | ⟨h1, _⟩
          · rw [← h1]
            exact ⟨not_lt.1 c1, not_le.1 c2, by rw [h1]; exact hnn _⟩
          · rw [h2] at c1
            exact ⟨le_trans (not_lt.1 c1) (hnn _), h1, by rw [h2]⟩
          · rw [h1] at c2
            exact absurd le_rfl c2
        rcases hsn : strongNeighbour C st.1.G (fmul ht L) i j with _ | _
        · obtain ⟨e, _, _⟩ := w2 hsn
          exact Or.inr (Or.inl ⟨hweak.2.1, e⟩)
        · obtain ⟨e, _, _⟩ := w1 hsn
          refine Or.inr (Or.inr ⟨e, ?_⟩)
          obtain ⟨a', b', hadj, hg⟩ :=
            (strongNeighbour_iff C st.1.G (fmul ht L) i j hint.1 hint.2.2.1).1 hsn
          have hb' : b' < C := by
            have := hadj.2.2.2.1
            have := hint.2.2.2
            omega
          rcases hs a' b' hb' with h1 | ⟨_, h1⟩ | ⟨_, h1⟩
          · rw [h1] at hg
            exact ChainToStrong.strong i j a' b' hint hweak.1 hweak.2.1 hadj hg
          · rw [h1] at hg
            exfalso
            have : st.1.G.getD (i * C + j) 0 < fmul ht L := not_le.1 c2
            linarith [hweak.2.2]
          · exact ChainToStrong.step i j a' b' hint hweak.1 hweak.2.1 hadj h1
  · rw [hystPixel_G_ne C lt ht i j _ st hk]
    exact hs a b hb

theorem hystSweep_sound (R C : Nat) (L lt ht : ℚ) (G0 : List ℚ)
    (hle : fmul lt L ≤ fmul ht L) (hnn : ∀ k, 0 ≤ G0.getD k 0) (s : CannyState)
    (h : HystOK R C L s ∧ HystSound R C G0 (fmul lt L) (fmul ht L) s) :
    HystOK R C L (hystSweep R C lt ht s).1 ∧
      HystSound R C G0 (fmul lt L) (fmul ht L) (hystSweep R C lt ht s).1 :=
  hystSweep_inv R C lt ht
    (fun st => HystOK R C L st.1 ∧ HystSound R C G0 (fmul lt L) (fmul ht L) st.1)
    (fun i j st hint hst => hystPixel_sound R C L lt ht G0 hle hnn i j hint st hst) s h

/-- C6: with `0 ≤ lowerThreshold < higherThreshold ≤ 1` (and a `sqrt` that returns
non-negative values) the hysteresis loop exits, and in the state at exit every weak interior
pixel (`lo ≤ magnitude < hi` after suppression) from which no chain of 8-adjacent weak
pixels reaches a pixel of magnitude `≥ hi` has magnitude 0 and output 0; equivalently every
interior pixel with a non-zero final magnitude was strong or is chain-connected through weak
pixels to a strong pixel. -/
theorem hysteresis_sound (m : Libm) (hsqrt : ∀ x, 0 ≤ m.sqrt x) (N : Nat) (hN1 : 1 ≤ N)
    (hN16 : N ≤ 16) (pixels : List Int) (R C D : Nat) (lt ht : ℚ) (h0 : 0 ≤ lt) (hlt : lt < ht)
    (h1 : ht ≤ 1) :
    ∃ s', cannyFinal m N pixels R C D lt ht = some s' ∧
      ∀ i j, Interior R C i j →
        (fmul lt (cannySuppressed m N pixels R C D lt ht).largestG ≤
            (cannySuppressed m N pixels R C D lt ht).G.getD (i * C + j) 0 →
          (cannySuppressed m N pixels R C D lt ht).G.getD (i * C + j) 0 <
            fmul ht (cannySuppressed m N pixels R C D lt ht).largestG →
          ¬ ChainToStrong R C (cannySuppressed m N pixels R C D lt ht).G
            (fmul lt (cannySuppressed m N pixels R C D lt ht).largestG)
            (fmul ht (cannySuppressed m N pixels R C D lt ht).largestG) i j →
          s'.G.getD (i * C + j) 0 = 0 ∧ s'.pixelsCanny.getD (i * C + j) none = some 0) ∧
        (s'.G.getD (i * C + j) 0 ≠ 0 →
          fmul ht (cannySuppressed m N pixels R C D lt ht).largestG ≤
            (cannySuppressed m N pixels R C D lt ht).G.getD (i * C + j) 0 ∨
          ChainToStrong R C (cannySuppressed m N pixels R C D lt ht).G
            (fmul lt (cannySuppressed m N pixels R C D lt ht).largestG)
            (fmul ht (cannySuppressed m N pixels R C D lt ht).largestG) i j) := by
  have _h := And.intro hN16 h1
  obtain ⟨g1, g2, g3⟩ := cannySuppressed_good m N (by omega) pixels R C D lt ht
  have hle := thresholds_le lt ht _ h0 hlt.le g2
  have hnn := g3 hsqrt
  obtain ⟨s', hs', _⟩ := cannyFinal_returns m N (by omega) pixels R C D lt ht h0 hlt.le
  refine ⟨s', hs', ?_⟩
  have hs2 : hystLoop R C lt ht (sweepBound R C) (cannySuppressed m N pixels R C D lt ht) =
      some s' := hs'
  clear hs'
  generalize cannySuppressed m N pixels R C D lt ht = s0 at *
  obtain ⟨n, e1, _, e3⟩ := hystLoop_exit R C lt ht _ _ _ hs2
  have hinv := hystSweeps_inv R C lt ht
    (fun t => HystOK R C s0.largestG t ∧
      HystSound R C s0.G (fmul lt s0.largestG) (fmul ht s0.largestG) t)
    (fun t ht' => hystSweep_sound R C _ lt ht s0.G hle hnn t ht')
  have hlast := hinv n s0 ⟨g1, fun a b _ => Or.inl rfl⟩
  have hfin := hinv (n + 1) s0 ⟨g1, fun a b _ => Or.inl rfl⟩
  rw [← e3] at hfin
  intro i j hint
  have hb : j < C := by have := hint.2.2.2; omega
  have hpost := hystSweep_zero_or_strong R C s0.largestG lt ht i j hint _ hlast.1
  rw [← e1] at hpost
  have hcase := hfin.2 i j hb
  constructor
  · intro w1 w2 hno
    have hhi : 0 < fmul ht s0.largestG := lt_of_le_of_lt (hnn _) w2
    have hL : s0.largestG ≠ 0 := by
      intro hz
      rw [hz, fmul_zero_right] at hhi
      exact lt_irrefl _ hhi
    rcases hpost with ⟨p1, p2⟩ | p
    · rw [toPixel_zero _ hL] at p2
      exact ⟨p1, p2⟩
    · exfalso
      rcases hcase with c | ⟨_, c⟩ | ⟨_, c⟩
      · rw [c] at p
        exact absurd w2 (not_lt.2 p)
      · rw [c] at p
        exact absurd hhi (not_lt.2 p)
      · exact hno c
  · intro hne
    rcases hpost with ⟨p1, _⟩ | p
    · exact absurd p1 hne
    · rcases hcase with c | ⟨_, c⟩ | ⟨_, c⟩
      · rw [c] at p
        exact Or.inl p
      · exact absurd c hne
      · exact Or.inr c

/-- Witness of C6 on the 3x5 image `chainImage` with thresholds `0.25`, `0.5`. -/
theorem hysteresis_sound_witness :
    ∃ s', cannyFinal libmAxis 1 chainImage 3 5 1 (1 / 4) (1 / 2) = some s' ∧
      ∀ i j, Interior 3 5 i j →
        (fmul (1 / 4) (cannySuppressed libmAxis 1 chainImage 3 5 1 (1 / 4) (1 / 2)).largestG ≤
            (cannySuppressed libmAxis 1 chainImage 3 5 1 (1 / 4) (1 / 2)).G.getD (i * 5 + j) 0 →
          (cannySuppressed libmAxis 1 chainImage 3 5 1 (1 / 4) (1 / 2)).G.getD (i * 5 + j) 0 <
            fmul (1 / 2) (cannySuppressed libmAxis 1 chainImage 3 5 1 (1 / 4) (1 / 2)).largestG →
          ¬ ChainToStrong 3 5 (cannySuppressed libmAxis 1 chainImage 3 5 1 (1 / 4) (1 / 2)).G
            (fmul (1 / 4) (cannySuppressed libmAxis 1 chainImage 3 5 1 (1 / 4) (1 / 2)).largestG)
            (fmul (1 / 2) (cannySuppressed libmAxis 1 chainImage 3 5 1 (1 / 4) (1 / 2)).largestG)
            i j →
          s'.G.getD (i * 5 + j) 0 = 0 ∧ s'.pixelsCanny.getD (i * 5 + j) none = some 0) ∧
        (s'.G.getD (i * 5 + j) 0 ≠ 0 →
          fmul (1 / 2) (cannySuppressed libmAxis 1 chainImage 3 5 1 (1 / 4) (1 / 2)).largestG ≤
            (cannySuppressed libmAxis 1 chainImage 3 5 1 (1 / 4) (1 / 2)).G.getD (i * 5 + j) 0 ∨
          ChainToStrong 3 5 (cannySuppressed libmAxis 1 chainImage 3 5 1 (1 / 4) (1 / 2)).G
            (fmul (1 / 4) (cannySuppressed libmAxis 1 chainImage 3 5 1 (1 / 4) (1 / 2)).largestG)
            (fmul (1 / 2) (cannySuppressed libmAxis 1 chainImage 3 5 1 (1 / 4) (1 / 2)).largestG)
            i j) :=
  hysteresis_sound libmAxis libmAxis_sqrt_nonneg 1 (by decide) (by decide) chainImage 3 5 1
    (1 / 4) (1 / 2) (by norm_num) (by norm_num) (by norm_num)

/-! ## Thread count -/

/-- C16: for every integer `n`, after `setNumThreads(n)` the worker count returned by
`getNumThreads` is `max(1, min(n, 16))`; it lies in `[1,16]`, equals `n` when
`1 ≤ n ≤ 16`, and `setNumThreads(getNumThreads())` leaves it unchanged. -/
theorem setNumThreads_clamps (n : Int) :
    getNumThreads (setNumThreads n) = max 1 (min n 16) ∧
    1 ≤ getNumThreads (setNumThreads n) ∧ getNumThreads (setNumThreads n) ≤ 16 ∧
    (1 ≤ n ∧ n ≤ 16 → getNumThreads (setNumThreads n) = n) ∧
    setNumThreads (getNumThreads (setNumThreads n)) = setNumThreads n := by
  unfold getNumThreads setNumThreads
  refine ⟨rfl, ?_, ?_, ?_, ?_⟩ <;> omega

/-! ## Evaluations of the gradient and suppression stages -/

/-- C12 fails on the code: at the interior pixel of the 3x3 image `rightEdgeImage`
`Gy = 0` and `Gx = -4`, `atan2` returns `π`, `180.0 + π * 180.0 / 3.14159265` is just above
360, and the stored direction is `(360 / 45) * 45 = 360`. -/
theorem quantized_direction_can_be_360 :
    gradSums (mkThreadData 1 3 3 1 0 (1 / 4) (1 / 2) 0) rightEdgeImage 1 1 = (-4, 0) ∧
    gradTheta libmAxis (mkThreadData 1 3 3 1 0 (1 / 4) (1 / 2) 0) rightEdgeImage 1 1 = 360 ∧
    (cannyGradient libmAxis 1 rightEdgeImage 3 3 1 (1 / 4) (1 / 2)).theta.getD (1 * 3 + 1) 0 =
      360 := by
  refine ⟨?_, ?_, ?_⟩ <;> decide!

/-- C17 fails on the code: in the 3x6 image `rampImage` the gradient stage gives magnitudes
28, 20, 12, 4 at `(1,1) .. (1,4)`, all with direction 180 (left/right neighbours).  Pixel
`(1,3)` has the strictly greater left neighbour 20 in the gradient output, but the left
neighbour has already been zeroed when `(1,3)` is visited, so `(1,3)` keeps magnitude 12. -/
theorem suppression_reads_zeroed_neighbours :
    (cannyGradient libmAxis 1 rampImage 3 6 1 (1 / 4) (1 / 2)).G =
      [28, 28, 20, 12, 4, 4, 28, 28, 20, 12, 4, 4, 28, 28, 20, 12, 4, 4] ∧
    (cannyGradient libmAxis 1 rampImage 3 6 1 (1 / 4) (1 / 2)).theta.getD (1 * 6 + 3) 0 = 180 ∧
    (cannySuppressed libmAxis 1 rampImage 3 6 1 (1 / 4) (1 / 2)).G =
      [28, 28, 20, 12, 4, 4, 28, 28, 0, 12, 0, 4, 28, 28, 20, 12, 4, 4] := by
  refine ⟨?_, ?_, ?_⟩ <;> decide!

/-- C18 fails on the code: on the 6x3 image `columnRampImage` with two workers (rows
`[0,3)` and `[3,6)`) the gradient magnitudes of rows 1..4 are 28, 20, 12, 4 with direction
270 (upper/lower neighbours).  When worker 0 completes first, row 2 is zeroed before row 3
is compared with it and row 3 keeps 12; when worker 1 completes first, row 3 is compared
with the unsuppressed 20 and is zeroed, and row 4 keeps 4. -/
theorem suppression_depends_on_worker_order :
    (runWorkersIn [0, 1] (mkThreadData 2 6 3 1 0 (1 / 4) (1 / 2)) cannyPhase2Worker
      (cannyGradient libmAxis 2 columnRampImage 6 3 1 (1 / 4) (1 / 2))).G =
      [28, 28, 28, 28, 28, 28, 20, 0, 20, 12, 12, 12, 4, 0, 4, 4, 4, 4] ∧
    (runWorkersIn [1, 0] (mkThreadData 2 6 3 1 0 (1 / 4) (1 / 2)) cannyPhase2Worker
      (cannyGradient libmAxis 2 columnRampImage 6 3 1 (1 / 4) (1 / 2))).G =
      [28, 28, 28, 28, 28, 28, 20, 0, 20, 12, 0, 12, 4, 4, 4, 4, 4, 4] ∧
    (runWorkersIn [0, 1] (mkThreadData 2 6 3 1 0 (1 / 4) (1 / 2)) cannyPhase2Worker
      (cannyGradient libmAxis 2 columnRampImage 6 3 1 (1 / 4) (1 / 2))).pixelsCanny.getD 10
        none = some 109 ∧
    (runWorkersIn [1, 0] (mkThreadData 2 6 3 1 0 (1 / 4) (1 / 2)) cannyPhase2Worker
      (cannyGradient libmAxis 2 columnRampImage 6 3 1 (1 / 4) (1 / 2))).pixelsCanny.getD 10
        none = some 0 := by
  refine ⟨?_, ?_, ?_, ?_⟩ <;> decide!

/-- C19 fails on the code: in the 4x4 image `diagImage` the gradient stage stores direction
360 for pixel `(1,2)` (magnitude 2); `360 mod 180 = 0` selects the left/right neighbours,
whose magnitudes 0 and 2 are not greater, but the code takes the last branch, compares
with `(2,1)` of magnitude 4 and zeroes the pixel. -/
theorem direction_360_selects_diagonal_pair :
    (cannyGradient libmAxis 1 diagImage 4 4 1 (1 / 4) (1 / 2)).theta.getD (1 * 4 + 2) 0 = 360 ∧
    (360 : Int) % 180 = 0 ∧
    (cannyGradient libmAxis 1 diagImage 4 4 1 (1 / 4) (1 / 2)).G =
      [0, 0, 2, 2, 0, 0, 2, 2, 4, 4, 2, 2, 4, 4, 2, 2] ∧
    (cannySuppressed libmAxis 1 diagImage 4 4 1 (1 / 4) (1 / 2)).G =
      [0, 0, 2, 2, 0, 0, 0, 2, 4, 4, 2, 2, 4, 4, 2, 2] ∧
    suppress 4 [0, 0, 2, 2, 0, 0, 2, 2, 4, 4, 2, 2, 4, 4, 2, 2] 360 1 2 =
      suppress 4 [0, 0, 2, 2, 0, 0, 2, 2, 4, 4, 2, 2, 4, 4, 2, 2] 135 1 2 ∧
    suppress 4 [0, 0, 2, 2, 0, 0, 2, 2, 4, 4, 2, 2, 4, 4, 2, 2] 360 1 2 ≠
      suppress 4 [0, 0, 2, 2, 0, 0, 2, 2, 4, 4, 2, 2, 4, 4, 2, 2] 180 1 2 := by
  refine ⟨?_, ?_, ?_, ?_, ?_, ?_⟩ <;> decide!

/-! ## The entry point validates nothing -/

theorem forRange2_visit {σ : Type} (a1 b1 a2 b2 : Nat) (body : Nat → Nat → σ → σ)
    (i0 j0 : Nat) (h1 : a1 ≤ i0) (h2 : i0 < b1) (h3 : a2 ≤ j0) (h4 : j0 < b2)
    (Pre Post : σ → Prop)
    (hpre : ∀ i j s, a1 ≤ i → i < b1 → a2 ≤ j → j < b2 → (i ≠ i0 ∨ j ≠ j0) → Pre s →
      Pre (body i j s))
    (hat : ∀ s, Pre s → Post (body i0 j0 s))
    (hpost : ∀ i j s, a1 ≤ i → i < b1 → a2 ≤ j → j < b2 → (i ≠ i0 ∨ j ≠ j0) → Post s →
      Post (body i j s))
    (s : σ) (h : Pre s) :
    Post (forRange a1 b1 (fun i acc => forRange a2 b2 (fun j acc2 => body i j acc2) acc) s) := by
  rw [forRange_split a1 i0 b1 h1 h2]
  have hbefore : Pre (forRange a1 i0
      (fun i acc => forRange a2 b2 (fun j acc2 => body i j acc2) acc) s) := by
    apply forRange_inv Pre a1 i0 _ _ s h
    intro i st hi1 hi2 hst
    apply forRange_inv Pre a2 b2 _ _ st hst
    intro j st2 hj1 hj2 hst2
    exact hpre i j st2 hi1 (by omega) hj1 hj2 (Or.inl (by omega)) hst2
  have hrow : Post (forRange a2 b2 (fun j acc2 => body i0 j acc2) (forRange a1 i0
      (fun i acc => forRange a2 b2 (fun j acc2 => body i j acc2) acc) s)) := by
    generalize forRange a1 i0
      (fun i acc => forRange a2 b2 (fun j acc2 => body i j acc2) acc) s = st at hbefore
    rw [forRange_split a2 j0 b2 h3 h4]
    have hb2 : Pre (forRange a2 j0 (fun j acc2 => body i0 j acc2) st) := by
      apply forRange_inv Pre a2 j0 _ _ st hbefore
      intro j st2 hj1 hj2 hst2
      exact hpre i0 j st2 h1 h2 hj1 (by omega) (Or.inr (by omega)) hst2
    apply forRange_inv Post (j0 + 1) b2 _ _ _ (hat _ hb2)
    intro j st2 hj1 hj2 hst2
    exact hpost i0 j st2 h1 h2 (by omega) hj2 (Or.inr (by omega)) hst2
  apply forRange_inv Post (i0 + 1) b1 _ _ _ hrow
  intro i st hi1 hi2 hst
  apply forRange_inv Post a2 b2 _ _ st hst
  intro j st2 hj1 hj2 hst2
  exact hpost i j st2 (by omega) hi2 hj1 hj2 (Or.inl (by omega)) hst2

theorem forRange_two_sets {α : Type} (a : Nat) (t1 s1 t2 s2 : Nat → Nat) (d : α) (l : List α)
    (n : Nat)
    (hlen : ∀ j, a ≤ j → j < a + n → t1 j < l.length ∧ t2 j < l.length)
    (hT11 : ∀ j j', a ≤ j → j < a + n → a ≤ j' → j' < a + n → t1 j = t1 j' → j = j')
    (hT22 : ∀ j j', a ≤ j → j < a + n → a ≤ j' → j' < a + n → t2 j = t2 j' → j = j')
    (hT12 : ∀ j j', a ≤ j → j < a + n → a ≤ j' → j' < a + n → t1 j ≠ t2 j')
    (hS : ∀ j j', a ≤ j → j < a + n → a ≤ j' → j' < a + n →
      s1 j ≠ t1 j' ∧ s1 j ≠ t2 j' ∧ s2 j ≠ t1 j' ∧ s2 j ≠ t2 j') :
    (forRange a (a + n) (fun j acc => (acc.set (t1 j) (acc.getD (s1 j) d)).set (t2 j)
        ((acc.set (t1 j) (acc.getD (s1 j) d)).getD (s2 j) d)) l).length = l.length ∧
    (∀ j, a ≤ j → j < a + n →
      (forRange a (a + n) (fun j acc => (acc.set (t1 j) (acc.getD (s1 j) d)).set (t2 j)
        ((acc.set (t1 j) (acc.getD (s1 j) d)).getD (s2 j) d)) l).getD (t1 j) d =
          l.getD (s1 j) d ∧
      (forRange a (a + n) (fun j acc => (acc.set (t1 j) (acc.getD (s1 j) d)).set (t2 j)
        ((acc.set (t1 j) (acc.getD (s1 j) d)).getD (s2 j) d)) l).getD (t2 j) d =
          l.getD (s2 j) d) ∧
    (∀ k, (∀ j, a ≤ j → j < a + n → k ≠ t1 j ∧ k ≠ t2 j) →
      (forRange a (a + n) (fun j acc => (acc.set (t1 j) (acc.getD (s1 j) d)).set (t2 j)
        ((acc.set (t1 j) (acc.getD (s1 j) d)).getD (s2 j) d)) l).getD k d = l.getD k d) := by
  induction n with
  | zero =>
    rw [Nat.add_zero, forRange_empty _ _ le_rfl]
    exact ⟨rfl, fun j h1 h2 => absurd h2 (by omega), fun k _ => rfl⟩
  | succ n ih =>
    obtain ⟨i1, i2, i3⟩ := ih
      (fun j h1 h2 => hlen j h1 (by omega))
      (fun j j' h1 h2 h3 h4 => hT11 j j' h1 (by omega) h3 (by omega))
      (fun j j' h1 h2 h3 h4 => hT22 j j' h1 (by omega) h3 (by omega))
      (fun j j' h1 h2 h3 h4 => hT12 j j' h1 (by omega) h3 (by omega))
      (fun j j' h1 h2 h3 h4 => hS j j' h1 (by omega) h3 (by omega))
    rw [← Nat.add_assoc, forRange_succ_right a (a + n) (Nat.le_add_right _ _)]
    generalize forRange a (a + n) (fun j acc => (acc.set (t1 j) (acc.getD (s1 j) d)).set (t2 j)
        ((acc.set (t1 j) (acc.getD (s1 j) d)).getD (s2 j) d)) l = res at i1 i2 i3
    have hb1 : a ≤ a + n := Nat.le_add_right _ _
    have hb2 : a + n < a + n + 1 := Nat.lt_succ_self _
    have hs1 : res.getD (s1 (a + n)) d = l.getD (s1 (a + n)) d :=
      i3 _ (fun j h1 h2 =>
        ⟨(hS (a + n) j hb1 hb2 h1 (by omega)).1, (hS (a + n) j hb1 hb2 h1 (by omega)).2.1⟩)
    have hs2 : res.getD (s2 (a + n)) d = l.getD (s2 (a + n)) d :=
      i3 _ (fun j h1 h2 =>
        ⟨(hS (a + n) j hb1 hb2 h1 (by omega)).2.2.1, (hS (a + n) j hb1 hb2 h1 (by omega)).2.2.2⟩)
    have hl1 : t1 (a + n) < res.length := by rw [i1]; exact (hlen _ hb1 hb2).1
    have hl2 : t2 (a + n) < (res.set (t1 (a + n)) (res.getD (s1 (a + n)) d)).length := by
      rw [List.length_set, i1]; exact (hlen _ hb1 hb2).2
    refine ⟨by rw [List.length_set, List.length_set]; exact i1, ?_, ?_⟩
    · intro j h1 h2
      by_cases hj : j = a + n
      · subst hj
        constructor
        · rw [getD_set_ne _ _ _ _ _ (hT12 _ _ hb1 hb2 hb1 hb2).symm, getD_set_eq _ _ _ _ hl1, hs1]
        · rw [getD_set_eq _ _ _ _ hl2,
            getD_set_ne _ _ _ _ _ (hS _ _ hb1 hb2 hb1 hb2).2.2.1.symm, hs2]
      · have hjn : j < a + n := by omega
        constructor
        · rw [getD_set_ne _ _ _ _ _ (hT12 j (a + n) h1 (by omega) hb1 hb2).symm,
            getD_set_ne _ _ _ _ _ (fun he => hj (hT11 _ _ hb1 hb2 h1 (by omega) he).symm)]
          exact (i2 j h1 hjn).1
        · rw [getD_set_ne _ _ _ _ _ (fun he => hj (hT22 _ _ hb1 hb2 h1 (by omega) he).symm),
            getD_set_ne _ _ _ _ _ (hT12 (a + n) j hb1 hb2 h1 (by omega))]
          exact (i2 j h1 hjn).2
    · intro k hk
      rw [getD_set_ne _ _ _ _ _ (hk _ hb1 hb2).2.symm, getD_set_ne _ _ _ _ _ (hk _ hb1 hb2).1.symm]
      exact i3 k (fun j h1 h2 => hk j h1 (by omega))
theorem fixRowsList_getD {α : Type} (R C : Nat) (hR : 3 ≤ R) (hC : 3 ≤ C) (d : α) (l : List α)
    (hl : l.length = R * C) :
    (fixRowsList R C d l).length = R * C ∧
    ∀ i j, i < R → j < C →
      (fixRowsList R C d l).getD (i * C + j) d =
        if i = 0 ∧ 1 ≤ j ∧ j < C - 1 then l.getD (C + j) d
        else if i = R - 1 ∧ 1 ≤ j ∧ j < C - 1 then l.getD ((R - 2) * C + j) d
        else l.getD (i * C + j) d := by
  obtain ⟨r, rfl⟩ : ∃ r, R = r + 3 := ⟨R - 3, by omega⟩
  have e1 : (r + 3 - 1) * C = r * C + 2 * C := by
    have : r + 3 - 1 = r + 2 := by omega
    rw [this]; ring
  have e2 : (r + 3 - 2) * C = r * C + C := by
    have : r + 3 - 2 = r + 1 := by omega
    rw [this]; ring
  have e3 : (r + 3) * C = r * C + 3 * C := by ring
  have hC1 : C - 1 = 1 + (C - 2) := by omega
  unfold fixRowsList
  have key := forRange_two_sets 1 (fun j => j) (fun j => C + j)
    (fun j => (r + 3 - 1) * C + j) (fun j => (r + 3 - 2) * C + j) d l (C - 2)
    (fun j h1 h2 => by dsimp only; constructor <;> omega)
    (fun j j' _ _ _ _ h => h)
    (fun j j' _ _ _ _ h => by dsimp only at h; omega)
    (fun j j' _ h2 _ _ => by dsimp only; omega)
    (fun j j' _ h2 _ h4 => by dsimp only; refine ⟨?_, ?_, ?_, ?_⟩ <;> omega)
  rw [← hC1] at key
  obtain ⟨k1, k2, k3⟩ := key
  refine ⟨by rw [k1, hl], ?_⟩
  intro i j hi hj
  by_cases c1 : i = 0 ∧ 1 ≤ j ∧ j < C - 1
  · rw [if_pos c1]
    obtain ⟨rfl, c2, c3⟩ := c1
    have := (k2 j c2 (by omega)).1
    simpa using this
  · rw [if_neg c1]
    by_cases c2 : i = r + 3 - 1 ∧ 1 ≤ j ∧ j < C - 1
    · rw [if_pos c2]
      obtain ⟨rfl, c3, c4⟩ := c2
      exact (k2 j c3 (by omega)).2
    · rw [if_neg c2]
      apply k3
      intro j' h1 h2
      constructor
      · intro he
        have := idx_inj C i j 0 j' hj (by omega) (by simpa using he)
        omega
      · intro he
        have := idx_inj C i j (r + 3 - 1) j' hj (by omega) he
        omega

theorem fixColsList_getD {α : Type} (R C : Nat) (hC : 3 ≤ C) (d : α) (l : List α)
    (hl : l.length = R * C) :
    (fixColsList R C d l).length = R * C ∧
    ∀ i j, i < R → j < C →
      (fixColsList R C d l).getD (i * C + j) d =
        if j = 0 then l.getD (i * C + 1) d
        else if j = C - 1 then l.getD (i * C + (C - 2)) d
        else l.getD (i * C + j) d := by
  unfold fixColsList
  have hsub1 : ∀ i, i * C + C - 1 = i * C + (C - 1) := fun i => by omega
  have hsub2 : ∀ i, i * C + C - 2 = i * C + (C - 2) := fun i => by omega
  simp only [hsub1, hsub2]
  have key := forRange_two_sets 0 (fun i => i * C) (fun i => i * C + 1)
    (fun i => i * C + (C - 1)) (fun i => i * C + (C - 2)) d l R
    (fun i _ h2 => by
      dsimp only
      have h := idx_lt (0 + R) C i (C - 1) h2 (by omega)
      rw [Nat.zero_add] at h
      constructor <;> omega)
    (fun i i' _ _ _ _ h => (idx_inj C i 0 i' 0 (by omega) (by omega) (by simpa using h)).1)
    (fun i i' _ _ _ _ h => (idx_inj C i (C - 1) i' (C - 1) (by omega) (by omega) h).1)
    (fun i i' _ _ _ _ h => by
      have := idx_inj C i 0 i' (C - 1) (by omega) (by omega) (by simpa using h)
      omega)
    (fun i i' _ _ _ _ => by
      refine ⟨?_, ?_, ?_, ?_⟩ <;> intro h
      · have := idx_inj C i 1 i' 0 (by omega) (by omega) (by simpa using h)
        omega
      · have := idx_inj C i 1 i' (C - 1) (by omega) (by omega) h
        omega
      · have := idx_inj C i (C - 2) i' 0 (by omega) (by omega) (by simpa using h)
        omega
      · have := idx_inj C i (C - 2) i' (C - 1) (by omega) (by omega) h
        omega)
  rw [Nat.zero_add] at key
  obtain ⟨k1, k2, k3⟩ := key
  refine ⟨by rw [k1, hl], ?_⟩
  intro i j hi hj
  by_cases c1 : j = 0
  · rw [if_pos c1]
    subst c1
    have := (k2 i (Nat.zero_le _) (by omega)).1
    simpa using this
  · rw [if_neg c1]
    by_cases c2 : j = C - 1
    · rw [if_pos c2]
      subst c2
      exact (k2 i (Nat.zero_le _) (by omega)).2
    · rw [if_neg c2]
      apply k3
      intro i' _ _
      constructor
      · intro he
        have := idx_inj C i j i' 0 hj (by omega) (by simpa using he)
        omega
      · intro he
        have := idx_inj C i j i' (C - 1) hj (by omega) he
        omega

theorem fixList_getD {α : Type} (R C : Nat) (hR : 3 ≤ R) (hC : 3 ≤ C) (d : α) (l : List α)
    (hl : l.length = R * C) (i j : Nat) (hi : i < R) (hj : j < C) :
    (fixColsList R C d (fixRowsList R C d l)).getD (i * C + j) d =
      l.getD (clampI R i * C + clampI C j) d := by
  obtain ⟨r1, r2⟩ := fixRowsList_getD R C hR hC d l hl
  obtain ⟨_, c2⟩ := fixColsList_getD R C hC d (fixRowsList R C d l) r1
  have hjc : 1 ≤ clampI C j ∧ clampI C j < C - 1 := by unfold clampI; omega
  have step1 : (fixColsList R C d (fixRowsList R C d l)).getD (i * C + j) d =
      (fixRowsList R C d l).getD (i * C + clampI C j) d := by
    rw [c2 i j hi hj]
    by_cases c : j = 0
    · rw [if_pos c]
      have : clampI C j = 1 := by unfold clampI; omega
      rw [this]
    · rw [if_neg c]
      by_cases c' : j = C - 1
      · rw [if_pos c']
        have : clampI C j = C - 2 := by unfold clampI; omega
        rw [this]
      · rw [if_neg c']
        have : clampI C j = j := by unfold clampI; omega
        rw [this]
  rw [step1, r2 i (clampI C j) hi (by omega)]
  by_cases c : i = 0
  · rw [if_pos ⟨c, hjc⟩]
    have : clampI R i = 1 := by unfold clampI; omega
    rw [this, Nat.one_mul]
  · rw [if_neg (fun h => c h.1)]
    by_cases c' : i = R - 1
    · rw [if_pos ⟨c', hjc⟩]
      have : clampI R i = R - 2 := by unfold clampI; omega
      rw [this]
    · rw [if_neg (fun h => c' h.1)]
      have : clampI R i = i := by unfold clampI; omega
      rw [this]

theorem fixupRows_proj (R C : Nat) (s : CannyState) :
    (fixupRows R C s).G = fixRowsList R C 0 s.G ∧
      (fixupRows R C s).theta = fixRowsList R C 0 s.theta := by
  unfold fixupRows fixRowsList
  constructor
  · apply forRange_rel (fun (t : CannyState) (l : List ℚ) => t.G = l) _ _ _ _ _ s s.G rfl
    intro j t l _ _ h
    simp only [h]
  · apply forRange_rel (fun (t : CannyState) (l : List Int) => t.theta = l) _ _ _ _ _ s s.theta rfl
    intro j t l _ _ h
    simp only [h]

theorem fixupCols_proj (R C : Nat) (s : CannyState) :
    (fixupCols R C s).G = fixColsList R C 0 s.G ∧
      (fixupCols R C s).theta = fixColsList R C 0 s.theta := by
  unfold fixupCols fixColsList
  constructor
  · apply forRange_rel (fun (t : CannyState) (l : List ℚ) => t.G = l) _ _ _ _ _ s s.G rfl
    intro j t l _ _ h
    simp only [h]
  · apply forRange_rel (fun (t : CannyState) (l : List Int) => t.theta = l) _ _ _ _ _ s s.theta rfl
    intro j t l _ _ h
    simp only [h]

theorem borderFixup_getD (R C : Nat) (hR : 3 ≤ R) (hC : 3 ≤ C) (s : CannyState)
    (h : BufOK R C s) (i j : Nat) (hi : i < R) (hj : j < C) :
    (borderFixup R C s).G.getD (i * C + j) 0 = s.G.getD (clampI R i * C + clampI C j) 0 ∧
    (borderFixup R C s).theta.getD (i * C + j) 0 =
      s.theta.getD (clampI R i * C + clampI C j) 0 := by
  unfold borderFixup
  rw [(fixupCols_proj R C _).1, (fixupCols_proj R C _).2, (fixupRows_proj R C s).1,
    (fixupRows_proj R C s).2]
  exact ⟨fixList_getD R C hR hC 0 s.G h.1 i j hi hj,
    fixList_getD R C hR hC 0 s.theta h.2.1 i j hi hj⟩

/-! ## Gradient stage: what phase 1 leaves in the buffers -/

theorem cannyPhase1_eq (m : Libm) (N : Nat) (hN : 0 < N) (pixels : List Int) (R C D : Nat)
    (lt ht : ℚ) :
    cannyPhase1 m N pixels R C D lt ht =
      { (forRange 1 (R - 1) (fun i acc => forRange 1 (C - 1) (fun j acc2 =>
          cannyPhase1Pixel m pixels (mkThreadData N R C D 0 lt ht 0) i j acc2) acc)
          (cannyInit R C, 0)).1 with
        largestG := max 0 (forRange 1 (R - 1) (fun i acc => forRange 1 (C - 1) (fun j acc2 =>
          cannyPhase1Pixel m pixels (mkThreadData N R C D 0 lt ht 0) i j acc2) acc)
          (cannyInit R C, 0)).2 } := by
  unfold cannyPhase1
  rw [phase1_runWorkers m pixels N hN R C D 0 lt ht _ (le_refl (0 : ℚ))]
  have e1 : max 1 0 = 1 := rfl
  have e2 : min (R - 1) R = R - 1 := by omega
  rw [e1, e2]
  rfl

theorem cannyPhase1Pixel_eq (m : Libm) (input : List Int) (d : ThreadData) (R C : Nat)
    (hd : d.sizeCols = C) (i j : Nat) (hint : Interior R C i j) (st : CannyState × ℚ)
    (h : BufOK R C st.1) :
    cannyPhase1Pixel m input d i j st =
      ({ st.1 with G := st.1.G.set (i * C + j) (gradMag m d input i j),
                   theta := st.1.theta.set (i * C + j) (gradTheta m d input i j) },
        max st.2 (gradMag m d input i j)) := by
  unfold cannyPhase1Pixel
  rw [hd, getD_set_eq _ _ _ _ (by rw [h.1]; exact interior_idx_lt R C i j hint), ite_gt_eq_max]

theorem cannyPhase1_buffers (m : Libm) (N : Nat) (hN : 0 < N) (pixels : List Int)
    (R C D : Nat) (lt ht : ℚ) :
    BufOK R C (cannyPhase1 m N pixels R C D lt ht) ∧
    ∀ i j, Interior R C i j →
      (cannyPhase1 m N pixels R C D lt ht).G.getD (i * C + j) 0 =
        gradMag m (mkThreadData N R C D 0 lt ht 0) pixels i j ∧
      (cannyPhase1 m N pixels R C D lt ht).theta.getD (i * C + j) 0 =
        gradTheta m (mkThreadData N R C D 0 lt ht 0) pixels i j := by
  rw [cannyPhase1_eq m N hN]
  have hinit : BufOK R C (cannyInit R C) := by simp [BufOK, cannyInit]
  have hstep : ∀ i j (st : CannyState × ℚ), Interior R C i j → BufOK R C st.1 →
      BufOK R C (cannyPhase1Pixel m pixels (mkThreadData N R C D 0 lt ht 0) i j st).1 := by
    intro i j st hint hb
    rw [cannyPhase1Pixel_eq m pixels _ R C rfl i j hint st hb]
    exact ⟨by simp [hb.1], by simp [hb.2.1], hb.2.2⟩
  constructor
  · have := forRange_inv (fun p : CannyState × ℚ => BufOK R C p.1) 1 (R - 1)
      (fun i acc => forRange 1 (C - 1) (fun j acc2 =>
          cannyPhase1Pixel m pixels (mkThreadData N R C D 0 lt ht 0) i j acc2) acc)
      (fun i st hi1 hi2 hst => forRange_inv (fun p : CannyState × ℚ => BufOK R C p.1) 1 (C - 1) _
        (fun j st2 hj1 hj2 hst2 => hstep i j st2 ⟨hi1, hi2, hj1, hj2⟩ hst2) st hst)
      (cannyInit R C, 0) hinit
    exact this
  · intro i0 j0 h0
    have key := forRange2_visit 1 (R - 1) 1 (C - 1)
      (fun i j acc2 => cannyPhase1Pixel m pixels (mkThreadData N R C D 0 lt ht 0) i j acc2)
      i0 j0 h0.1 h0.2.1 h0.2.2.1 h0.2.2.2
      (fun p : CannyState × ℚ => BufOK R C p.1)
      (fun p : CannyState × ℚ => BufOK R C p.1 ∧
        p.1.G.getD (i0 * C + j0) 0 = gradMag m (mkThreadData N R C D 0 lt ht 0) pixels i0 j0 ∧
        p.1.theta.getD (i0 * C + j0) 0 =
          gradTheta m (mkThreadData N R C D 0 lt ht 0) pixels i0 j0)
      (fun i j st hi1 hi2 hj1 hj2 _ hst => hstep i j st ⟨hi1, hi2, hj1, hj2⟩ hst)
      (fun st hst => by
        have hb : BufOK R C st.1 := hst
        refine ⟨hstep i0 j0 st h0 hb, ?_⟩
        dsimp only
        rw [cannyPhase1Pixel_eq m pixels _ R C rfl i0 j0 h0 st hb]
        have hlt := interior_idx_lt R C i0 j0 h0
        exact ⟨getD_set_eq _ _ _ _ (by rw [hb.1]; exact hlt),
          getD_set_eq _ _ _ _ (by rw [hb.2.1]; exact hlt)⟩)
      (fun i j st hi1 hi2 hj1 hj2 hne hst => by
        have hp : BufOK R C st.1 ∧
          st.1.G.getD (i0 * C + j0) 0 = gradMag m (mkThreadData N R C D 0 lt ht 0) pixels i0 j0 ∧
          st.1.theta.getD (i0 * C + j0) 0 =
            gradTheta m (mkThreadData N R C D 0 lt ht 0) pixels i0 j0 := hst
        refine ⟨hstep i j st ⟨hi1, hi2, hj1, hj2⟩ hp.1, ?_⟩
        dsimp only
        rw [cannyPhase1Pixel_eq m pixels _ R C rfl i j ⟨hi1, hi2, hj1, hj2⟩ st hp.1]
        have hk := interior_idx_ne R C i j i0 j0 ⟨hi1, hi2, hj1, hj2⟩ h0 hne
        exact ⟨by rw [getD_set_ne _ _ _ _ _ hk]; exact hp.2.1,
          by rw [getD_set_ne _ _ _ _ _ hk]; exact hp.2.2⟩)
      (cannyInit R C, 0) hinit
    exact key.2

theorem clampI_interior (R C i j : Nat) (hR : 3 ≤ R) (hC : 3 ≤ C) :
    Interior R C (clampI R i) (clampI C j) := by
  unfold Interior clampI
  omega

/-- C13: for every single-channel image with at least 3 rows and 3 columns, after the
border fixup every pixel `(i, j)` of the image (first/last row and column and corners
included) holds the magnitude and quantized direction that phase 1 stored for the interior
pixel `(clamp(i,1,rows-2), clamp(j,1,cols-2))`, which are the values `gradMag` and
`gradTheta` computed there; for an interior pixel that is its own unchanged value. -/
theorem border_fixup_replicates_interior (m : Libm) (N : Nat) (hN1 : 1 ≤ N) (hN16 : N ≤ 16)
    (pixels : List Int) (R C D : Nat) (hR : 3 ≤ R) (hC : 3 ≤ C) (lt ht : ℚ) (i j : Nat)
    (hi : i < R) (hj : j < C) :
    (cannyGradient m N pixels R C D lt ht).G.getD (i * C + j) 0 =
      (cannyPhase1 m N pixels R C D lt ht).G.getD (clampI R i * C + clampI C j) 0 ∧
    (cannyGradient m N pixels R C D lt ht).theta.getD (i * C + j) 0 =
      (cannyPhase1 m N pixels R C D lt ht).theta.getD (clampI R i * C + clampI C j) 0 ∧
    (cannyGradient m N pixels R C D lt ht).G.getD (i * C + j) 0 =
      gradMag m (mkThreadData N R C D 0 lt ht 0) pixels (clampI R i) (clampI C j) ∧
    (cannyGradient m N pixels R C D lt ht).theta.getD (i * C + j) 0 =
      gradTheta m (mkThreadData N R C D 0 lt ht 0) pixels (clampI R i) (clampI C j) ∧
    (Interior R C i j → clampI R i = i ∧ clampI C j = j) := by
  have _h := hN16
  obtain ⟨hb, hv⟩ := cannyPhase1_buffers m N (by omega) pixels R C D lt ht
  have hfix := borderFixup_getD R C hR hC _ hb i j hi hj
  have hval := hv _ _ (clampI_interior R C i j hR hC)
  have hg : cannyGradient m N pixels R C D lt ht =
      borderFixup R C (cannyPhase1 m N pixels R C D lt ht) := rfl
  rw [hg]
  refine ⟨hfix.1, hfix.2, by rw [hfix.1]; exact hval.1, by rw [hfix.2]; exact hval.2, ?_⟩
  intro hint
  unfold Interior at hint
  unfold clampI
  omega

/-- Witness of C13: the corner `(0, 0)` of a 3x5 image. -/
theorem border_fixup_replicates_interior_witness :
    (cannyGradient libmAxis 1 chainImage 3 5 1 (1 / 4) (1 / 2)).G.getD (0 * 5 + 0) 0 =
      (cannyPhase1 libmAxis 1 chainImage 3 5 1 (1 / 4) (1 / 2)).G.getD
        (clampI 3 0 * 5 + clampI 5 0) 0 ∧
    (cannyGradient libmAxis 1 chainImage 3 5 1 (1 / 4) (1 / 2)).theta.getD (0 * 5 + 0) 0 =
      (cannyPhase1 libmAxis 1 chainImage 3 5 1 (1 / 4) (1 / 2)).theta.getD
        (clampI 3 0 * 5 + clampI 5 0) 0 ∧
    (cannyGradient libmAxis 1 chainImage 3 5 1 (1 / 4) (1 / 2)).G.getD (0 * 5 + 0) 0 =
      gradMag libmAxis (mkThreadData 1 3 5 1 0 (1 / 4) (1 / 2) 0) chainImage (clampI 3 0)
        (clampI 5 0) ∧
    (cannyGradient libmAxis 1 chainImage 3 5 1 (1 / 4) (1 / 2)).theta.getD (0 * 5 + 0) 0 =
      gradTheta libmAxis (mkThreadData 1 3 5 1 0 (1 / 4) (1 / 2) 0) chainImage (clampI 3 0)
        (clampI 5 0) ∧
    (Interior 3 5 0 0 → clampI 3 0 = 0 ∧ clampI 5 0 = 0) :=
  border_fixup_replicates_interior libmAxis 1 (by decide) (by decide) chainImage 3 5 1
    (by decide) (by decide) (1 / 4) (1 / 2) 0 0 (by decide) (by decide)

/-! ## The global maximum of the gradient stage -/

theorem cannyPhase1Loop_local (m : Libm) (input : List Int) (d : ThreadData) (s : CannyState)
    (h : BufOK d.sizeRows d.sizeCols s) :
    BufOK d.sizeRows d.sizeCols (cannyPhase1Loop m input d s).1 ∧
      (cannyPhase1Loop m input d s).1.largestG = s.largestG ∧
      (cannyPhase1Loop m input d s).2 = localLargestG m input d := by
  have hinit : BufOK d.sizeRows d.sizeCols (cannyInit d.sizeRows d.sizeCols) := by
    simp [BufOK, cannyInit]
  have key := forRange_rel
    (fun (p q : CannyState × ℚ) => BufOK d.sizeRows d.sizeCols p.1 ∧
      BufOK d.sizeRows d.sizeCols q.1 ∧ p.1.largestG = s.largestG ∧ p.2 = q.2)
    (max 1 d.startRow) (min (d.sizeRows - 1) d.endRow) (cannyPhase1Row m input d)
    (cannyPhase1Row m input d)
    (fun i p q hi1 hi2 hpq => forRange_rel
      (fun (p q : CannyState × ℚ) => BufOK d.sizeRows d.sizeCols p.1 ∧
        BufOK d.sizeRows d.sizeCols q.1 ∧ p.1.largestG = s.largestG ∧ p.2 = q.2)
      1 (d.sizeCols - 1) (fun j acc => cannyPhase1Pixel m input d i j acc)
      (fun j acc => cannyPhase1Pixel m input d i j acc)
      (fun j p2 q2 hj1 hj2 h2 => by
        have hint : Interior d.sizeRows d.sizeCols i j := ⟨by omega, by omega, hj1, hj2⟩
        dsimp only
        rw [cannyPhase1Pixel_eq m input d d.sizeRows d.sizeCols rfl i j hint p2 h2.1,
          cannyPhase1Pixel_eq m input d d.sizeRows d.sizeCols rfl i j hint q2 h2.2.1]
        refine ⟨⟨by simp [h2.1.1], by simp [h2.1.2.1], h2.1.2.2⟩,
          ⟨by simp [h2.2.1.1], by simp [h2.2.1.2.1], h2.2.1.2.2⟩, h2.2.2.1, ?_⟩
        show max p2.2 _ = max q2.2 _
        rw [h2.2.2.2])
      p q hpq)
    (s, 0) (cannyInit d.sizeRows d.sizeCols, 0) ⟨h, hinit, rfl, rfl⟩
  exact ⟨key.1, key.2.2.1, key.2.2.2⟩

theorem cannyPhase1Worker_largestG (m : Libm) (input : List Int) (d : ThreadData)
    (s : CannyState) (h : BufOK d.sizeRows d.sizeCols s) :
    BufOK d.sizeRows d.sizeCols (cannyPhase1Worker m input d s) ∧
      (cannyPhase1Worker m input d s).largestG = max s.largestG (localLargestG m input d) := by
  obtain ⟨h1, h2, h3⟩ := cannyPhase1Loop_local m input d s h
  unfold cannyPhase1Worker
  refine ⟨h1, ?_⟩
  show (if _ > _ then _ else _) = _
  rw [ite_gt_eq_max, h2, h3]

theorem phase1_runWorkersIn_largestG (m : Libm) (input : List Int) (N R C D : Nat)
    (kc lt ht : ℚ) (order : List Nat) (s : CannyState) (h : BufOK R C s) :
    BufOK R C (runWorkersIn order (mkThreadData N R C D kc lt ht) (cannyPhase1Worker m input) s) ∧
    (runWorkersIn order (mkThreadData N R C D kc lt ht) (cannyPhase1Worker m input) s).largestG =
      order.foldl (fun a t => max a (localLargestG m input (mkThreadData N R C D kc lt ht t)))
        s.largestG := by
  unfold runWorkersIn
  induction order generalizing s with
  | nil => exact ⟨h, rfl⟩
  | cons t ts ih =>
    simp only [List.foldl_cons]
    obtain ⟨w1, w2⟩ := cannyPhase1Worker_largestG m input (mkThreadData N R C D kc lt ht t) s h
    obtain ⟨i1, i2⟩ := ih _ w1
    refine ⟨i1, ?_⟩
    rw [i2, w2]

theorem foldl_max_perm (f : Nat → ℚ) (l1 l2 : List Nat) (h : l1.Perm l2) (a : ℚ) :
    l1.foldl (fun a t => max a (f t)) a = l2.foldl (fun a t => max a (f t)) a :=
  List.Perm.foldl_eq' h (fun x _ y _ z => by
    show max (max z (f x)) (f y) = max (max z (f y)) (f x)
    rw [max_assoc, max_assoc, max_comm (f x)]) a

theorem cannyPhase1_local_max (m : Libm) (input : List Int) (d : ThreadData) (R C : Nat)
    (hC : d.sizeCols = C) (a b : Nat) (ha : 1 ≤ a) (hb : b ≤ R - 1) (s : CannyState)
    (h : BufOK R C s) :
    (∀ i j, a ≤ i → i < b → 1 ≤ j → j < C - 1 → gradMag m d input i j ≤
      (forRange a b (fun i acc => forRange 1 (C - 1) (fun j acc2 =>
        cannyPhase1Pixel m input d i j acc2) acc) (s, 0)).2) ∧
    ((forRange a b (fun i acc => forRange 1 (C - 1) (fun j acc2 =>
        cannyPhase1Pixel m input d i j acc2) acc) (s, 0)).2 = 0 ∨
      ∃ i j, Interior R C i j ∧ (forRange a b (fun i acc => forRange 1 (C - 1) (fun j acc2 =>
        cannyPhase1Pixel m input d i j acc2) acc) (s, 0)).2 = gradMag m d input i j) := by
  have hstep : ∀ i j (st : CannyState × ℚ), a ≤ i → i < b → 1 ≤ j → j < C - 1 →
      BufOK R C st.1 → cannyPhase1Pixel m input d i j st =
        ({ st.1 with G := st.1.G.set (i * C + j) (gradMag m d input i j),
                     theta := st.1.theta.set (i * C + j) (gradTheta m d input i j) },
          max st.2 (gradMag m d input i j)) := by
    intro i j st hi1 hi2 hj1 hj2 hst
    exact cannyPhase1Pixel_eq m input d R C hC i j ⟨by omega, by omega, hj1, hj2⟩ st hst
  have hbuf : ∀ i j (st : CannyState × ℚ), a ≤ i → i < b → 1 ≤ j → j < C - 1 →
      BufOK R C st.1 → BufOK R C (cannyPhase1Pixel m input d i j st).1 := by
    intro i j st hi1 hi2 hj1 hj2 hst
    rw [hstep i j st hi1 hi2 hj1 hj2 hst]
    exact ⟨by simp [hst.1], by simp [hst.2.1], hst.2.2⟩
  constructor
  · intro i0 j0 h1 h2 h3 h4
    have key := forRange2_visit a b 1 (C - 1)
      (fun i j acc2 => cannyPhase1Pixel m input d i j acc2) i0 j0 h1 h2 h3 h4
      (fun p : CannyState × ℚ => BufOK R C p.1)
      (fun p : CannyState × ℚ => BufOK R C p.1 ∧ gradMag m d input i0 j0 ≤ p.2)
      (fun i j st hi1 hi2 hj1 hj2 _ hst => hbuf i j st hi1 hi2 hj1 hj2 hst)
      (fun st hst => by
        refine ⟨hbuf i0 j0 st h1 h2 h3 h4 hst, ?_⟩
        dsimp only
        rw [hstep i0 j0 st h1 h2 h3 h4 hst]
        exact le_max_right _ _)
      (fun i j st hi1 hi2 hj1 hj2 _ hst => by
        have hp : BufOK R C st.1 ∧ gradMag m d input i0 j0 ≤ st.2 := hst
        refine ⟨hbuf i j st hi1 hi2 hj1 hj2 hp.1, ?_⟩
        dsimp only
        rw [hstep i j st hi1 hi2 hj1 hj2 hp.1]
        exact le_max_of_le_left hp.2)
      (s, 0) h
    exact key.2
  · have key := forRange_inv
      (fun p : CannyState × ℚ => BufOK R C p.1 ∧
        (p.2 = 0 ∨ ∃ i j, Interior R C i j ∧ p.2 = gradMag m d input i j))
      a b (fun i acc => forRange 1 (C - 1) (fun j acc2 =>
        cannyPhase1Pixel m input d i j acc2) acc)
      (fun i st hi1 hi2 hst => forRange_inv
        (fun p : CannyState × ℚ => BufOK R C p.1 ∧
          (p.2 = 0 ∨ ∃ i j, Interior R C i j ∧ p.2 = gradMag m d input i j))
        1 (C - 1) (fun j acc2 => cannyPhase1Pixel m input d i j acc2)
        (fun j st2 hj1 hj2 hst2 => by
          refine ⟨hbuf i j st2 hi1 hi2 hj1 hj2 hst2.1, ?_⟩
          dsimp only
          rw [hstep i j st2 hi1 hi2 hj1 hj2 hst2.1]
          show max st2.2 _ = 0 ∨ ∃ i' j', Interior R C i' j' ∧ max st2.2 _ = _
          rcases le_total st2.2 (gradMag m d input i j) with hle | hle
          · rw [max_eq_right hle]
            exact Or.inr ⟨i, j, ⟨by omega, by omega, hj1, hj2⟩, rfl⟩
          · rw [max_eq_left hle]
            exact hst2.2)
        st hst)
      (s, 0) ⟨h, Or.inl rfl⟩
    exact key.2

theorem cannyGradient_getD (m : Libm) (N : Nat) (hN1 : 1 ≤ N) (pixels : List Int)
    (R C D : Nat) (hR : 3 ≤ R) (hC : 3 ≤ C) (lt ht : ℚ) (i j : Nat) (hi : i < R) (hj : j < C) :
    (cannyGradient m N pixels R C D lt ht).G.getD (i * C + j) 0 =
      gradMag m (mkThreadData N R C D 0 lt ht 0) pixels (clampI R i) (clampI C j) := by
  obtain ⟨hb, hv⟩ := cannyPhase1_buffers m N (by omega) pixels R C D lt ht
  have hfix := borderFixup_getD R C hR hC _ hb i j hi hj
  have hval := hv _ _ (clampI_interior R C i j hR hC)
  have hg : cannyGradient m N pixels R C D lt ht =
      borderFixup R C (cannyPhase1 m N pixels R C D lt ht) := rfl
  rw [hg, hfix.1]
  exact hval.1

/-- C14: for every single-channel image with at least 3 rows and 3 columns, every worker
count `N` in `[1,16]` and a square root that is never negative, the global maximum left by
the gradient stage is at least the gradient magnitude of every interior pixel and is the
magnitude of some interior pixel (so it is their maximum, 0 when all are 0); it is at least
every magnitude stored after the border fixup; and for every order in which the `N` workers
run and merge their local maxima, the merged value is the same. -/
theorem global_maximum_is_interior_maximum (m : Libm) (hsqrt : ∀ x, 0 ≤ m.sqrt x) (N : Nat)
    (hN1 : 1 ≤ N) (hN16 : N ≤ 16) (pixels : List Int) (R C D : Nat) (hR : 3 ≤ R) (hC : 3 ≤ C)
    (lt ht : ℚ) :
    (∀ i j, Interior R C i j → gradMag m (mkThreadData N R C D 0 lt ht 0) pixels i j ≤
      (cannyGradient m N pixels R C D lt ht).largestG) ∧
    (∃ i j, Interior R C i j ∧ (cannyGradient m N pixels R C D lt ht).largestG =
      gradMag m (mkThreadData N R C D 0 lt ht 0) pixels i j) ∧
    (∀ i j, i < R → j < C → (cannyGradient m N pixels R C D lt ht).G.getD (i * C + j) 0 ≤
      (cannyGradient m N pixels R C D lt ht).largestG) ∧
    (∀ order : List Nat, order.Perm (List.range N) →
      (borderFixup R C (runWorkersIn order (mkThreadData N R C D 0 lt ht)
        (cannyPhase1Worker m pixels) (cannyInit R C))).largestG =
      (cannyGradient m N pixels R C D lt ht).largestG) := by
  have _h := hN16
  have hinit : BufOK R C (cannyInit R C) := by simp [BufOK, cannyInit]
  have hfixL : ∀ s : CannyState, (borderFixup R C s).largestG = s.largestG := by
    intro s
    unfold borderFixup fixupCols fixupRows
    apply forRange_inv (fun t : CannyState => t.largestG = s.largestG) 0 R
    · intro j t _ _ ht
      exact ht
    · apply forRange_inv (fun t : CannyState => t.largestG = s.largestG) 1 (C - 1)
      · intro j t _ _ ht
        exact ht
      · rfl
  have hg : cannyGradient m N pixels R C D lt ht =
      borderFixup R C (cannyPhase1 m N pixels R C D lt ht) := rfl
  have hL : (cannyGradient m N pixels R C D lt ht).largestG =
      max 0 (forRange 1 (R - 1) (fun i acc => forRange 1 (C - 1) (fun j acc2 =>
          cannyPhase1Pixel m pixels (mkThreadData N R C D 0 lt ht 0) i j acc2) acc)
          (cannyInit R C, 0)).2 := by
    rw [hg, hfixL, cannyPhase1_eq m N (by omega)]
  obtain ⟨hmax, hatt⟩ := cannyPhase1_local_max m pixels (mkThreadData N R C D 0 lt ht 0) R C rfl
    1 (R - 1) le_rfl le_rfl (cannyInit R C) hinit
  have ha : ∀ i j, Interior R C i j → gradMag m (mkThreadData N R C D 0 lt ht 0) pixels i j ≤
      (cannyGradient m N pixels R C D lt ht).largestG := by
    intro i j hint
    rw [hL]
    exact le_max_of_le_right (hmax i j hint.1 hint.2.1 hint.2.2.1 hint.2.2.2)
  refine ⟨ha, ?_, ?_, ?_⟩
  · rcases hatt with h0 | ⟨i, j, hint, hij⟩
    · refine ⟨1, 1, ⟨le_rfl, by omega, le_rfl, by omega⟩, ?_⟩
      have h1 := hmax 1 1 le_rfl (by omega) le_rfl (by omega)
      rw [h0] at h1
      rw [hL, h0, max_self]
      exact le_antisymm (hsqrt _) h1
    · refine ⟨i, j, hint, ?_⟩
      rw [hL, hij]
      exact max_eq_right (hsqrt _)
  · intro i j hi hj
    rw [cannyGradient_getD m N hN1 pixels R C D hR hC lt ht i j hi hj]
    exact ha _ _ (clampI_interior R C i j hR hC)
  · intro order hperm
    rw [hfixL, hg, hfixL]
    have e1 := (phase1_runWorkersIn_largestG m pixels N R C D 0 lt ht order (cannyInit R C)
      hinit).2
    have e2 := (phase1_runWorkersIn_largestG m pixels N R C D 0 lt ht (List.range N)
      (cannyInit R C) hinit).2
    have e3 : cannyPhase1 m N pixels R C D lt ht =
        runWorkersIn (List.range N) (mkThreadData N R C D 0 lt ht)
          (cannyPhase1Worker m pixels) (cannyInit R C) := rfl
    rw [e3, e1, e2]
    exact foldl_max_perm _ _ _ hperm _

/-- Witness of C14: a 3x6 image with two workers. -/
theorem global_maximum_is_interior_maximum_witness :
    (∀ i j, Interior 3 6 i j →
      gradMag libmAxis (mkThreadData 2 3 6 1 0 (1 / 4) (1 / 2) 0) rampImage i j ≤
      (cannyGradient libmAxis 2 rampImage 3 6 1 (1 / 4) (1 / 2)).largestG) ∧
    (∃ i j, Interior 3 6 i j ∧ (cannyGradient libmAxis 2 rampImage 3 6 1 (1 / 4) (1 / 2)).largestG =
      gradMag libmAxis (mkThreadData 2 3 6 1 0 (1 / 4) (1 / 2) 0) rampImage i j) ∧
    (∀ i j, i < 3 → j < 6 →
      (cannyGradient libmAxis 2 rampImage 3 6 1 (1 / 4) (1 / 2)).G.getD (i * 6 + j) 0 ≤
      (cannyGradient libmAxis 2 rampImage 3 6 1 (1 / 4) (1 / 2)).largestG) ∧
    (∀ order : List Nat, order.Perm (List.range 2) →
      (borderFixup 3 6 (runWorkersIn order (mkThreadData 2 3 6 1 0 (1 / 4) (1 / 2))
        (cannyPhase1Worker libmAxis rampImage) (cannyInit 3 6))).largestG =
      (cannyGradient libmAxis 2 rampImage 3 6 1 (1 / 4) (1 / 2)).largestG) :=
  global_maximum_is_interior_maximum libmAxis libmAxis_sqrt_nonneg 2 (by decide) (by decide)
    rampImage 3 6 1 (by decide) (by decide) (1 / 4) (1 / 2)

/-! ## Hysteresis: the sweep count is bounded by the number of interior pixels -/

theorem hystPixel_flag (C : Nat) (lt ht : ℚ) (i j : Nat) (st : CannyState × Bool)
    (hlen : i * C + j < st.1.G.length) (h : (hystPixel C lt ht i j st).2 = true) :
    st.2 = true ∨ (¬ fmul ht st.1.largestG ≤ st.1.G.getD (i * C + j) 0 ∧
      (hystPixel C lt ht i j st).1.G.getD (i * C + j) 0 = fmul ht st.1.largestG) := by
  unfold hystPixel at h ⊢
  by_cases h1 : st.1.G.getD (i * C + j) 0 < fmul lt st.1.largestG
  · rw [if_pos h1] at h
    exact Or.inl h
  · rw [if_neg h1] at h ⊢
    by_cases h2 : st.1.G.getD (i * C + j) 0 ≥ fmul ht st.1.largestG
    · rw [if_pos h2] at h
      exact Or.inl h
    · rw [if_neg h2] at h ⊢
      by_cases h3 : strongNeighbour C (st.1.G.set (i * C + j) 0)
          (fmul ht st.1.largestG) i j = true
      · rw [if_pos h3]
        refine Or.inr ⟨h2, ?_⟩
        have hlen2 : i * C + j < (st.1.G.set (i * C + j) 0).length := by
          rw [List.length_set]; exact hlen
        exact getD_set_eq _ _ _ _ hlen2
      · rw [if_neg h3] at h
        exact Or.inl h

theorem hystSweep_new_strong (R C : Nat) (L lt ht : ℚ) (hle : fmul lt L ≤ fmul ht L)
    (s : CannyState) (h : HystOK R C L s) :
    (∀ i j, Interior R C i j → fmul ht L ≤ s.G.getD (i * C + j) 0 →
      (hystSweep R C lt ht s).1.G.getD (i * C + j) 0 = s.G.getD (i * C + j) 0) ∧
    ((hystSweep R C lt ht s).2 = true → ∃ i j, Interior R C i j ∧
      ¬ fmul ht L ≤ s.G.getD (i * C + j) 0 ∧
      fmul ht L ≤ (hystSweep R C lt ht s).1.G.getD (i * C + j) 0) := by
  have key := hystSweep_inv R C lt ht
    (fun st => HystOK R C L st.1 ∧
      (∀ i j, Interior R C i j → fmul ht L ≤ s.G.getD (i * C + j) 0 →
        st.1.G.getD (i * C + j) 0 = s.G.getD (i * C + j) 0) ∧
      (st.2 = true → ∃ i j, Interior R C i j ∧ ¬ fmul ht L ≤ s.G.getD (i * C + j) 0 ∧
        fmul ht L ≤ st.1.G.getD (i * C + j) 0))
    (fun i j st hint hst => by
      obtain ⟨hok, hkeep, hflag⟩ := hst
      refine ⟨hystPixel_ok R C L lt ht i j st hok, ?_, ?_⟩
      · intro i0 j0 h0 hs0
        exact (hystPixel_keeps_strong R C L lt ht hle i0 j0 _ _ hs0 i j st
          ⟨hok, hkeep i0 j0 h0 hs0, rfl⟩).2.1
      · intro hf
        have hlen : i * C + j < st.1.G.length := by
          rw [hok.1]; exact interior_idx_lt R C i j hint
        rcases hystPixel_flag C lt ht i j st hlen hf with hold | ⟨hn, hnew⟩
        · obtain ⟨i1, j1, hint1, hn1, hs1⟩ := hflag hold
          refine ⟨i1, j1, hint1, hn1, ?_⟩
          rw [(hystPixel_keeps_strong R C L lt ht hle i1 j1 _ _ hs1 i j st
            ⟨hok, rfl, rfl⟩).2.1]
          exact hs1
        · rw [hok.2.2] at hn hnew
          refine ⟨i, j, hint, ?_, ?_⟩
          · intro hs0
            apply hn
            rw [hkeep i j hint hs0]
            exact hs0
          · rw [hnew])
    s ⟨h, fun _ _ _ _ => rfl, fun hf => by simp at hf⟩
  exact ⟨key.2.1, key.2.2⟩

theorem strongInteriorCount_le (R C : Nat) (hi : ℚ) (G : List ℚ) :
    strongInteriorCount R C hi G ≤ (R - 2) * (C - 2) := by
  unfold strongInteriorCount
  refine le_trans (Finset.card_filter_le _ _) ?_
  rw [Finset.card_product, Nat.card_Ico, Nat.card_Ico]
  have e1 : R - 1 - 1 = R - 2 := by omega
  have e2 : C - 1 - 1 = C - 2 := by omega
  rw [e1, e2]

theorem hystSweep_strongInteriorCount (R C : Nat) (L lt ht : ℚ)
    (hle : fmul lt L ≤ fmul ht L) (s : CannyState) (h : HystOK R C L s) :
    strongInteriorCount R C (fmul ht L) s.G ≤
      strongInteriorCount R C (fmul ht L) (hystSweep R C lt ht s).1.G ∧
    ((hystSweep R C lt ht s).2 = true →
      strongInteriorCount R C (fmul ht L) s.G <
        strongInteriorCount R C (fmul ht L) (hystSweep R C lt ht s).1.G) := by
  obtain ⟨hkeep, hnew⟩ := hystSweep_new_strong R C L lt ht hle s h
  have hsub : (Finset.Ico 1 (R - 1) ×ˢ Finset.Ico 1 (C - 1)).filter
      (fun p => fmul ht L ≤ s.G.getD (p.1 * C + p.2) 0) ⊆
      (Finset.Ico 1 (R - 1) ×ˢ Finset.Ico 1 (C - 1)).filter
      (fun p => fmul ht L ≤ (hystSweep R C lt ht s).1.G.getD (p.1 * C + p.2) 0) := by
    intro p hp
    rw [Finset.mem_filter, Finset.mem_product, Finset.mem_Ico, Finset.mem_Ico] at hp ⊢
    refine ⟨hp.1, ?_⟩
    rw [hkeep p.1 p.2 ⟨hp.1.1.1, hp.1.1.2, hp.1.2.1, hp.1.2.2⟩ hp.2]
    exact hp.2
  unfold strongInteriorCount
  refine ⟨Finset.card_le_card hsub, ?_⟩
  intro hf
  obtain ⟨i, j, hint, hn, hs⟩ := hnew hf
  apply Finset.card_lt_card
  rw [Finset.ssubset_iff_of_subset hsub]
  refine ⟨(i, j), ?_, ?_⟩
  · rw [Finset.mem_filter, Finset.mem_product, Finset.mem_Ico, Finset.mem_Ico]
    exact ⟨⟨⟨hint.1, hint.2.1⟩, ⟨hint.2.2.1, hint.2.2.2⟩⟩, hs⟩
  · rw [Finset.mem_filter]
    exact fun hp => hn hp.2

theorem hystLoop_interior_bound (R C : Nat) (L lt ht : ℚ) (hle : fmul lt L ≤ fmul ht L)
    (fuel : Nat) (s : CannyState) (h : HystOK R C L s)
    (hf : (R - 2) * (C - 2) + 1 ≤ fuel + strongInteriorCount R C (fmul ht L) s.G) :
    ∃ n, n < fuel ∧ hystLoop R C lt ht fuel s = some (hystSweeps R C lt ht (n + 1) s) ∧
      (hystSweep R C lt ht (hystSweeps R C lt ht n s)).2 = false ∧
      ∀ k, k < n → (hystSweep R C lt ht (hystSweeps R C lt ht k s)).2 = true := by
  induction fuel generalizing s with
  | zero =>
    have := strongInteriorCount_le R C (fmul ht L) s.G
    omega
  | succ fuel ih =>
    rw [hystLoop]
    by_cases hc : (hystSweep R C lt ht s).2 = true
    · rw [if_pos hc]
      have hlt := (hystSweep_strongInteriorCount R C L lt ht hle s h).2 hc
      obtain ⟨n, hn, hrun, hlast, hprev⟩ := ih (hystSweep R C lt ht s).1
        (hystSweep_ok R C L lt ht s h) (by omega)
      refine ⟨n + 1, by omega, hrun, hlast, ?_⟩
      intro k hk
      cases k with
      | zero => exact hc
      | succ k => exact hprev k (by omega)
    · rw [if_neg hc]
      refine ⟨0, by omega, rfl, by simpa using hc, ?_⟩
      intro k hk
      omega

/-- C20: for every image size, every magnitude array of `rows * cols` entries and thresholds
with `0 ≤ lowerThreshold < higherThreshold ≤ 1` (and `largestG ≥ 0`), every sweep of the
hysteresis loop that sets the change flag strictly increases the number of interior pixels
with magnitude `≥ hi = higherThreshold * largestG`, and the loop exits after `n + 1` sweeps
for some `n + 1 ≤ (rows - 2) * (cols - 2) + 1`: the first `n` sweeps set the flag and sweep
`n + 1` does not. -/
theorem hysteresis_sweeps_bounded_by_interior (R C : Nat) (hR : 3 ≤ R) (hC : 3 ≤ C)
    (lt ht : ℚ) (h0 : 0 ≤ lt) (hlt : lt < ht) (h1 : ht ≤ 1) (s : CannyState)
    (hG : s.G.length = R * C) (hO : s.pixelsCanny.length = R * C) (hnn : NonnegG s)
    (hL : 0 ≤ s.largestG) :
    (∀ k, (hystSweep R C lt ht (hystSweeps R C lt ht k s)).2 = true →
      strongInteriorCount R C (fmul ht s.largestG) (hystSweeps R C lt ht k s).G <
        strongInteriorCount R C (fmul ht s.largestG) (hystSweeps R C lt ht (k + 1) s).G) ∧
    (∃ n, n + 1 ≤ (R - 2) * (C - 2) + 1 ∧
      hystLoop R C lt ht ((R - 2) * (C - 2) + 1) s = some (hystSweeps R C lt ht (n + 1) s) ∧
      (hystSweep R C lt ht (hystSweeps R C lt ht n s)).2 = false ∧
      ∀ k, k < n → (hystSweep R C lt ht (hystSweeps R C lt ht k s)).2 = true) := by
  have _h1 := h1
  have _h2 := hnn
  have _h3 := hR
  have _h4 := hC
  have hle := thresholds_le lt ht s.largestG h0 hlt.le hL
  have hok : HystOK R C s.largestG s := ⟨hG, hO, rfl⟩
  constructor
  · intro k hk
    have hokk : HystOK R C s.largestG (hystSweeps R C lt ht k s) :=
      hystSweeps_inv R C lt ht _ (fun t ht' => hystSweep_ok R C _ lt ht t ht') k s hok
    rw [hystSweeps_succ_right]
    exact (hystSweep_strongInteriorCount R C s.largestG lt ht hle _ hokk).2 hk
  · obtain ⟨n, hn, hrun, hlast, hprev⟩ := hystLoop_interior_bound R C s.largestG lt ht hle
      ((R - 2) * (C - 2) + 1) s hok (by omega)
    exact ⟨n, by omega, hrun, hlast, hprev⟩

/-- Witness of C20: a 3x5 state with interior magnitudes `1, 2, 4` and thresholds
`1/4 < 1/2`. -/
theorem hysteresis_sweeps_bounded_by_interior_witness :
    (∀ k, (hystSweep 3 5 (1 / 4) (1 / 2) (hystSweeps 3 5 (1 / 4) (1 / 2) k hystEntryExample)).2
        = true →
      strongInteriorCount 3 5 (fmul (1 / 2) hystEntryExample.largestG)
          (hystSweeps 3 5 (1 / 4) (1 / 2) k hystEntryExample).G <
        strongInteriorCount 3 5 (fmul (1 / 2) hystEntryExample.largestG)
          (hystSweeps 3 5 (1 / 4) (1 / 2) (k + 1) hystEntryExample).G) ∧
    (∃ n, n + 1 ≤ (3 - 2) * (5 - 2) + 1 ∧
      hystLoop 3 5 (1 / 4) (1 / 2) ((3 - 2) * (5 - 2) + 1) hystEntryExample =
        some (hystSweeps 3 5 (1 / 4) (1 / 2) (n + 1) hystEntryExample) ∧
      (hystSweep 3 5 (1 / 4) (1 / 2) (hystSweeps 3 5 (1 / 4) (1 / 2) n hystEntryExample)).2
        = false ∧
      ∀ k, k < n →
        (hystSweep 3 5 (1 / 4) (1 / 2) (hystSweeps 3 5 (1 / 4) (1 / 2) k hystEntryExample)).2
          = true) :=
  hysteresis_sweeps_bounded_by_interior 3 5 (by decide) (by decide) (1 / 4) (1 / 2)
    (by norm_num) (by norm_num) (by norm_num) hystEntryExample rfl rfl
    (fun k => by
      by_cases hk : k < 15
      · interval_cases k <;> simp [hystEntryExample]
      · rw [List.getD_eq_default _ _ (by simp [hystEntryExample]; omega)])
    (by simp [hystEntryExample])

/-! ## Hysteresis: no weak pixel survives a sweep -/

theorem hystSweeps_ok (R C : Nat) (L lt ht : ℚ) (n : Nat) (s : CannyState)
    (h : HystOK R C L s) : HystOK R C L (hystSweeps R C lt ht n s) :=
  hystSweeps_inv R C lt ht _ (fun t ht' => hystSweep_ok R C L lt ht t ht') n s h

theorem hystSweeps_stay_zero (R C : Nat) (L lt ht : ℚ) (i j : Nat) (hint : Interior R C i j)
    (hlo : 0 < fmul lt L) (s : CannyState) (hok : HystOK R C L s)
    (hz : s.G.getD (i * C + j) 0 = 0) (n : Nat) :
    (hystSweeps R C lt ht n s).G.getD (i * C + j) 0 = 0 :=
  (hystSweeps_inv R C lt ht (fun t => HystOK R C L t ∧ t.G.getD (i * C + j) 0 = 0)
    (fun t ht' => by
      obtain ⟨a, b, _⟩ := hystSweep_zeroes_low R C L lt ht i j hint hlo t
        ⟨ht'.1, by rw [ht'.2]; exact hlo⟩
      exact ⟨a, b⟩) n s ⟨hok, hz⟩).2

/-- C25: with `0 ≤ lowerThreshold < higherThreshold ≤ 1`, after every completed sweep of the
hysteresis loop, and in the state in which `cannyFilter_parallel` leaves the loop, every
interior pixel has magnitude 0 or `≥ hi = higherThreshold * largestG`.  When
`lo = lowerThreshold * largestG > 0`, an interior pixel that is below `hi` after the first
sweep (a weak pixel that the first sweep did not promote) has magnitude 0 after every later
sweep and when the loop exits. -/
theorem no_weak_pixel_survives_sweep (m : Libm) (N : Nat) (hN1 : 1 ≤ N) (hN16 : N ≤ 16)
    (pixels : List Int) (R C D : Nat) (hR : 3 ≤ R) (hC : 3 ≤ C) (lt ht : ℚ) (h0 : 0 ≤ lt)
    (hlt : lt < ht) (h1 : ht ≤ 1) :
    (∀ n i j, Interior R C i j →
      (hystSweeps R C lt ht (n + 1) (cannySuppressed m N pixels R C D lt ht)).G.getD
          (i * C + j) 0 = 0 ∨
        fmul ht (cannySuppressed m N pixels R C D lt ht).largestG ≤
          (hystSweeps R C lt ht (n + 1) (cannySuppressed m N pixels R C D lt ht)).G.getD
            (i * C + j) 0) ∧
    (∃ s', cannyFinal m N pixels R C D lt ht = some s' ∧
      (∀ i j, Interior R C i j → s'.G.getD (i * C + j) 0 = 0 ∨
        fmul ht (cannySuppressed m N pixels R C D lt ht).largestG ≤ s'.G.getD (i * C + j) 0) ∧
      (0 < fmul lt (cannySuppressed m N pixels R C D lt ht).largestG →
        ∀ i j, Interior R C i j →
          (hystSweeps R C lt ht 1 (cannySuppressed m N pixels R C D lt ht)).G.getD
              (i * C + j) 0 < fmul ht (cannySuppressed m N pixels R C D lt ht).largestG →
          (∀ n, (hystSweeps R C lt ht (n + 1)
            (cannySuppressed m N pixels R C D lt ht)).G.getD (i * C + j) 0 = 0) ∧
          s'.G.getD (i * C + j) 0 = 0)) := by
  have _h := And.intro hN16 (And.intro h1 (And.intro hR hC))
  obtain ⟨g1, _, _⟩ := cannySuppressed_good m N (by omega) pixels R C D lt ht
  have hall : ∀ n i j, Interior R C i j →
      (hystSweeps R C lt ht (n + 1) (cannySuppressed m N pixels R C D lt ht)).G.getD
          (i * C + j) 0 = 0 ∨
        fmul ht (cannySuppressed m N pixels R C D lt ht).largestG ≤
          (hystSweeps R C lt ht (n + 1) (cannySuppressed m N pixels R C D lt ht)).G.getD
            (i * C + j) 0 := by
    intro n i j hint
    rw [hystSweeps_succ_right]
    rcases hystSweep_zero_or_strong R C _ lt ht i j hint _
      (hystSweeps_ok R C _ lt ht n _ g1) with h | h
    · exact Or.inl h.1
    · exact Or.inr h
  have hlater : 0 < fmul lt (cannySuppressed m N pixels R C D lt ht).largestG →
      ∀ i j, Interior R C i j →
        (hystSweeps R C lt ht 1 (cannySuppressed m N pixels R C D lt ht)).G.getD
            (i * C + j) 0 < fmul ht (cannySuppressed m N pixels R C D lt ht).largestG →
        ∀ n, (hystSweeps R C lt ht (n + 1)
          (cannySuppressed m N pixels R C D lt ht)).G.getD (i * C + j) 0 = 0 := by
    intro hlo i j hint hnot n
    have hz : (hystSweeps R C lt ht 1 (cannySuppressed m N pixels R C D lt ht)).G.getD
        (i * C + j) 0 = 0 := by
      rcases hall 0 i j hint with h | h
      · exact h
      · exact absurd h (not_le.2 hnot)
    exact hystSweeps_stay_zero R C _ lt ht i j hint hlo _
      (hystSweep_ok R C _ lt ht _ g1) hz n
  obtain ⟨s', hs', _⟩ := cannyFinal_returns m N (by omega) pixels R C D lt ht h0 hlt.le
  obtain ⟨n, _, _, h3⟩ := hystLoop_exit R C lt ht _ _ _ hs'
  refine ⟨hall, s', hs', ?_, ?_⟩
  · intro i j hint
    rw [h3]
    exact hall n i j hint
  · intro hlo i j hint hnot
    refine ⟨hlater hlo i j hint hnot, ?_⟩
    rw [h3]
    exact hlater hlo i j hint hnot n

/-- Witness of C25: the 3x5 image `chainImage` with thresholds `1/4 < 1/2`. -/
theorem no_weak_pixel_survives_sweep_witness :
    (∀ n i j, Interior 3 5 i j →
      (hystSweeps 3 5 (1 / 4) (1 / 2) (n + 1)
        (cannySuppressed libmAxis 1 chainImage 3 5 1 (1 / 4) (1 / 2))).G.getD (i * 5 + j) 0 = 0 ∨
        fmul (1 / 2) (cannySuppressed libmAxis 1 chainImage 3 5 1 (1 / 4) (1 / 2)).largestG ≤
          (hystSweeps 3 5 (1 / 4) (1 / 2) (n + 1)
            (cannySuppressed libmAxis 1 chainImage 3 5 1 (1 / 4) (1 / 2))).G.getD
            (i * 5 + j) 0) ∧
    (∃ s', cannyFinal libmAxis 1 chainImage 3 5 1 (1 / 4) (1 / 2) = some s' ∧
      (∀ i j, Interior 3 5 i j → s'.G.getD (i * 5 + j) 0 = 0 ∨
        fmul (1 / 2) (cannySuppressed libmAxis 1 chainImage 3 5 1 (1 / 4) (1 / 2)).largestG ≤
          s'.G.getD (i * 5 + j) 0) ∧
      (0 < fmul (1 / 4) (cannySuppressed libmAxis 1 chainImage 3 5 1 (1 / 4) (1 / 2)).largestG →
        ∀ i j, Interior 3 5 i j →
          (hystSweeps 3 5 (1 / 4) (1 / 2) 1
            (cannySuppressed libmAxis 1 chainImage 3 5 1 (1 / 4) (1 / 2))).G.getD
              (i * 5 + j) 0 <
            fmul (1 / 2) (cannySuppressed libmAxis 1 chainImage 3 5 1 (1 / 4) (1 / 2)).largestG →
          (∀ n, (hystSweeps 3 5 (1 / 4) (1 / 2) (n + 1)
            (cannySuppressed libmAxis 1 chainImage 3 5 1 (1 / 4) (1 / 2))).G.getD
              (i * 5 + j) 0 = 0) ∧
          s'.G.getD (i * 5 + j) 0 = 0)) :=
  no_weak_pixel_survives_sweep libmAxis 1 (by decide) (by decide) chainImage 3 5 1 (by decide)
    (by decide) (1 / 4) (1 / 2) (by norm_num) (by norm_num) (by norm_num)

/-! ## Hysteresis: the exit state is a fixed point of the sweep -/

theorem set_getD_self {α : Type} (l : List α) (i : Nat) (d : α) (h : i < l.length) :
    l.set i (l.getD i d) = l := by
  induction l generalizing i with
  | nil => rfl
  | cons x xs ih =>
    cases i with
    | zero => rfl
    | succ i =>
      simp only [List.set_cons_succ, List.getD_cons_succ]
      rw [ih i (by simpa using h)]

theorem hystPixel_flag_mono (C : Nat) (lt ht : ℚ) (i j : Nat) (st : CannyState × Bool)
    (h : st.2 = true) : (hystPixel C lt ht i j st).2 = true := by
  unfold hystPixel
  split_ifs <;> simp [h]

theorem hystPixel_nonneg (C : Nat) (lt ht : ℚ) (i j : Nat) (st : CannyState × Bool)
    (hhi : 0 ≤ fmul ht st.1.largestG) (h : NonnegG st.1) :
    NonnegG (hystPixel C lt ht i j st).1 := by
  unfold hystPixel
  split_ifs
  · exact fun k => getD_set_nonneg _ _ 0 le_rfl h k
  · exact h
  · exact fun k => getD_set_nonneg _ _ _ hhi (fun k2 => getD_set_nonneg _ _ 0 le_rfl h k2) k
  · exact fun k => getD_set_nonneg _ _ 0 le_rfl h k

theorem hystPixel_at_cases (C : Nat) (lt ht : ℚ) (i j : Nat) (st : CannyState × Bool)
    (hlen : i * C + j < st.1.G.length) :
    (hystPixel C lt ht i j st).1.G.getD (i * C + j) 0 = st.1.G.getD (i * C + j) 0 ∨
      (hystPixel C lt ht i j st).1.G.getD (i * C + j) 0 = 0 ∨
      (hystPixel C lt ht i j st).2 = true := by
  unfold hystPixel
  split_ifs
  · exact Or.inr (Or.inl (getD_set_eq _ _ _ _ hlen))
  · exact Or.inl rfl
  · exact Or.inr (Or.inr rfl)
  · exact Or.inr (Or.inl (getD_set_eq _ _ _ _ hlen))

theorem hystPixel_settles (R C : Nat) (L lt ht : ℚ) (i j : Nat) (hint : Interior R C i j)
    (st : CannyState × Bool) (hok : HystOK R C L st.1) (hnn : NonnegG st.1) :
    (hystPixel C lt ht i j st).2 = true ∨
      HystSettled C (fmul lt L) (fmul ht L) L (hystPixel C lt ht i j st).1 i j := by
  have hlen := interior_idx_lt R C i j hint
  have hlenG : i * C + j < st.1.G.length := by rw [hok.1]; exact hlen
  have hlenO : i * C + j < st.1.pixelsCanny.length := by rw [hok.2.1]; exact hlen
  have hL := hok.2.2
  by_cases h1 : st.1.G.getD (i * C + j) 0 < fmul lt st.1.largestG
  · obtain ⟨a, b, _⟩ := hystPixel_low C lt ht i j st none hlenG hlenO h1
    rw [hL] at b h1
    exact Or.inr (Or.inr ⟨a, b, Or.inl (lt_of_le_of_lt (hnn _) h1)⟩)
  · by_cases h2 : fmul ht st.1.largestG ≤ st.1.G.getD (i * C + j) 0
    · rw [hystPixel_strong C lt ht i j st h1 h2]
      rw [hL] at h1 h2
      exact Or.inr (Or.inl ⟨h1, h2⟩)
    · obtain ⟨w1, w2⟩ := hystPixel_weak C lt ht i j st none hint.1 hint.2.2.1
        (by have := hint.2.2.2; omega) hlenG hlenO h1 h2
      by_cases h3 : strongNeighbour C st.1.G (fmul ht st.1.largestG) i j = true
      · exact Or.inl (w1 h3).2.2
      · have h3f : strongNeighbour C st.1.G (fmul ht st.1.largestG) i j = false := by
          simpa using h3
        obtain ⟨a, b, _⟩ := w2 h3f
        rw [hL] at b h2 h3f
        refine Or.inr (Or.inr ⟨a, b, Or.inr ⟨?_, ?_⟩⟩)
        · exact fun h0 => h2 (le_trans h0 (hnn _))
        · have hG : (hystPixel C lt ht i j st).1.G = st.1.G.set (i * C + j) 0 := by
            unfold hystPixel
            rw [if_neg h1, hL, if_neg h2, strongNeighbour_set C _ _ _ i j hint.1 hint.2.2.1
              (by have := hint.2.2.2; omega), h3f]
            simp
          rw [hG, strongNeighbour_set C _ _ _ i j hint.1 hint.2.2.1
            (by have := hint.2.2.2; omega)]
          exact h3f

theorem hystPixel_settled_other (R C : Nat) (L lt ht : ℚ) (i0 j0 i j : Nat)
    (h0 : Interior R C i0 j0) (hint : Interior R C i j) (hne : i ≠ i0 ∨ j ≠ j0)
    (st : CannyState × Bool) (hok : HystOK R C L st.1)
    (h : st.2 = true ∨ HystSettled C (fmul lt L) (fmul ht L) L st.1 i0 j0) :
    (hystPixel C lt ht i j st).2 = true ∨
      HystSettled C (fmul lt L) (fmul ht L) L (hystPixel C lt ht i j st).1 i0 j0 := by
  rcases h with hf | hs
  · exact Or.inl (hystPixel_flag_mono C lt ht i j st hf)
  have hk : i * C + j ≠ i0 * C + j0 := interior_idx_ne R C i j i0 j0 hint h0 hne
  have hlenG : i * C + j < st.1.G.length := by rw [hok.1]; exact interior_idx_lt R C i j hint
  unfold HystSettled at hs ⊢
  rw [hystPixel_G_ne C lt ht i j _ st hk, hystPixel_out_ne C lt ht i j _ st none hk]
  rcases hs with hs | ⟨a, b, c⟩
  · exact Or.inr (Or.inl hs)
  rcases c with c | ⟨c1, c2⟩
  · exact Or.inr (Or.inr ⟨a, b, Or.inl c⟩)
  rcases hystPixel_at_cases C lt ht i j st hlenG with e | e | e
  · refine Or.inr (Or.inr ⟨a, b, Or.inr ⟨c1, ?_⟩⟩)
    rw [Bool.eq_false_iff] at c2 ⊢
    intro hs
    apply c2
    rw [strongNeighbour_iff C _ _ i0 j0 h0.1 h0.2.2.1] at hs ⊢
    obtain ⟨x, y, hadj, hg⟩ := hs
    refine ⟨x, y, hadj, ?_⟩
    by_cases hxy : i * C + j = x * C + y
    · rw [← hxy] at hg ⊢
      rw [e] at hg
      exact hg
    · rw [hystPixel_G_ne C lt ht i j _ st hxy] at hg
      exact hg
  · refine Or.inr (Or.inr ⟨a, b, Or.inr ⟨c1, ?_⟩⟩)
    rw [Bool.eq_false_iff] at c2 ⊢
    intro hs
    apply c2
    rw [strongNeighbour_iff C _ _ i0 j0 h0.1 h0.2.2.1] at hs ⊢
    obtain ⟨x, y, hadj, hg⟩ := hs
    refine ⟨x, y, hadj, ?_⟩
    by_cases hxy : i * C + j = x * C + y
    · rw [← hxy] at hg
      rw [e] at hg
      exact absurd hg c1
    · rw [hystPixel_G_ne C lt ht i j _ st hxy] at hg
      exact hg
  · exact Or.inl e

theorem hystSweep_settled (R C : Nat) (L lt ht : ℚ) (hhi : 0 ≤ fmul ht L)
    (i0 j0 : Nat) (h0 : Interior R C i0 j0) (s : CannyState) (hok : HystOK R C L s)
    (hnn : NonnegG s) :
    (hystSweep R C lt ht s).2 = true ∨
      HystSettled C (fmul lt L) (fmul ht L) L (hystSweep R C lt ht s).1 i0 j0 := by
  have key := hystSweep_visit R C lt ht i0 j0 h0
    (fun st => HystOK R C L st.1 ∧ NonnegG st.1)
    (fun st => HystOK R C L st.1 ∧
      (st.2 = true ∨ HystSettled C (fmul lt L) (fmul ht L) L st.1 i0 j0))
    (fun i j st _ _ hst => ⟨hystPixel_ok R C L lt ht i j st hst.1,
      hystPixel_nonneg C lt ht i j st (by rw [hst.1.2.2]; exact hhi) hst.2⟩)
    (fun st hst => ⟨hystPixel_ok R C L lt ht i0 j0 st hst.1,
      hystPixel_settles R C L lt ht i0 j0 h0 st hst.1 hst.2⟩)
    (fun i j st hint hne hst => ⟨hystPixel_ok R C L lt ht i j st hst.1,
      hystPixel_settled_other R C L lt ht i0 j0 i j h0 hint hne st hst.1 hst.2⟩)
    s ⟨hok, hnn⟩
  exact key.2

theorem hystPixel_settled_fix (R C : Nat) (L lt ht : ℚ) (i j : Nat) (hint : Interior R C i j)
    (s : CannyState) (hok : HystOK R C L s)
    (h : HystSettled C (fmul lt L) (fmul ht L) L s i j) :
    hystPixel C lt ht i j (s, false) = (s, false) := by
  have hlen := interior_idx_lt R C i j hint
  have hlenG : i * C + j < s.G.length := by rw [hok.1]; exact hlen
  have hlenO : i * C + j < s.pixelsCanny.length := by rw [hok.2.1]; exact hlen
  have hL : s.largestG = L := hok.2.2
  have hzero : ∀ (G0 : ℚ) (o0 : Option Int), s.G.getD (i * C + j) 0 = G0 →
      s.pixelsCanny.getD (i * C + j) none = o0 →
      ({ s with G := s.G.set (i * C + j) G0,
                pixelsCanny := s.pixelsCanny.set (i * C + j) o0 } : CannyState) = s := by
    intro G0 o0 e1 e2
    apply CannyState.ext
    · show s.pixelsCanny.set (i * C + j) o0 = s.pixelsCanny
      rw [← e2]
      exact set_getD_self _ _ _ hlenO
    · show s.G.set (i * C + j) G0 = s.G
      rw [← e1]
      exact set_getD_self _ _ _ hlenG
    · rfl
    · rfl
  rcases h with ⟨a, b⟩ | ⟨a, b, c⟩
  · exact hystPixel_strong C lt ht i j (s, false) (by rw [hL]; exact a) (by rw [hL]; exact b)
  · by_cases hlo : 0 < fmul lt L
    · unfold hystPixel
      rw [if_pos (by show s.G.getD (i * C + j) 0 < fmul lt s.largestG; rw [a, hL]; exact hlo)]
      simp only [getD_set_eq _ _ _ _ hlenG]
      rw [hzero 0 (toPixel 0 s.largestG) a (by rw [b, hL])]
    · rcases c with c | ⟨c1, c2⟩
      · exact absurd c hlo
      · unfold hystPixel
        rw [if_neg (by show ¬ s.G.getD (i * C + j) 0 < fmul lt s.largestG; rw [a, hL]; exact hlo),
          if_neg (by show ¬ s.G.getD (i * C + j) 0 ≥ fmul ht s.largestG; rw [a, hL]; exact c1)]
        have hsn : strongNeighbour C ((s, false).1.G.set (i * C + j) 0)
            (fmul ht (s, false).1.largestG) i j = false := by
          show strongNeighbour C (s.G.set (i * C + j) 0) (fmul ht s.largestG) i j = false
          rw [strongNeighbour_set C _ _ _ i j hint.1 hint.2.2.1 (by have := hint.2.2.2; omega),
            hL]
          exact c2
        rw [if_neg (by rw [hsn]; simp)]
        simp only [getD_set_eq _ _ _ _ hlenG]
        rw [hzero 0 (toPixel 0 s.largestG) a (by rw [b, hL])]

theorem hystSweep_fixed (R C : Nat) (L lt ht : ℚ) (hhi : 0 ≤ fmul ht L) (s : CannyState)
    (hok : HystOK R C L s) (hnn : NonnegG s) (hflag : (hystSweep R C lt ht s).2 = false) :
    hystSweep R C lt ht (hystSweep R C lt ht s).1 = ((hystSweep R C lt ht s).1, false) := by
  have hok2 := hystSweep_ok R C L lt ht s hok
  apply hystSweep_inv R C lt ht (fun st => st = ((hystSweep R C lt ht s).1, false))
  · intro i j st hint hst
    rw [hst]
    apply hystPixel_settled_fix R C L lt ht i j hint _ hok2
    rcases hystSweep_settled R C L lt ht hhi i j hint s hok hnn with h | h
    · rw [hflag] at h
      exact absurd h (by simp)
    · exact h
  · rfl

/-- C21: with `0 ≤ lowerThreshold < higherThreshold ≤ 1` (and a `sqrt` that returns
non-negative values), the hysteresis loop of `cannyFilter_parallel` exits, and in the state
in which it exits one more full sweep over the interior pixels changes nothing: magnitudes,
output values and every other part of the state are the same after it, and it leaves the
change flag false. -/
theorem hysteresis_exit_is_fixed_point (m : Libm) (hsqrt : ∀ x, 0 ≤ m.sqrt x) (N : Nat)
    (hN1 : 1 ≤ N) (hN16 : N ≤ 16) (pixels : List Int) (R C D : Nat) (lt ht : ℚ)
    (h0 : 0 ≤ lt) (hlt : lt < ht) (h1 : ht ≤ 1) :
    ∃ s', cannyFinal m N pixels R C D lt ht = some s' ∧
      hystSweep R C lt ht s' = (s', false) ∧
      (hystSweep R C lt ht s').1.G = s'.G ∧
      (hystSweep R C lt ht s').1.pixelsCanny = s'.pixelsCanny := by
  have _h := And.intro hN16 h1
  obtain ⟨g1, g2, g3⟩ := cannySuppressed_good m N (by omega) pixels R C D lt ht
  obtain ⟨s', hs', _⟩ := cannyFinal_returns m N (by omega) pixels R C D lt ht h0 hlt.le
  obtain ⟨n, e1, e2, _⟩ := hystLoop_exit R C lt ht _ _ _ hs'
  have hhi : 0 ≤ fmul ht (cannySuppressed m N pixels R C D lt ht).largestG :=
    fmul_nonneg _ _ (le_trans h0 hlt.le) g2
  have hokn := hystSweeps_ok R C _ lt ht n _ g1
  have hnnn : NonnegG (hystSweeps R C lt ht n (cannySuppressed m N pixels R C D lt ht)) := by
    have := hystSweeps_inv R C lt ht
      (fun t => HystOK R C (cannySuppressed m N pixels R C D lt ht).largestG t ∧ NonnegG t)
      (fun t ht' => hystSweep_inv R C lt ht
        (fun st => HystOK R C (cannySuppressed m N pixels R C D lt ht).largestG st.1 ∧
          NonnegG st.1)
        (fun i j st _ hst => ⟨hystPixel_ok R C _ lt ht i j st hst.1,
          hystPixel_nonneg C lt ht i j st (by rw [hst.1.2.2]; exact hhi) hst.2⟩) t ht')
      n _ ⟨g1, g3 hsqrt⟩
    exact this.2
  have hfix := hystSweep_fixed R C _ lt ht hhi _ hokn hnnn e2
  rw [← e1] at hfix
  refine ⟨s', hs', hfix, ?_, ?_⟩
  · rw [hfix]
  · rw [hfix]

/-- Witness of C21: the 3x5 image `chainImage` with thresholds `1/4 < 1/2`. -/
theorem hysteresis_exit_is_fixed_point_witness :
    ∃ s', cannyFinal libmAxis 1 chainImage 3 5 1 (1 / 4) (1 / 2) = some s' ∧
      hystSweep 3 5 (1 / 4) (1 / 2) s' = (s', false) ∧
      (hystSweep 3 5 (1 / 4) (1 / 2) s').1.G = s'.G ∧
      (hystSweep 3 5 (1 / 4) (1 / 2) s').1.pixelsCanny = s'.pixelsCanny :=
  hysteresis_exit_is_fixed_point libmAxis libmAxis_sqrt_nonneg 1 (by decide) (by decide)
    chainImage 3 5 1 (1 / 4) (1 / 2) (by norm_num) (by norm_num) (by norm_num)

/-! ## Scaling of the output -/

/-- C22 fails on the code: on the 3x3 image `leftEdgeImage` the interior pixel `(1,1)` ends
with magnitude 100, equal to `largestG = 100`, so `floor(m * 255 / largestG) = 255`; the code
computes `(int)(100.0 * (255.0 / 100.0))`, where `255.0 / 100.0` is rounded below `2.55` and
the product is rounded to a value below 255, and writes 254. -/
theorem scaled_output_below_floor :
    (cannyFinal libmAxis 1 leftEdgeImage 3 3 1 (1 / 4) (1 / 2)).map
      (fun s => (s.G.getD (1 * 3 + 1) 0, s.largestG, s.pixelsCanny.getD (1 * 3 + 1) none)) =
      some (100, 100, some 254) ∧
    ⌊(100 : ℚ) * 255 / 100⌋ = 255 ∧
    fdiv 255 100 < 255 / 100 ∧ fmul 100 (fdiv 255 100) < 255 ∧
    toPixel 100 100 = some 254 ∧
    cannyFilter_parallel libmAxis 1 leftEdgeImage 3 3 1 (1 / 4) (1 / 2) =
      some [some 0, some 0, some 0, some 0, some 254, some 0, some 0, some 0, some 0] := by
  refine ⟨?_, ?_, ?_, ?_, ?_, ?_⟩ <;> decide!

/-! ## Rounding error of one operation, range of the scaled output -/

theorem stepImage_gray_one :
    rgbToGrayscale_parallel 1
      (gaussianBlur_parallel 1 stepImage gaussKernel gaussKernelConst 6 3 1) 6 3 1 =
      [130, 131, 130, 83, 82, 83, 44, 44, 44, 17, 17, 17, 14, 14, 14, 10, 10, 10] := by
  decide!

theorem stepImage_gray_two :
    rgbToGrayscale_parallel 2
      (gaussianBlur_parallel 2 stepImage gaussKernel gaussKernelConst 6 3 1) 6 3 1 =
      [130, 131, 130, 83, 82, 83, 44, 44, 44, 17, 17, 17, 14, 14, 14, 10, 10, 10] := by
  decide!

/-- C1 fails on the code: on the 6x3 image `stepImage` with thresholds `0.25` and `0.5` the
pipeline run with one worker returns 127 for pixel `(3,1)`.  With two workers (rows `[0,3)`
and `[3,6)`) the blurred image and the gradient are the same, but when suppression worker 1
runs before worker 0 it compares row 3 (magnitude 120) with the unsuppressed row 2
(magnitude 262) and zeroes it, and the pipeline returns 0 for pixel `(3,1)`; when worker 0
runs first the result is that of one worker. -/
theorem pipeline_output_depends_on_worker_schedule :
    cannyEdgeDetection_parallel libmAxis 1 stepImage 6 3 1 (1 / 4) (1 / 2) =
      some [some 0, some 0, some 0, some 0, some 255, some 0, some 0, some 0, some 0,
            some 0, some 127, some 0, some 0, some 0, some 0, some 0, some 0, some 0] ∧
    cannyEdgeDetectionIn [0, 1] libmAxis 2 stepImage 6 3 1 (1 / 4) (1 / 2) =
      some [some 0, some 0, some 0, some 0, some 255, some 0, some 0, some 0, some 0,
            some 0, some 127, some 0, some 0, some 0, some 0, some 0, some 0, some 0] ∧
    cannyEdgeDetectionIn [1, 0] libmAxis 2 stepImage 6 3 1 (1 / 4) (1 / 2) =
      some [some 0, some 0, some 0, some 0, some 255, some 0, some 0, some 0, some 0,
            some 0, some 0, some 0, some 0, some 0, some 0, some 0, some 0, some 0] ∧
    (cannyGradient libmAxis 2 [130, 131, 130, 83, 82, 83, 44, 44, 44, 17, 17, 17, 14, 14, 14,
      10, 10, 10] 6 3 1 (1 / 4) (1 / 2)).G =
      [346, 346, 346, 346, 346, 346, 262, 262, 262, 120, 120, 120, 28, 28, 28, 28, 28, 28] := by
  refine ⟨?_, ?_, ?_, ?_⟩
  · unfold cannyEdgeDetection_parallel
    rw [stepImage_gray_one]
    decide!
  · unfold cannyEdgeDetectionIn
    rw [stepImage_gray_two]
    decide!
  · unfold cannyEdgeDetectionIn
    rw [stepImage_gray_two]
    decide!
  · decide!

/-! ## The loop exits and the output is written for all thresholds -/

theorem int32_eq (x : Int) (h1 : -2147483648 ≤ x) (h2 : x ≤ 2147483647) : int32 x = x := by
  unfold int32
  omega

theorem isub_eq_iadd (a b : Int) : isub a b = iadd a (-b) := by
  unfold isub iadd
  rw [sub_eq_add_neg]

theorem iadd_eq (a b : Int) (h1 : -2147483648 ≤ a + b) (h2 : a + b ≤ 2147483647) :
    iadd a b = a + b :=
  int32_eq _ h1 h2

theorem imul_eq (a b : Int) (h1 : -2147483648 ≤ a * b) (h2 : a * b ≤ 2147483647) :
    imul a b = a * b :=
  int32_eq _ h1 h2

theorem idx2_bounds (a b : Int) (R C : Nat) (ha0 : 0 ≤ a) (ha : a < R) (hb0 : 0 ≤ b)
    (hb : b < C) : 0 ≤ a * C + b ∧ a * C + b < ((R * C : Nat) : Int) := by
  have hC : (0 : Int) ≤ C := Int.natCast_nonneg C
  have h1 : 0 ≤ a * C := mul_nonneg ha0 hC
  have h2 : (a + 1) * C ≤ R * C := mul_le_mul_of_nonneg_right (by omega) hC
  push_cast
  constructor
  · omega
  · nlinarith

theorem idx3_bounds (a b k : Int) (R C D : Nat) (ha0 : 0 ≤ a) (ha : a < R) (hb0 : 0 ≤ b)
    (hb : b < C) (hk0 : 0 ≤ k) (hk : k < D) :
    0 ≤ a * C * D + b * D + k ∧ a * C * D + b * D + k < ((R * C * D : Nat) : Int) := by
  obtain ⟨h1, h2⟩ := idx2_bounds a b R C ha0 ha hb0 hb
  have hD : (0 : Int) ≤ D := Int.natCast_nonneg D
  have h3 : 0 ≤ (a * C + b) * D := mul_nonneg h1 hD
  have h4 : (a * C + b + 1) * D ≤ ((R * C : Nat) : Int) * D :=
    mul_le_mul_of_nonneg_right (by omega) hD
  push_cast at h4 ⊢
  constructor
  · nlinarith
  · nlinarith

theorem idx2_eval (R C : Nat) (hfit : R * C ≤ 2147483647) (a b : Int) (ha0 : 0 ≤ a)
    (ha : a < R) (hb0 : 0 ≤ b) (hb : b < C) : idx2 C a b = a * C + b := by
  obtain ⟨h1, h2⟩ := idx2_bounds a b R C ha0 ha hb0 hb
  have hf : ((R * C : Nat) : Int) ≤ 2147483647 := by exact_mod_cast hfit
  have h3 : 0 ≤ a * C := mul_nonneg ha0 (Int.natCast_nonneg C)
  push_cast at h2 hf
  unfold idx2
  rw [imul_eq a C (by omega) (by omega), iadd_eq (a * C) b (by omega) (by omega)]

theorem idx3_eval (R C D : Nat) (hfit : R * C * D ≤ 2147483647) (a b k : Int) (ha0 : 0 ≤ a)
    (ha : a < R) (hb0 : 0 ≤ b) (hb : b < C) (hk0 : 0 ≤ k) (hk : k < D) :
    idx3 C D a b k = a * C * D + b * D + k := by
  obtain ⟨h1, h2⟩ := idx3_bounds a b k R C D ha0 ha hb0 hb hk0 hk
  have hf : ((R * C * D : Nat) : Int) ≤ 2147483647 := by exact_mod_cast hfit
  have hC : (0 : Int) ≤ C := Int.natCast_nonneg C
  have hD : (1 : Int) ≤ D := by omega
  have h3 : 0 ≤ a * C := mul_nonneg ha0 hC
  have h4 : 0 ≤ b * D := mul_nonneg hb0 (by omega)
  have h5 : a * C ≤ a * C * D := by nlinarith
  have h6 : 0 ≤ a * C * D := by nlinarith
  push_cast at h2 hf
  unfold idx3
  rw [imul_eq a C (by omega) (by omega), imul_eq (a * C) D (by omega) (by omega),
    imul_eq b D (by omega) (by omega), iadd_eq (a * C * D) (b * D) (by omega) (by omega),
    iadd_eq (a * C * D + b * D) k (by omega) (by omega)]

theorem alloc2_eq (R C : Nat) (hfit : R * C ≤ 2147483647) :
    (imul (R : Int) (C : Int)).toNat = R * C := by
  have hf : ((R * C : Nat) : Int) ≤ 2147483647 := by exact_mod_cast hfit
  have h0 : (0 : Int) ≤ ((R * C : Nat) : Int) := Int.natCast_nonneg _
  push_cast at hf h0
  rw [imul_eq (R : Int) C (by omega) (by omega)]
  have : (R : Int) * (C : Int) = ((R * C : Nat) : Int) := by push_cast; ring
  rw [this, Int.toNat_natCast]

theorem alloc3_eq (R C D : Nat) (hD : 1 ≤ D) (hfit : R * C * D ≤ 2147483647) :
    (imul (imul (R : Int) (C : Int)) (D : Int)).toNat = R * C * D := by
  have hf : ((R * C * D : Nat) : Int) ≤ 2147483647 := by exact_mod_cast hfit
  have h0 : (0 : Int) ≤ ((R * C : Nat) : Int) := Int.natCast_nonneg _
  have hD' : (1 : Int) ≤ D := by exact_mod_cast hD
  push_cast at hf h0
  have h1 : (R : Int) * C ≤ R * C * D := by nlinarith
  rw [imul_eq (R : Int) C (by omega) (by omega),
    imul_eq ((R : Int) * C) D (by nlinarith) (by omega)]
  have : (R : Int) * (C : Int) * (D : Int) = ((R * C * D : Nat) : Int) := by push_cast; ring
  rw [this, Int.toNat_natCast]

theorem idx_row (i r s : Nat) (h : r < s) : ((i : Int) * s + r) / (s : Int) = i := by
  have e : ((i : Int) * s + r) = ((s * i + r : Nat) : Int) := by push_cast; ring
  rw [e]
  norm_cast
  rw [Nat.mul_add_div (by omega), Nat.div_eq_of_lt h, Nat.add_zero]
theorem inBounds_blur (R C D : Nat) (hD : 1 ≤ D) (hfit : R * C * D ≤ 2147483647) (b : Buf)
    (hb : b = Buf.inputPixels ∨ b = Buf.outputPixels) (e : Int) (st : Bool)
    (h : 0 ≤ e ∧ e < ((R * C * D : Nat) : Int)) :
    InBounds (blurLen R C D) (Access.mk b e st) := by
  rcases hb with rfl | rfl
  · exact h
  · show 0 ≤ e ∧ e < (((imul (imul (R : Int) (C : Int)) (D : Int)).toNat : Nat) : Int)
    rw [alloc3_eq R C D hD hfit]
    exact h

theorem inBounds_canny (R C : Nat) (hfit : R * C ≤ 2147483647) (b : Buf) (e : Int) (st : Bool)
    (h : 0 ≤ e ∧ e < ((R * C : Nat) : Int)) : InBounds (cannyLen R C) (Access.mk b e st) := by
  cases b
  · exact h
  · show 0 ≤ e ∧ e < (((imul (R : Int) (C : Int)).toNat : Nat) : Int)
    rw [alloc2_eq R C hfit]
    exact h
  · show 0 ≤ e ∧ e < (((imul (R : Int) (C : Int)).toNat : Nat) : Int)
    rw [alloc2_eq R C hfit]
    exact h
  · show 0 ≤ e ∧ e < (((imul (R : Int) (C : Int)).toNat : Nat) : Int)
    rw [alloc2_eq R C hfit]
    exact h

theorem offsets5_mem (x : Int) (h : x ∈ offsets5) : -2 ≤ x ∧ x ≤ 2 := by
  simp only [offsets5, List.mem_cons, List.mem_singleton, List.not_mem_nil, or_false] at h
  omega

theorem offsets3_mem (x : Int) (h : x ∈ offsets3) : -1 ≤ x ∧ x ≤ 1 := by
  simp only [offsets3, List.mem_cons, List.mem_singleton, List.not_mem_nil, or_false] at h
  omega

theorem blurCellAccesses_ok (d : ThreadData) (hD : 1 ≤ d.sizeDepth)
    (hfit : d.sizeRows * d.sizeCols * d.sizeDepth ≤ 2147483647)
    (hRs : d.sizeRows + 2 ≤ 2147483647) (hCs : d.sizeCols + 2 ≤ 2147483647) (i j k : Nat)
    (hi : i < d.sizeRows) (hj : j < d.sizeCols) (hk : k < d.sizeDepth) (a : Access)
    (ha : a ∈ blurCellAccesses d i j k) :
    InBounds (blurLen d.sizeRows d.sizeCols d.sizeDepth) a ∧
      (a.store = true → a.idx / ((d.sizeCols * d.sizeDepth : Nat) : Int) = i) := by
  unfold blurCellAccesses at ha
  rw [List.mem_append] at ha
  rcases ha with ha | ha
  · simp only [List.mem_flatMap] at ha
    obtain ⟨y, hy, x, hx, hm⟩ := ha
    have bx := offsets5_mem x hx
    have by' := offsets5_mem y hy
    rw [iadd_eq (i : Int) x (by omega) (by omega), iadd_eq (j : Int) y (by omega) (by omega)]
      at hm
    split at hm
    · next hg =>
      rw [List.mem_singleton] at hm
      subst hm
      refine ⟨?_, fun h => by simp at h⟩
      apply inBounds_blur _ _ _ hD hfit _ (Or.inl rfl)
      rw [idx3_eval _ _ _ hfit _ _ _ hg.1 hg.2.1 hg.2.2.1 hg.2.2.2 (Int.natCast_nonneg k)
        (by exact_mod_cast hk)]
      exact idx3_bounds _ _ _ _ _ _ hg.1 hg.2.1 hg.2.2.1 hg.2.2.2 (Int.natCast_nonneg k)
        (by exact_mod_cast hk)
    · simp at hm
  · rw [List.mem_singleton] at ha
    subst ha
    have he := idx3_eval _ _ _ hfit (i : Int) (j : Int) (k : Int) (Int.natCast_nonneg i)
      (by exact_mod_cast hi) (Int.natCast_nonneg j) (by exact_mod_cast hj)
      (Int.natCast_nonneg k) (by exact_mod_cast hk)
    refine ⟨?_, fun _ => ?_⟩
    · apply inBounds_blur _ _ _ hD hfit _ (Or.inr rfl)
      rw [he]
      exact idx3_bounds _ _ _ _ _ _ (Int.natCast_nonneg i) (by exact_mod_cast hi)
        (Int.natCast_nonneg j) (by exact_mod_cast hj) (Int.natCast_nonneg k)
        (by exact_mod_cast hk)
    · have hr : j * d.sizeDepth + k < d.sizeCols * d.sizeDepth := idx_lt _ _ j k hj hk
      have e : (i : Int) * d.sizeCols * d.sizeDepth + j * d.sizeDepth + k =
          (i : Int) * ((d.sizeCols * d.sizeDepth : Nat) : Int) +
            ((j * d.sizeDepth + k : Nat) : Int) := by push_cast; ring
      show idx3 d.sizeCols d.sizeDepth i j k / _ = _
      rw [he, e]
      exact idx_row i _ _ hr

theorem grayCellAccesses_ok (d : ThreadData) (hD : 1 ≤ d.sizeDepth)
    (hfit : d.sizeRows * d.sizeCols * d.sizeDepth ≤ 2147483647) (i j : Nat)
    (hi : i < d.sizeRows) (hj : j < d.sizeCols) (a : Access)
    (ha : a ∈ grayCellAccesses d i j) :
    InBounds (grayLen d.sizeRows d.sizeCols d.sizeDepth) a ∧
      (a.store = true → a.idx / (d.sizeCols : Int) = i) := by
  have hfit2 : d.sizeRows * d.sizeCols ≤ 2147483647 :=
    le_trans (Nat.le_mul_of_pos_right _ (by omega)) hfit
  unfold grayCellAccesses at ha
  rw [List.mem_append] at ha
  rcases ha with ha | ha
  · rw [List.mem_map] at ha
    obtain ⟨k, hk, hm⟩ := ha
    rw [List.mem_range] at hk
    subst hm
    refine ⟨?_, fun h => by simp at h⟩
    show 0 ≤ idx3 d.sizeCols d.sizeDepth i j k ∧ idx3 d.sizeCols d.sizeDepth i j k <
      ((d.sizeRows * d.sizeCols * d.sizeDepth : Nat) : Int)
    rw [idx3_eval _ _ _ hfit (i : Int) (j : Int) (k : Int) (Int.natCast_nonneg i)
      (by exact_mod_cast hi) (Int.natCast_nonneg j) (by exact_mod_cast hj)
      (Int.natCast_nonneg k) (by exact_mod_cast hk)]
    exact idx3_bounds _ _ _ _ _ _ (Int.natCast_nonneg i) (by exact_mod_cast hi)
      (Int.natCast_nonneg j) (by exact_mod_cast hj) (Int.natCast_nonneg k)
      (by exact_mod_cast hk)
  · rw [List.mem_singleton] at ha
    subst ha
    have he := idx2_eval _ _ hfit2 (i : Int) (j : Int) (Int.natCast_nonneg i)
      (by exact_mod_cast hi) (Int.natCast_nonneg j) (by exact_mod_cast hj)
    refine ⟨?_, fun _ => ?_⟩
    · show 0 ≤ idx2 d.sizeCols i j ∧ idx2 d.sizeCols i j <
        (((imul (d.sizeRows : Int) (d.sizeCols : Int)).toNat : Nat) : Int)
      rw [alloc2_eq _ _ hfit2, he]
      exact idx2_bounds _ _ _ _ (Int.natCast_nonneg i) (by exact_mod_cast hi)
        (Int.natCast_nonneg j) (by exact_mod_cast hj)
    · show idx2 d.sizeCols i j / _ = _
      rw [he]
      exact idx_row i j _ hj

theorem nb_ok (R C i j : Nat) (hint : Interior R C i j) (hfit : R * C ≤ 2147483647)
    (x y : Int) (hx : -1 ≤ x ∧ x ≤ 1)
    (hy : -1 ≤ y ∧ y ≤ 1) (e : Int) (he : e = ((i : Int) + x) * C + ((j : Int) + y))
    (b : Buf) (st : Bool) (hst : st = true → x = 0 ∧ y = 0) :
    InBounds (cannyLen R C) (Access.mk b e st) ∧
      ((Access.mk b e st).store = true → (Access.mk b e st).idx / (C : Int) = i) := by
  obtain ⟨h1, h2, h3, h4⟩ := hint
  constructor
  · apply inBounds_canny R C hfit
    rw [he]
    exact idx2_bounds _ _ R C (by omega) (by omega) (by omega) (by omega)
  · intro h
    obtain ⟨ex, ey⟩ := hst h
    show e / (C : Int) = i
    rw [he, ex, ey, add_zero, add_zero]
    exact idx_row i j C (by omega)

theorem wrap_interior (R C i j : Nat) (hint : Interior R C i j) (hfit : R * C ≤ 2147483647)
    (x y : Int) (hx : -1 ≤ x ∧ x ≤ 1) (hy : -1 ≤ y ∧ y ≤ 1) :
    iadd (i : Int) x = i + x ∧ iadd (j : Int) y = j + y ∧
    idx2 C ((i : Int) + x) ((j : Int) + y) = ((i : Int) + x) * C + ((j : Int) + y) ∧
    idx2 C ((i : Int) + x) j = ((i : Int) + x) * C + j ∧
    iadd (((i : Int) + x) * C + j) y = ((i : Int) + x) * C + j + y := by
  obtain ⟨h1, h2, h3, h4⟩ := hint
  have hf : ((R * C : Nat) : Int) ≤ 2147483647 := by exact_mod_cast hfit
  have hR : R ≤ R * C := Nat.le_mul_of_pos_right _ (by omega)
  have hC : C ≤ R * C := Nat.le_mul_of_pos_left _ (by omega)
  have b1 := idx2_bounds ((i : Int) + x) ((j : Int) + y) R C (by omega) (by omega) (by omega)
    (by omega)
  refine ⟨iadd_eq _ _ (by omega) (by omega), iadd_eq _ _ (by omega) (by omega),
    idx2_eval R C hfit _ _ (by omega) (by omega) (by omega) (by omega),
    idx2_eval R C hfit _ _ (by omega) (by omega) (by omega) (by omega),
    iadd_eq _ _ (by omega) (by omega)⟩
theorem wrap_own (R C i j : Nat) (hint : Interior R C i j) (hfit : R * C ≤ 2147483647)
    (y : Int) (hy : -1 ≤ y ∧ y ≤ 1) :
    idx2 C (i : Int) (j : Int) = (i : Int) * C + j ∧
      iadd ((i : Int) * C + j) y = (i : Int) * C + j + y := by
  have w := wrap_interior R C i j hint hfit 0 y (by omega) hy
  simp only [add_zero] at w
  exact ⟨w.2.2.2.1, w.2.2.2.2⟩

theorem own_ok (R C i j : Nat) (hint : Interior R C i j) (hfit : R * C ≤ 2147483647)
    (b : Buf) (st : Bool) :
    InBounds (cannyLen R C) (Access.mk b (idx2 C i j) st) ∧
      ((Access.mk b (idx2 C i j) st).store = true →
        (Access.mk b (idx2 C i j) st).idx / (C : Int) = i) :=
  nb_ok R C i j hint hfit 0 0 (by omega) (by omega) _
    (by rw [(wrap_own R C i j hint hfit 0 (by omega)).1]; ring) _ _ (fun _ => ⟨rfl, rfl⟩)

theorem phase1CellAccesses_ok (R C : Nat) (hfit : R * C ≤ 2147483647) (d : ThreadData)
    (hd : d.sizeCols = C) (i j : Nat)
    (hint : Interior R C i j) (a : Access) (ha : a ∈ phase1CellAccesses d i j) :
    InBounds (cannyLen R C) a ∧ (a.store = true → a.idx / (C : Int) = i) := by
  unfold phase1CellAccesses at ha
  rw [hd, List.mem_append] at ha
  rcases ha with ha | ha
  · simp only [List.mem_flatMap] at ha
    obtain ⟨x, hx, y, hy, hm⟩ := ha
    simp only [List.mem_cons, List.mem_singleton, List.not_mem_nil, or_false, or_self] at hm
    subst hm
    have w := wrap_interior R C i j hint hfit x y (offsets3_mem x hx) (offsets3_mem y hy)
    exact nb_ok R C i j hint hfit x y (offsets3_mem x hx) (offsets3_mem y hy) _
      (by rw [w.1, w.2.2.2.1, w.2.2.2.2]; ring) _ _ (fun h => by simp at h)
  · simp only [List.mem_cons, List.mem_singleton, List.not_mem_nil, or_false] at ha
    rcases ha with rfl | rfl | rfl | rfl | rfl | rfl <;> exact own_ok R C i j hint hfit _ _

theorem phase2CellAccesses_ok (R C : Nat) (hfit : R * C ≤ 2147483647) (d : ThreadData)
    (hd : d.sizeCols = C)
    (theta : List Int) (i j : Nat) (hint : Interior R C i j) (a : Access)
    (ha : a ∈ phase2CellAccesses d theta i j) :
    InBounds (cannyLen R C) a ∧ (a.store = true → a.idx / (C : Int) = i) := by
  have wo := fun y hy => wrap_own R C i j hint hfit y hy
  have wp := fun y hy => wrap_interior R C i j hint hfit 1 y (by omega) hy
  have wm := fun y hy => wrap_interior R C i j hint hfit (-1) y (by omega) hy
  unfold phase2CellAccesses at ha
  rw [hd, List.mem_append, List.mem_append] at ha
  rcases ha with (ha | ha) | ha
  · simp only [List.mem_cons, List.mem_singleton, List.not_mem_nil, or_false] at ha
    rcases ha with rfl | rfl <;> exact own_ok R C i j hint hfit _ _
  · unfold phase2Neighbours at ha
    rw [hd] at ha
    simp only [isub_eq_iadd] at ha
    split at ha
    · simp only [List.mem_cons, List.mem_singleton, List.not_mem_nil, or_false] at ha
      rcases ha with rfl | rfl
      · exact nb_ok R C i j hint hfit 0 (-1) (by omega) (by omega) _
          (by rw [(wo (-1) (by omega)).1, (wo (-1) (by omega)).2]; ring) _ _
          (fun h => by simp at h)
      · exact nb_ok R C i j hint hfit 0 1 (by omega) (by omega) _
          (by rw [(wo 1 (by omega)).1, (wo 1 (by omega)).2]; ring) _ _
          (fun h => by simp at h)
    · split at ha
      · simp only [List.mem_cons, List.mem_singleton, List.not_mem_nil, or_false] at ha
        rcases ha with rfl | rfl
        · exact nb_ok R C i j hint hfit 1 1 (by omega) (by omega) _
            (by rw [(wp 1 (by omega)).1, (wp 1 (by omega)).2.2.2.1,
              (wp 1 (by omega)).2.2.2.2]; ring) _ _ (fun h => by simp at h)
        · exact nb_ok R C i j hint hfit (-1) (-1) (by omega) (by omega) _
            (by rw [(wm (-1) (by omega)).1, (wm (-1) (by omega)).2.2.2.1,
              (wm (-1) (by omega)).2.2.2.2]; ring) _ _ (fun h => by simp at h)
      · split at ha
        · simp only [List.mem_cons, List.mem_singleton, List.not_mem_nil, or_false] at ha
          rcases ha with rfl | rfl
          · exact nb_ok R C i j hint hfit 1 0 (by omega) (by omega) _
              (by rw [(wp 0 (by omega)).1, (wp 0 (by omega)).2.2.2.1]; ring) _ _
              (fun h => by simp at h)
          · exact nb_ok R C i j hint hfit (-1) 0 (by omega) (by omega) _
              (by rw [(wm 0 (by omega)).1, (wm 0 (by omega)).2.2.2.1]; ring) _ _
              (fun h => by simp at h)
        · simp only [List.mem_cons, List.mem_singleton, List.not_mem_nil, or_false] at ha
          rcases ha with rfl | rfl
          · exact nb_ok R C i j hint hfit 1 (-1) (by omega) (by omega) _
              (by rw [(wp (-1) (by omega)).1, (wp (-1) (by omega)).2.2.2.1,
                (wp (-1) (by omega)).2.2.2.2]; ring) _ _ (fun h => by simp at h)
          · exact nb_ok R C i j hint hfit (-1) 1 (by omega) (by omega) _
              (by rw [(wm 1 (by omega)).1, (wm 1 (by omega)).2.2.2.1,
                (wm 1 (by omega)).2.2.2.2]; ring) _ _ (fun h => by simp at h)
  · simp only [List.mem_cons, List.mem_singleton, List.not_mem_nil, or_false] at ha
    rcases ha with rfl | rfl | rfl <;> exact own_ok R C i j hint hfit _ _

theorem hystCellAccesses_ok (R C : Nat) (hfit : R * C ≤ 2147483647) (i j : Nat)
    (hint : Interior R C i j) (a : Access)
    (ha : a ∈ hystCellAccesses C i j) : InBounds (cannyLen R C) a := by
  unfold hystCellAccesses at ha
  rw [List.mem_append, List.mem_append] at ha
  rcases ha with (ha | ha) | ha
  · simp only [List.mem_cons, List.mem_singleton, List.not_mem_nil, or_false] at ha
    rcases ha with rfl | rfl | rfl | rfl | rfl <;> exact (own_ok R C i j hint hfit _ _).1
  · rw [List.mem_map] at ha
    obtain ⟨⟨x, y⟩, ho, hm⟩ := ha
    dsimp only at hm
    subst hm
    simp only [neighbours8, List.mem_cons, List.mem_singleton, List.not_mem_nil, or_false,
      Prod.mk.injEq] at ho
    have hx : -1 ≤ x ∧ x ≤ 1 := by omega
    have hy : -1 ≤ y ∧ y ≤ 1 := by omega
    have w := wrap_interior R C i j hint hfit x y hx hy
    exact (nb_ok R C i j hint hfit x y hx hy _ (by rw [w.1, w.2.1, w.2.2.1]) _ _
      (fun h => by simp at h)).1
  · simp only [List.mem_cons, List.mem_singleton, List.not_mem_nil, or_false] at ha
    rcases ha with rfl | rfl | rfl <;> exact (own_ok R C i j hint hfit _ _).1
theorem cell_in_bounds (R C : Nat) (hfit : R * C ≤ 2147483647) (a b e : Int) (ha0 : 0 ≤ a)
    (ha : a < R) (hb0 : 0 ≤ b) (hb : b < C) (he : e = a * C + b) (buf : Buf) (st : Bool) :
    InBounds (cannyLen R C) (Access.mk buf e st) := by
  apply inBounds_canny R C hfit
  rw [he]
  exact idx2_bounds a b R C ha0 ha hb0 hb

theorem borderFixupAccesses_ok (R C : Nat) (hR : 3 ≤ R) (hC : 3 ≤ C)
    (hfit : R * C ≤ 2147483647) (a : Access)
    (ha : a ∈ borderFixupAccesses R C) : InBounds (cannyLen R C) a := by
  have hf : ((R * C : Nat) : Int) ≤ 2147483647 := by exact_mod_cast hfit
  have hR3 : 3 * C ≤ R * C := Nat.mul_le_mul_right C hR
  have hC3 : R * 3 ≤ R * C := Nat.mul_le_mul_left R hC
  have hR3' : (3 : Int) * C ≤ ((R * C : Nat) : Int) := by exact_mod_cast hR3
  have hC3' : (R : Int) * 3 ≤ ((R * C : Nat) : Int) := by exact_mod_cast hC3
  have e2 : isub (R : Int) 2 = R - 2 := int32_eq _ (by omega) (by omega)
  have e1 : isub (R : Int) 1 = R - 1 := int32_eq _ (by omega) (by omega)
  unfold borderFixupAccesses at ha
  rw [List.mem_append] at ha
  rcases ha with ha | ha
  · simp only [List.mem_flatMap, List.mem_range'_1] at ha
    obtain ⟨j, hj, hm⟩ := ha
    have ec : iadd (C : Int) j = 1 * C + j := by
      rw [iadd_eq _ _ (by omega) (by omega)]; ring
    have em2 := idx2_eval R C hfit ((R : Int) - 2) j (by omega) (by omega) (by omega)
      (by omega)
    have em1 := idx2_eval R C hfit ((R : Int) - 1) j (by omega) (by omega) (by omega)
      (by omega)
    rw [e1, e2, em1, em2] at hm
    clear em1 em2 e1 e2 hR3' hC3' hf hR3 hC3
    simp only [List.mem_cons, List.mem_singleton, List.not_mem_nil, or_false] at hm
    rcases hm with rfl | rfl | rfl | rfl | rfl | rfl | rfl | rfl
    · exact cell_in_bounds R C hfit 1 j _ (by omega) (by omega) (by omega) (by omega) ec _ _
    · exact cell_in_bounds R C hfit 0 j _ (by omega) (by omega) (by omega) (by omega)
        (by ring) _ _
    · exact cell_in_bounds R C hfit 1 j _ (by omega) (by omega) (by omega) (by omega) ec _ _
    · exact cell_in_bounds R C hfit 0 j _ (by omega) (by omega) (by omega) (by omega)
        (by ring) _ _
    · exact cell_in_bounds R C hfit ((R : Int) - 2) j _ (by omega) (by omega) (by omega)
        (by omega) rfl _ _
    · exact cell_in_bounds R C hfit ((R : Int) - 1) j _ (by omega) (by omega) (by omega)
        (by omega) rfl _ _
    · exact cell_in_bounds R C hfit ((R : Int) - 2) j _ (by omega) (by omega) (by omega)
        (by omega) rfl _ _
    · exact cell_in_bounds R C hfit ((R : Int) - 1) j _ (by omega) (by omega) (by omega)
        (by omega) rfl _ _
  · simp only [List.mem_flatMap, List.mem_range] at ha
    obtain ⟨i, hi, hm⟩ := ha
    have b0 := idx2_bounds (i : Int) ((C : Int) - 1) R C (by omega) (by omega) (by omega)
      (by omega)
    have hiC : 0 ≤ (i : Int) * C := mul_nonneg (by omega) (by omega)
    push_cast at b0 hf
    have em : imul (i : Int) C = i * C := imul_eq _ _ (by omega) (by omega)
    have ea : iadd ((i : Int) * C) C = i * C + C := iadd_eq _ _ (by omega) (by omega)
    have es2 : isub ((i : Int) * C + C) 2 = i * C + C - 2 := int32_eq _ (by omega) (by omega)
    have es1 : isub ((i : Int) * C + C) 1 = i * C + C - 1 := int32_eq _ (by omega) (by omega)
    have eo := idx2_eval R C hfit (i : Int) 1 (by omega) (by omega) (by omega) (by omega)
    rw [em, ea, es1, es2, eo] at hm
    clear em ea es1 es2 eo b0 hiC e1 e2 hR3' hC3' hf hR3 hC3
    simp only [List.mem_cons, List.mem_singleton, List.not_mem_nil, or_false] at hm
    rcases hm with rfl | rfl | rfl | rfl | rfl | rfl | rfl | rfl
    · exact cell_in_bounds R C hfit i 1 _ (by omega) (by omega) (by omega) (by omega) rfl _ _
    · exact cell_in_bounds R C hfit i 0 _ (by omega) (by omega) (by omega) (by omega)
        (by ring) _ _
    · exact cell_in_bounds R C hfit i 1 _ (by omega) (by omega) (by omega) (by omega) rfl _ _
    · exact cell_in_bounds R C hfit i 0 _ (by omega) (by omega) (by omega) (by omega)
        (by ring) _ _
    · exact cell_in_bounds R C hfit i ((C : Int) - 2) _ (by omega) (by omega) (by omega)
        (by omega) (by ring) _ _
    · exact cell_in_bounds R C hfit i ((C : Int) - 1) _ (by omega) (by omega) (by omega)
        (by omega) (by ring) _ _
    · exact cell_in_bounds R C hfit i ((C : Int) - 2) _ (by omega) (by omega) (by omega)
        (by omega) (by ring) _ _
    · exact cell_in_bounds R C hfit i ((C : Int) - 1) _ (by omega) (by omega) (by omega)
        (by omega) (by ring) _ _

theorem hystSweepAccesses_ok (R C : Nat) (hfit : R * C ≤ 2147483647) (a : Access)
    (ha : a ∈ hystSweepAccesses R C) : InBounds (cannyLen R C) a := by
  unfold hystSweepAccesses at ha
  simp only [List.mem_flatMap, List.mem_range'_1] at ha
  obtain ⟨i, hi, j, hj, hm⟩ := ha
  exact hystCellAccesses_ok R C hfit i j ⟨by omega, by omega, by omega, by omega⟩ a hm

theorem ownRows_of_row (d : ThreadData) (stride i : Nat) (h1 : d.startRow ≤ i)
    (h2 : i < d.endRow) (a : Access) (h : a.store = true → a.idx / (stride : Int) = i) :
    OwnRows d stride a := by
  intro hs
  rw [h hs]
  exact ⟨by exact_mod_cast h1, by exact_mod_cast h2⟩

theorem idx3_large_image :
    idx3 65536 1 ((1 : Nat) : Int) ((0 : Nat) : Int) ((0 : Nat) : Int) = 65536 := by
  decide

/-- C23 fails for large images: for a 65537 x 65536 single-channel image the `int` product
`sizeRows * sizeCols * sizeDepth` wraps to 65536, so `gaussianBlur_parallel` allocates an
output buffer of 65536 entries, and the store for pixel `(1, 0)` uses index 65536, outside
that buffer. -/
theorem large_image_store_out_of_bounds :
    (3 ≤ 65537 ∧ 3 ≤ 65536 ∧ 1 ≤ 1) ∧
    blurLen 65537 65536 1 Buf.inputPixels = 65537 * 65536 * 1 ∧
    blurLen 65537 65536 1 Buf.outputPixels = 65536 ∧
    ∃ a ∈ gaussianBlurAccesses (mkThreadData 1 65537 65536 1 0 0 0 0),
      a.buf = Buf.outputPixels ∧ a.store = true ∧ a.idx = 65536 ∧
      ¬ InBounds (blurLen 65537 65536 1) a := by
  refine ⟨by decide, rfl, by decide, Access.mk Buf.outputPixels 65536 true, ?_, rfl, rfl, rfl,
    ?_⟩
  · unfold gaussianBlurAccesses
    simp only [List.mem_flatMap, List.mem_range'_1, List.mem_range]
    refine ⟨1, ⟨by decide, by decide⟩, 0, by decide, 0, by decide, ?_⟩
    unfold blurCellAccesses
    rw [List.mem_append]
    right
    rw [List.mem_singleton]
    show Access.mk Buf.outputPixels 65536 true = Access.mk Buf.outputPixels
      (idx3 65536 1 ((1 : Nat) : Int) ((0 : Nat) : Int) ((0 : Nat) : Int)) true
    rw [idx3_large_image]
  · intro h
    have h2 : (65536 : Int) < ((blurLen 65537 65536 1 Buf.outputPixels : Nat) : Int) := h.2
    have e : blurLen 65537 65536 1 Buf.outputPixels = 65536 := by decide
    rw [e] at h2
    omega

/-- C23 as amended: for every image with at least 3 rows, 3 columns and 1 channel whose size
`rows * cols * channels` fits a 32-bit `int` (at most 2147483647), every worker count `N`
in `[1,16]` and every worker `t < N`, every index that `gaussianBlurWorker`,
`rgbToGrayscaleWorker`, `cannyPhase1Worker`, `cannyPhase2Worker` (for every content of the
direction buffer), the border fixup and a hysteresis sweep compute in `int` arithmetic lies
inside the buffer it addresses, and every store of a worker goes to a row of its own range
`[startRow, endRow)`. -/
theorem accesses_in_bounds (N : Nat) (hN1 : 1 ≤ N) (hN16 : N ≤ 16) (R C D : Nat) (hR : 3 ≤ R)
    (hC : 3 ≤ C) (hD : 1 ≤ D) (hfit : R * C * D ≤ 2147483647) (kc lt ht : ℚ) (t : Nat)
    (ht' : t < N) :
    (∀ a ∈ gaussianBlurAccesses (mkThreadData N R C D kc lt ht t),
      InBounds (blurLen R C D) a ∧ OwnRows (mkThreadData N R C D kc lt ht t) (C * D) a) ∧
    (∀ a ∈ rgbToGrayscaleAccesses (mkThreadData N R C D kc lt ht t),
      InBounds (grayLen R C D) a ∧ OwnRows (mkThreadData N R C D kc lt ht t) C a) ∧
    (∀ a ∈ cannyPhase1Accesses (mkThreadData N R C D kc lt ht t),
      InBounds (cannyLen R C) a ∧ OwnRows (mkThreadData N R C D kc lt ht t) C a) ∧
    (∀ theta, ∀ a ∈ cannyPhase2Accesses (mkThreadData N R C D kc lt ht t) theta,
      InBounds (cannyLen R C) a ∧ OwnRows (mkThreadData N R C D kc lt ht t) C a) ∧
    (∀ a ∈ borderFixupAccesses R C, InBounds (cannyLen R C) a) ∧
    (∀ a ∈ hystSweepAccesses R C, InBounds (cannyLen R C) a) := by
  have _h := And.intro hN1 hN16
  have hend : endRowOf R N t ≤ R := endRowOf_le R N t ht'
  have hfit2 : R * C ≤ 2147483647 := le_trans (Nat.le_mul_of_pos_right _ (by omega)) hfit
  have hR3 : 3 * C ≤ R * C := Nat.mul_le_mul_right C hR
  have hC3 : R * 3 ≤ R * C := Nat.mul_le_mul_left R hC
  have hRs : R + 2 ≤ 2147483647 := by omega
  have hCs : C + 2 ≤ 2147483647 := by omega
  refine ⟨?_, ?_, ?_, ?_, fun a ha => borderFixupAccesses_ok R C hR hC hfit2 a ha,
    fun a ha => hystSweepAccesses_ok R C hfit2 a ha⟩
  · intro a ha
    unfold gaussianBlurAccesses at ha
    simp only [List.mem_flatMap, List.mem_range'_1, List.mem_range] at ha
    obtain ⟨i, hi, j, hj, k, hk, hm⟩ := ha
    have hi1 : startRowOf R N t ≤ i := hi.1
    have hi2 : i < endRowOf R N t := by
      have : i < startRowOf R N t + (endRowOf R N t - startRowOf R N t) := hi.2
      omega
    obtain ⟨b1, b2⟩ := blurCellAccesses_ok (mkThreadData N R C D kc lt ht t) hD hfit hRs hCs
      i j k (show i < R by omega) hj hk a hm
    exact ⟨b1, ownRows_of_row _ (C * D) i hi1 hi2 a b2⟩
  · intro a ha
    unfold rgbToGrayscaleAccesses at ha
    simp only [List.mem_flatMap, List.mem_range'_1, List.mem_range] at ha
    obtain ⟨i, hi, j, hj, hm⟩ := ha
    have hi1 : startRowOf R N t ≤ i := hi.1
    have hi2 : i < endRowOf R N t := by
      have : i < startRowOf R N t + (endRowOf R N t - startRowOf R N t) := hi.2
      omega
    obtain ⟨b1, b2⟩ := grayCellAccesses_ok (mkThreadData N R C D kc lt ht t) hD hfit i j
      (show i < R by omega) hj a hm
    exact ⟨b1, ownRows_of_row _ C i hi1 hi2 a b2⟩
  · intro a ha
    unfold cannyPhase1Accesses at ha
    simp only [List.mem_flatMap, List.mem_range'_1] at ha
    obtain ⟨i, hi, j, hj, hm⟩ := ha
    have hi1 : max 1 (startRowOf R N t) ≤ i := hi.1
    have hi2 : i < max 1 (startRowOf R N t) +
        (min (R - 1) (endRowOf R N t) - max 1 (startRowOf R N t)) := hi.2
    have hj2 : j < 1 + (C - 1 - 1) := hj.2
    obtain ⟨b1, b2⟩ := phase1CellAccesses_ok R C hfit2 (mkThreadData N R C D kc lt ht t) rfl
      i j ⟨by omega, by omega, hj.1, by omega⟩ a hm
    exact ⟨b1, ownRows_of_row _ C i (show startRowOf R N t ≤ i by omega)
      (show i < endRowOf R N t by omega) a b2⟩
  · intro theta a ha
    unfold cannyPhase2Accesses at ha
    simp only [List.mem_flatMap, List.mem_range'_1] at ha
    obtain ⟨i, hi, j, hj, hm⟩ := ha
    have hi1 : max 1 (startRowOf R N t) ≤ i := hi.1
    have hi2 : i < max 1 (startRowOf R N t) +
        (min (R - 1) (endRowOf R N t) - max 1 (startRowOf R N t)) := hi.2
    have hj2 : j < 1 + (C - 1 - 1) := hj.2
    obtain ⟨b1, b2⟩ := phase2CellAccesses_ok R C hfit2 (mkThreadData N R C D kc lt ht t) rfl
      theta i j ⟨by omega, by omega, hj.1, by omega⟩ a hm
    exact ⟨b1, ownRows_of_row _ C i (show startRowOf R N t ≤ i by omega)
      (show i < endRowOf R N t by omega) a b2⟩

/-- Witness of the amended C23: worker 1 of 2 on a 3x3 image with 3 channels. -/
theorem accesses_in_bounds_witness :
    (∀ a ∈ gaussianBlurAccesses (mkThreadData 2 3 3 3 0 0 0 1),
      InBounds (blurLen 3 3 3) a ∧ OwnRows (mkThreadData 2 3 3 3 0 0 0 1) (3 * 3) a) ∧
    (∀ a ∈ rgbToGrayscaleAccesses (mkThreadData 2 3 3 3 0 0 0 1),
      InBounds (grayLen 3 3 3) a ∧ OwnRows (mkThreadData 2 3 3 3 0 0 0 1) 3 a) ∧
    (∀ a ∈ cannyPhase1Accesses (mkThreadData 2 3 3 3 0 0 0 1),
      InBounds (cannyLen 3 3) a ∧ OwnRows (mkThreadData 2 3 3 3 0 0 0 1) 3 a) ∧
    (∀ theta, ∀ a ∈ cannyPhase2Accesses (mkThreadData 2 3 3 3 0 0 0 1) theta,
      InBounds (cannyLen 3 3) a ∧ OwnRows (mkThreadData 2 3 3 3 0 0 0 1) 3 a) ∧
    (∀ a ∈ borderFixupAccesses 3 3, InBounds (cannyLen 3 3) a) ∧
    (∀ a ∈ hystSweepAccesses 3 3, InBounds (cannyLen 3 3) a) :=
  accesses_in_bounds 2 (by decide) (by decide) 3 3 3 (by decide) (by decide) (by decide)
    (by decide) 0 0 0 1 (by decide)

end Canny
